import Mathlib

/-!
Shallow embedding of the core of the falcon binary-analysis framework:
the generic directed graph (src/falcon/graph.rs), the dominator engine,
the control flow graph (src/lib/il/control_flow_graph.rs) and the
def-use / use-def chain builder (src/lib/analysis/def_use.rs).

Modelling conventions:
  - u64 indices are modelled as Nat. No index arithmetic in the embedded
    code can overflow in any claim under consideration (indices are only
    compared for equality, and allocators only increment).
  - Rust Result is modelled by RRes, which also distinguishes a panic
    (unwrap of None / missing map key) and running out of fuel for loops
    whose termination the Rust code does not establish structurally.
  - HashMap is modelled as an association list in insertion order with
    first-occurrence lookup; BTreeSet of u64 as a sorted duplicate-free
    list of Nat, whose list order is the set iteration order.
  - Mutation is modelled by explicit state passing.
-/

namespace Falcon

/-- Modelled Rust result: ok, error, panic (unwrap failure), out of fuel. -/
inductive RRes (α : Type) where
  | ok (a : α)
  | err (msg : String)
  | panicked
  | fuelout
deriving Repr, DecidableEq

namespace RRes

def bind {α β : Type} : RRes α → (α → RRes β) → RRes β
  | ok a, f => f a
  | err m, _ => err m
  | panicked, _ => panicked
  | fuelout, _ => fuelout

instance : Monad RRes where
  pure := ok
  bind := bind

@[simp] theorem bind_ok {α β : Type} (a : α) (f : α → RRes β) : bind (ok a) f = f a := rfl

@[simp] theorem bind_err {α β : Type} (m : String) (f : α → RRes β) :
    bind (err m) f = err m := rfl

@[simp] theorem bind_panicked {α β : Type} (f : α → RRes β) :
    bind (panicked : RRes α) f = panicked := rfl

@[simp] theorem bind_fuelout {α β : Type} (f : α → RRes β) :
    bind (fuelout : RRes α) f = fuelout := rfl

@[simp] theorem monad_bind_eq_bind {α β : Type} (x : RRes α) (f : α → RRes β) :
    x >>= f = bind x f := rfl

/-- Whether a result is ok, as a decidable check. -/
def isOkB {α : Type} : RRes α → Bool
  | .ok _ => true
  | _ => false

theorem isOkB_iff {α : Type} (r : RRes α) : r.isOkB = true ↔ ∃ x, r = .ok x := by
  cases r <;> simp [isOkB]

end RRes

/-! Association-list maps, modelling HashMap / BTreeMap.
Lookup returns the first entry with the given key; insert replaces the
first occurrence in place or appends; remove drops the first occurrence;
update modifies the first occurrence and is a no-op when the key is
absent (modelling get_mut(..).map(..)). -/

section Maps

variable {κ α : Type} [DecidableEq κ]

def mget : List (κ × α) → κ → Option α
  | [], _ => none
  | (k2, v) :: rest, k => if k2 = k then some v else mget rest k

def mcontains (m : List (κ × α)) (k : κ) : Bool :=
  (mget m k).isSome

def minsert : List (κ × α) → κ → α → List (κ × α)
  | [], k, v => [(k, v)]
  | (k2, v2) :: rest, k, v =>
    if k2 = k then (k2, v) :: rest else (k2, v2) :: minsert rest k v

def mremove : List (κ × α) → κ → List (κ × α)
  | [], _ => []
  | (k2, v) :: rest, k => if k2 = k then rest else (k2, v) :: mremove rest k

def mupdate : List (κ × α) → κ → (α → α) → List (κ × α)
  | [], _, _ => []
  | (k2, v) :: rest, k, f =>
    if k2 = k then (k2, f v) :: rest else (k2, v) :: mupdate rest k f

def mkeys (m : List (κ × α)) : List κ :=
  m.map (·.1)

@[simp] theorem mget_nil (k : κ) : mget ([] : List (κ × α)) k = none := rfl

@[simp] theorem mget_cons (k2 : κ) (v : α) (rest : List (κ × α)) (k : κ) :
    mget ((k2, v) :: rest) k = if k2 = k then some v else mget rest k := rfl

theorem mget_isSome_of_mem_keys {m : List (κ × α)} {k : κ} (h : k ∈ mkeys m) :
    (mget m k).isSome := by
  induction m with
  | nil => simp [mkeys] at h
  | cons p rest ih =>
    obtain ⟨k2, v⟩ := p
    simp only [mkeys, List.map_cons, List.mem_cons] at h
    by_cases hk : k2 = k
    · simp [hk]
    · simp only [mget_cons, if_neg hk]
      rcases h with h | h
      · exact absurd h.symm hk
      · exact ih h

theorem mem_keys_of_mget_isSome {m : List (κ × α)} {k : κ} (h : (mget m k).isSome) :
    k ∈ mkeys m := by
  induction m with
  | nil => simp [mget] at h
  | cons p rest ih =>
    obtain ⟨k2, v⟩ := p
    by_cases hk : k2 = k
    · simp [mkeys, hk]
    · simp only [mget_cons, if_neg hk] at h
      simp only [mkeys, List.map_cons, List.mem_cons]
      exact Or.inr (ih h)

theorem mget_eq_some_of_mem_nodup {m : List (κ × α)} {k : κ} {v : α}
    (hnd : (mkeys m).Nodup) (hmem : (k, v) ∈ m) : mget m k = some v := by
  induction m with
  | nil => simp at hmem
  | cons p rest ih =>
    obtain ⟨k2, v2⟩ := p
    simp only [mkeys, List.map_cons, List.nodup_cons] at hnd
    rcases List.mem_cons.mp hmem with h | h
    · obtain ⟨h1, h2⟩ := Prod.mk.injEq .. ▸ h
      simp [mget, h1.symm, h2]
    · have hk : k2 ≠ k := by
        intro he
        exact hnd.1 (he ▸ (List.mem_map.mpr ⟨(k, v), h, rfl⟩))
      simp only [mget_cons, if_neg hk]
      exact ih hnd.2 h

theorem mem_of_mget_eq_some {m : List (κ × α)} {k : κ} {v : α}
    (h : mget m k = some v) : (k, v) ∈ m := by
  induction m with
  | nil => simp [mget] at h
  | cons p rest ih =>
    obtain ⟨k2, v2⟩ := p
    by_cases hk : k2 = k
    · simp only [mget_cons, if_pos hk, Option.some.injEq] at h
      exact List.mem_cons.mpr (Or.inl (by rw [hk, h]))
    · simp only [mget_cons, if_neg hk] at h
      exact List.mem_cons.mpr (Or.inr (ih h))

@[simp] theorem mkeys_minsert (m : List (κ × α)) (k : κ) (v : α) :
    mkeys (minsert m k v) = if (mget m k).isSome then mkeys m else mkeys m ++ [k] := by
  induction m with
  | nil => simp [minsert, mkeys, mget]
  | cons p rest ih =>
    obtain ⟨k2, v2⟩ := p
    by_cases hk : k2 = k
    · simp [minsert, hk, mkeys, mget]
    · simp only [mkeys] at ih
      simp only [minsert, if_neg hk, mkeys, List.map_cons, mget_cons, if_neg hk, ih]
      by_cases hs : (mget rest k).isSome
      · simp [hs]
      · simp [hs]

theorem mget_minsert_self (m : List (κ × α)) (k : κ) (v : α) :
    mget (minsert m k v) k = some v := by
  induction m with
  | nil => simp [minsert, mget]
  | cons p rest ih =>
    obtain ⟨k2, v2⟩ := p
    by_cases hk : k2 = k
    · simp [minsert, hk, mget]
    · simp [minsert, hk, mget, ih]

theorem mget_minsert_ne (m : List (κ × α)) (k k2 : κ) (v : α) (h : k ≠ k2) :
    mget (minsert m k v) k2 = mget m k2 := by
  induction m with
  | nil => simp [minsert, mget, h]
  | cons p rest ih =>
    obtain ⟨k3, v3⟩ := p
    by_cases hk : k3 = k
    · subst hk
      simp [minsert, mget, h]
    · simp [minsert, hk, mget, ih]

theorem mget_mupdate_self (m : List (κ × α)) (k : κ) (f : α → α) :
    mget (mupdate m k f) k = (mget m k).map f := by
  induction m with
  | nil => simp [mupdate, mget]
  | cons p rest ih =>
    obtain ⟨k2, v2⟩ := p
    by_cases hk : k2 = k
    · simp [mupdate, hk, mget]
    · simp [mupdate, hk, mget, ih]

theorem mget_mupdate_ne (m : List (κ × α)) (k k2 : κ) (f : α → α) (h : k ≠ k2) :
    mget (mupdate m k f) k2 = mget m k2 := by
  induction m with
  | nil => simp [mupdate, mget]
  | cons p rest ih =>
    obtain ⟨k3, v3⟩ := p
    by_cases hk : k3 = k
    · subst hk
      simp [mupdate, mget, h]
    · simp [mupdate, hk, mget, ih]

@[simp] theorem mkeys_mupdate (m : List (κ × α)) (k : κ) (f : α → α) :
    mkeys (mupdate m k f) = mkeys m := by
  induction m with
  | nil => simp [mupdate]
  | cons p rest ih =>
    obtain ⟨k2, v2⟩ := p
    by_cases hk : k2 = k
    · simp [mupdate, hk, mkeys]
    · simp [mupdate, hk, mkeys, mkeys] at ih ⊢
      exact ih

theorem mget_mremove_ne (m : List (κ × α)) (k k2 : κ) (h : k ≠ k2) :
    mget (mremove m k) k2 = mget m k2 := by
  induction m with
  | nil => simp [mremove]
  | cons p rest ih =>
    obtain ⟨k3, v3⟩ := p
    by_cases hk : k3 = k
    · subst hk
      by_cases hr : (mget rest k2).isSome
      · simp [mremove, mget, h]
      · simp [mremove, mget, h]
    · simp [mremove, hk, mget, ih]

theorem mremove_minsert_of_absent (m : List (κ × α)) (k : κ) (v : α)
    (h : mget m k = none) : mremove (minsert m k v) k = m := by
  induction m with
  | nil => simp [minsert, mremove]
  | cons p rest ih =>
    obtain ⟨k2, v2⟩ := p
    by_cases hk : k2 = k
    · simp [mget, hk] at h
    · simp only [mget_cons, if_neg hk] at h
      simp [minsert, hk, mremove, ih h]

end Maps

/-! The graph data model from src/falcon/graph.rs. Vertices and edges are
capability-style: any payload exposing an index, respectively head and
tail indices. -/

class IsVertex (V : Type) where
  index : V → Nat

class IsEdge (E : Type) where
  head : E → Nat
  tail : E → Nat

/-- NullVertex from graph.rs: a vertex payload carrying only its index. -/
structure NullVertex where
  index : Nat
deriving Repr, DecidableEq

instance : IsVertex NullVertex := ⟨NullVertex.index⟩

/-- NullEdge from graph.rs: an edge payload carrying only its endpoints. -/
structure NullEdge where
  head : Nat
  tail : Nat
deriving Repr, DecidableEq

instance : IsEdge NullEdge := ⟨NullEdge.head, NullEdge.tail⟩

/-- The directed graph structure from graph.rs, fields as in the source. -/
structure Graph (V E : Type) where
  head : Option Nat
  vertices : List (Nat × V)
  edges : List ((Nat × Nat) × E)
  edges_out : List (Nat × List E)
  edges_in : List (Nat × List E)
deriving Repr, DecidableEq

namespace Graph

variable {V E : Type} [IsVertex V] [IsEdge E]

def new : Graph V E :=
  ⟨none, [], [], [], []⟩

def num_vertices (g : Graph V E) : Nat :=
  g.vertices.length

def has_vertex (g : Graph V E) (index : Nat) : Bool :=
  mcontains g.vertices index

def set_head (g : Graph V E) (index : Nat) : RRes (Graph V E) :=
  if ¬ mcontains g.vertices index then
    .err "Cannot set head for index that does not exist"
  else
    .ok { g with head := some index }

def insert_vertex (g : Graph V E) (v : V) : RRes (Graph V E) :=
  if mcontains g.vertices (IsVertex.index v) then .err "duplicate vertex index"
  else .ok { g with
    vertices := minsert g.vertices (IsVertex.index v) v,
    edges_out := minsert g.edges_out (IsVertex.index v) [],
    edges_in := minsert g.edges_in (IsVertex.index v) [] }

def insert_edge (g : Graph V E) (e : E) : RRes (Graph V E) :=
  if mcontains g.edges (IsEdge.head e, IsEdge.tail e) then .err "duplicate edge"
  else .ok { g with
    edges := minsert g.edges (IsEdge.head e, IsEdge.tail e) e,
    edges_out := mupdate g.edges_out (IsEdge.head e) (fun l => l ++ [e]),
    edges_in := mupdate g.edges_in (IsEdge.tail e) (fun l => l ++ [e]) }

/-- The in-place removal of the edge (head, tail) from an adjacency vector:
find the first index holding an edge with these endpoints and remove it;
the unwrap of the index panics when no element matches. -/
def removeEdgeVec (head tail : Nat) : List E → RRes (List E)
  | [] => .panicked
  | e :: rest =>
    if IsEdge.head e = head ∧ IsEdge.tail e = tail then .ok rest
    else (removeEdgeVec head tail rest).bind fun r => .ok (e :: r)

def remove_edge (g : Graph V E) (head tail : Nat) : RRes (Graph V E) :=
  if ¬ mcontains g.edges (head, tail) then .err "edge does not exist"
  else
    let edges2 := mremove g.edges (head, tail)
    match mget g.edges_out head with
    | none => .panicked
    | some lOut =>
      (removeEdgeVec head tail lOut).bind fun lOut2 =>
      match mget g.edges_in tail with
      | none => .panicked
      | some lIn =>
        (removeEdgeVec head tail lIn).bind fun lIn2 =>
        .ok { g with
          edges := edges2,
          edges_out := minsert g.edges_out head lOut2,
          edges_in := minsert g.edges_in tail lIn2 }

def removeEdgesList (g : Graph V E) : List (Nat × Nat) → RRes (Graph V E)
  | [] => .ok g
  | (h, t) :: rest => (g.remove_edge h t).bind fun g2 => g2.removeEdgesList rest

def remove_vertex (g : Graph V E) (index : Nat) : RRes (Graph V E) :=
  if ¬ g.has_vertex index then .err "vertex does not exist"
  else
    let pairsOut := ((mget g.edges_out index).getD []).map
      (fun e => (IsEdge.head e, IsEdge.tail e))
    let pairsIn := ((mget g.edges_in index).getD []).map
      (fun e => (IsEdge.head e, IsEdge.tail e))
    let g2 := { g with vertices := mremove g.vertices index }
    (g2.removeEdgesList (pairsOut ++ pairsIn)).bind fun g3 =>
      .ok { g3 with
        edges_in := mremove g3.edges_in index,
        edges_out := mremove g3.edges_out index }

/-- The fallible edges_out accessor from graph.rs. -/
def edges_out_res (g : Graph V E) (index : Nat) : RRes (List E) :=
  match mget g.edges_out index with
  | some l => .ok l
  | none => .err "vertex does not exist"

/-- The fallible edges_in accessor from graph.rs. -/
def edges_in_res (g : Graph V E) (index : Nat) : RRes (List E) :=
  match mget g.edges_in index with
  | some l => .ok l
  | none => .err "vertex does not exist"

/-- The fallible vertex accessor from graph.rs. -/
def vertex_res (g : Graph V E) (index : Nat) : RRes V :=
  match mget g.vertices index with
  | some v => .ok v
  | none => .err "index does not exist"

/-- The graph invariants stated in the specification: vertices are keyed
by their index, edge keys agree with the payload endpoints, every edge
endpoint is a vertex, the adjacency maps are keyed exactly by the vertex
indices, and each adjacency sequence holds exactly the edges of the edges
map incident on its vertex. -/
structure WF (g : Graph V E) : Prop where
  nd_v : (mkeys g.vertices).Nodup
  nd_e : (mkeys g.edges).Nodup
  vkey : ∀ p ∈ g.vertices, IsVertex.index p.2 = p.1
  keys_out : mkeys g.edges_out = mkeys g.vertices
  keys_in : mkeys g.edges_in = mkeys g.vertices
  ekey : ∀ p ∈ g.edges, p.1 = (IsEdge.head p.2, IsEdge.tail p.2)
  endpoints : ∀ p ∈ g.edges,
    (IsEdge.head p.2) ∈ mkeys g.vertices ∧ (IsEdge.tail p.2) ∈ mkeys g.vertices
  out_sound : ∀ q ∈ g.edges_out, ∀ e ∈ q.2,
    IsEdge.head e = q.1 ∧ mget g.edges (q.1, IsEdge.tail e) = some e
  out_nodup : ∀ q ∈ g.edges_out, (q.2.map IsEdge.tail).Nodup
  out_complete : ∀ p ∈ g.edges, p.2 ∈ (mget g.edges_out (IsEdge.head p.2)).getD []
  in_sound : ∀ q ∈ g.edges_in, ∀ e ∈ q.2,
    IsEdge.tail e = q.1 ∧ mget g.edges (IsEdge.head e, q.1) = some e
  in_nodup : ∀ q ∈ g.edges_in, (q.2.map IsEdge.head).Nodup
  in_complete : ∀ p ∈ g.edges, p.2 ∈ (mget g.edges_in (IsEdge.tail p.2)).getD []

end Graph

section MapMore

variable {κ α : Type} [DecidableEq κ]

theorem mupdate_of_absent (m : List (κ × α)) (k : κ) (f : α → α)
    (h : mget m k = none) : mupdate m k f = m := by
  induction m with
  | nil => rfl
  | cons p rest ih =>
    obtain ⟨k2, v2⟩ := p
    by_cases hk : k2 = k
    · simp [mget, hk] at h
    · simp only [mget_cons, if_neg hk] at h
      simp [mupdate, hk, ih h]

theorem minsert_mupdate_cancel (m : List (κ × α)) (k : κ) (f : α → α) (v : α) :
    minsert (mupdate m k f) k v = minsert m k v := by
  induction m with
  | nil => rfl
  | cons p rest ih =>
    obtain ⟨k2, v2⟩ := p
    by_cases hk : k2 = k
    · simp [mupdate, minsert, hk]
    · simp [mupdate, minsert, hk, ih]

theorem minsert_of_mget_eq (m : List (κ × α)) (k : κ) (v : α)
    (h : mget m k = some v) : minsert m k v = m := by
  induction m with
  | nil => simp [mget] at h
  | cons p rest ih =>
    obtain ⟨k2, v2⟩ := p
    by_cases hk : k2 = k
    · simp only [mget_cons, if_pos hk, Option.some.injEq] at h
      simp [minsert, hk, h]
    · simp only [mget_cons, if_neg hk] at h
      simp [minsert, hk, ih h]

end MapMore

namespace Graph

variable {V E : Type} [IsVertex V] [IsEdge E]

theorem removeEdgeVec_append_singleton (h t : Nat) (l : List E) (e : E)
    (hn : ∀ x ∈ l, ¬(IsEdge.head x = h ∧ IsEdge.tail x = t))
    (he : IsEdge.head e = h) (hte : IsEdge.tail e = t) :
    removeEdgeVec h t (l ++ [e]) = .ok l := by
  induction l with
  | nil => simp [removeEdgeVec, he, hte]
  | cons x rest ih =>
    have hx := hn x (List.mem_cons_self x rest)
    have ihr := ih (fun y hy => hn y (List.mem_cons_of_mem x hy))
    simp only [List.cons_append, removeEdgeVec, if_neg hx, List.append_eq, ihr]
    rfl

/-- C8 core: inserting a fresh edge between existing vertices and then
removing it restores the graph exactly. -/
theorem insert_remove_roundtrip (g : Graph V E) (e : E) (hwf : g.WF)
    (hh : IsEdge.head e ∈ mkeys g.vertices) (ht : IsEdge.tail e ∈ mkeys g.vertices)
    (habs : mget g.edges (IsEdge.head e, IsEdge.tail e) = none) :
    ∃ g1, g.insert_edge e = .ok g1 ∧
      g1.remove_edge (IsEdge.head e) (IsEdge.tail e) = .ok g := by
  have hnc : mcontains g.edges (IsEdge.head e, IsEdge.tail e) = false := by
    simp [mcontains, habs]
  refine ⟨{ g with
      edges := minsert g.edges (IsEdge.head e, IsEdge.tail e) e,
      edges_out := mupdate g.edges_out (IsEdge.head e) (fun l => l ++ [e]),
      edges_in := mupdate g.edges_in (IsEdge.tail e) (fun l => l ++ [e]) },
    by simp [insert_edge, hnc], ?_⟩
  set h := IsEdge.head e with hdef
  set t := IsEdge.tail e with tdef
  -- the intermediate graph after insertion
  have houtk : h ∈ mkeys g.edges_out := hwf.keys_out ▸ hh
  have hink : t ∈ mkeys g.edges_in := hwf.keys_in ▸ ht
  obtain ⟨lOut, hlOut⟩ := Option.isSome_iff_exists.mp (mget_isSome_of_mem_keys houtk)
  obtain ⟨lIn, hlIn⟩ := Option.isSome_iff_exists.mp (mget_isSome_of_mem_keys hink)
  have hOutNew : mget (mupdate g.edges_out h (fun l => l ++ [e])) h = some (lOut ++ [e]) := by
    rw [mget_mupdate_self, hlOut]; rfl
  have hInNew : mget (mupdate g.edges_in t (fun l => l ++ [e])) t = some (lIn ++ [e]) := by
    rw [mget_mupdate_self, hlIn]; rfl
  have hOutClean : ∀ x ∈ lOut, ¬(IsEdge.head x = h ∧ IsEdge.tail x = t) := by
    intro x hx hcon
    have := (hwf.out_sound (h, lOut) (mem_of_mget_eq_some hlOut) x hx).2
    rw [hcon.2] at this
    rw [this] at habs
    exact Option.noConfusion habs
  have hInClean : ∀ x ∈ lIn, ¬(IsEdge.head x = h ∧ IsEdge.tail x = t) := by
    intro x hx hcon
    have := (hwf.in_sound (t, lIn) (mem_of_mget_eq_some hlIn) x hx).2
    rw [hcon.1] at this
    rw [this] at habs
    exact Option.noConfusion habs
  have hcont2 : mcontains (minsert g.edges (h, t) e) (h, t) = true := by
    simp [mcontains, mget_minsert_self]
  simp only [remove_edge, hcont2, Bool.not_true, reduceIte, hOutNew, hInNew]
  rw [removeEdgeVec_append_singleton h t lOut e hOutClean hdef.symm tdef.symm]
  simp only [RRes.bind_ok]
  rw [removeEdgeVec_append_singleton h t lIn e hInClean hdef.symm tdef.symm]
  simp only [RRes.bind_ok, RRes.ok.injEq]
  rw [mremove_minsert_of_absent _ _ _ habs,
      minsert_mupdate_cancel, minsert_mupdate_cancel,
      minsert_of_mget_eq _ _ _ hlOut, minsert_of_mget_eq _ _ _ hlIn]
  simp

/-- C9 core: insert_edge succeeds even when an endpoint vertex is absent,
recording the edge in the edges map while leaving the corresponding
adjacency map without any entry for that endpoint. -/
theorem insert_edge_missing_vertex (g : Graph V E) (e : E) (hwf : g.WF)
    (habs : mget g.edges (IsEdge.head e, IsEdge.tail e) = none) :
    ∃ g1, g.insert_edge e = .ok g1 ∧
      mget g1.edges (IsEdge.head e, IsEdge.tail e) = some e ∧
      (IsEdge.head e ∉ mkeys g.vertices → mget g1.edges_out (IsEdge.head e) = none) ∧
      (IsEdge.tail e ∉ mkeys g.vertices → mget g1.edges_in (IsEdge.tail e) = none) := by
  have hnc : mcontains g.edges (IsEdge.head e, IsEdge.tail e) = false := by
    simp [mcontains, habs]
  refine ⟨{ g with
      edges := minsert g.edges (IsEdge.head e, IsEdge.tail e) e,
      edges_out := mupdate g.edges_out (IsEdge.head e) (fun l => l ++ [e]),
      edges_in := mupdate g.edges_in (IsEdge.tail e) (fun l => l ++ [e]) },
    by simp [insert_edge, hnc], mget_minsert_self .., ?_, ?_⟩
  · intro hnh
    have : IsEdge.head e ∉ mkeys g.edges_out := by rw [hwf.keys_out]; exact hnh
    have hnone : mget g.edges_out (IsEdge.head e) = none := by
      cases hmg : mget g.edges_out (IsEdge.head e) with
      | none => rfl
      | some l => exact absurd (mem_keys_of_mget_isSome (by simp [hmg])) this
    simp only [mget_mupdate_self, hnone]
    rfl
  · intro hnt
    have : IsEdge.tail e ∉ mkeys g.edges_in := by rw [hwf.keys_in]; exact hnt
    have hnone : mget g.edges_in (IsEdge.tail e) = none := by
      cases hmg : mget g.edges_in (IsEdge.tail e) with
      | none => rfl
      | some l => exact absurd (mem_keys_of_mget_isSome (by simp [hmg])) this
    simp only [mget_mupdate_self, hnone]
    rfl

end Graph

/-! BTreeSet of u64 modelled as a sorted duplicate-free list of Nat; the
list itself is the iteration order of the set. Every operation preserves
sortedness and freedom from duplicates, so equal sets are equal lists on
every value the embedded algorithms construct. -/

/-- Ordered insertion without duplication, as BTreeSet insert. -/
def nsInsert (x : Nat) : List Nat → List Nat
  | [] => [x]
  | y :: rest =>
    if x < y then x :: y :: rest
    else if x = y then y :: rest
    else y :: nsInsert x rest

/-- Building a set by inserting the elements of a list in order. -/
def nsOfList (l : List Nat) : List Nat :=
  l.foldl (fun s h => nsInsert h s) []

/-- Inserting every element of t into s, as repeated BTreeSet inserts. -/
def nsUnion (s t : List Nat) : List Nat :=
  t.foldl (fun a x => nsInsert x a) s

/-- Set intersection, as the BTreeSet bitand operator. -/
def nsInter (s t : List Nat) : List Nat :=
  s.filter (fun x => decide (x ∈ t))

/-- Set difference: the elements of s missing from t. -/
def nsDiff (s t : List Nat) : List Nat :=
  s.filter (fun x => decide (x ∉ t))

/-- Removal of one element, as BTreeSet remove. -/
def nsErase (x : Nat) (s : List Nat) : List Nat :=
  s.filter (fun y => decide (y ≠ x))

@[simp] theorem mem_nsInsert (a x : Nat) (s : List Nat) :
    a ∈ nsInsert x s ↔ a = x ∨ a ∈ s := by
  induction s with
  | nil => simp [nsInsert]
  | cons y rest ih =>
    simp only [nsInsert]
    split
    · simp
    · split
      · rename_i h1 h2
        subst h2
        simp only [List.mem_cons]
        tauto
      · simp only [List.mem_cons, ih]
        tauto

@[simp] theorem mem_nsUnion (a : Nat) (s t : List Nat) :
    a ∈ nsUnion s t ↔ a ∈ s ∨ a ∈ t := by
  induction t generalizing s with
  | nil => simp [nsUnion]
  | cons x rest ih =>
    simp only [nsUnion, List.foldl_cons] at *
    rw [ih]
    simp only [mem_nsInsert, List.mem_cons]
    tauto

@[simp] theorem mem_nsInter (a : Nat) (s t : List Nat) :
    a ∈ nsInter s t ↔ a ∈ s ∧ a ∈ t := by
  simp [nsInter, List.mem_filter]

@[simp] theorem mem_nsDiff (a : Nat) (s t : List Nat) :
    a ∈ nsDiff s t ↔ a ∈ s ∧ a ∉ t := by
  simp [nsDiff, List.mem_filter]

@[simp] theorem mem_nsErase (a x : Nat) (s : List Nat) :
    a ∈ nsErase x s ↔ a ∈ s ∧ a ≠ x := by
  simp [nsErase, List.mem_filter]

@[simp] theorem mem_nsOfList (a : Nat) (l : List Nat) :
    a ∈ nsOfList l ↔ a ∈ l := by
  have key : ∀ (l : List Nat) (s : List Nat),
      a ∈ l.foldl (fun s h => nsInsert h s) s ↔ a ∈ l ∨ a ∈ s := by
    intro l
    induction l with
    | nil => simp
    | cons x rest ih =>
      intro s
      simp only [List.foldl_cons, ih, mem_nsInsert, List.mem_cons]
      tauto
  simp [nsOfList, key]

namespace Graph

variable {V E : Type} [IsVertex V] [IsEdge E]

/-! The dominator engine from graph.rs. The work-queue loops of
compute_predecessors, the BFS of compute_acyclic, the main loop of
compute_dominators and the runner walk of compute_dominance_frontiers are
modelled with explicit fuel, since the Rust code does not establish their
termination structurally; running out of fuel is a distinguished outcome
and every theorem about these functions is conditioned on an ok result. -/

/-- Initial population of compute_predecessors: each vertex, in map
iteration order, is seeded with the set of heads of its incoming edges. -/
def initPreds (g : Graph V E) : List (Nat × V) → RRes (List (Nat × List Nat))
  | [] => .ok []
  | (i, _) :: rest =>
    (g.edges_in_res i).bind fun ins =>
    (initPreds g rest).bind fun tailm =>
    .ok ((i, nsOfList (ins.map IsEdge.head)) :: tailm)

/-- One pass over the popped vertex's predecessor set: union the
predecessor sets of its current predecessors, panicking when one of them
has no entry, and return the elements not already present. -/
def collectNewPreds (preds : List (Nat × List Nat)) (pv : List Nat) :
    List Nat → RRes (List Nat)
  | [] => .ok []
  | p :: rest =>
    match mget preds p with
    | none => .panicked
    | some ps =>
      (collectNewPreds preds pv rest).bind fun acc =>
      .ok (nsUnion acc (nsDiff ps pv))

/-- The work-queue loop of compute_predecessors: pop a vertex, add the
predecessors of its predecessors, and re-enqueue its successors whenever
its set grew. -/
def predLoop (g : Graph V E) : Nat → List (Nat × List Nat) → List Nat →
    RRes (List (Nat × List Nat))
  | 0, _, _ => .fuelout
  | _ + 1, preds, [] => .ok preds
  | fuel + 1, preds, v :: queue =>
    match mget preds v with
    | none => .panicked
    | some pv =>
      (collectNewPreds preds pv pv).bind fun toAdd =>
      let preds2 := minsert preds v (nsUnion pv toAdd)
      if toAdd = [] then predLoop g fuel preds2 queue
      else
        (g.edges_out_res v).bind fun outs =>
        predLoop g fuel preds2 (queue ++ outs.map IsEdge.tail)

/-- compute_predecessors from graph.rs: transitive predecessor sets. -/
def compute_predecessors (g : Graph V E) (fuel : Nat) :
    RRes (List (Nat × List Nat)) :=
  (initPreds g g.vertices).bind fun preds =>
  predLoop g fuel preds (mkeys g.vertices)

/-- Vertex copying pass of compute_acyclic. -/
def insertNullVertices : Graph NullVertex NullEdge → List (Nat × V) →
    RRes (Graph NullVertex NullEdge)
  | acc, [] => .ok acc
  | acc, (i, _) :: rest =>
    (acc.insert_vertex (NullVertex.mk i)).bind fun acc2 =>
    insertNullVertices acc2 rest

/-- Edge pass for one popped vertex of the BFS in compute_acyclic: skip
edges to visited transitive predecessors (back edges), enqueue unseen
successors, insert every non-skipped edge. -/
def acyclicEdges (visited : List Nat) (vpreds : List Nat) :
    List E → Graph NullVertex NullEdge → List Nat →
    RRes (Graph NullVertex NullEdge × List Nat)
  | [], dag, queue => .ok (dag, queue)
  | e :: rest, dag, queue =>
    if IsEdge.tail e ∈ visited ∧ IsEdge.tail e ∈ vpreds then
      acyclicEdges visited vpreds rest dag queue
    else
      let queue2 := if IsEdge.tail e ∉ visited ∧ IsEdge.tail e ∉ queue
        then queue ++ [IsEdge.tail e] else queue
      (dag.insert_edge (NullEdge.mk (IsEdge.head e) (IsEdge.tail e))).bind fun dag2 =>
      acyclicEdges visited vpreds rest dag2 queue2

/-- The BFS loop of compute_acyclic. -/
def bfsLoop (g : Graph V E) (preds : List (Nat × List Nat)) :
    Nat → Graph NullVertex NullEdge → List Nat → List Nat →
    RRes (Graph NullVertex NullEdge)
  | 0, _, _, _ => .fuelout
  | _ + 1, dag, _, [] => .ok dag
  | fuel + 1, dag, visited, v :: queue =>
    let visited2 := if v ∈ visited then visited else visited ++ [v]
    match mget preds v with
    | none => .panicked
    | some vpreds =>
      match mget g.edges_out v with
      | none => .panicked
      | some outs =>
        (acyclicEdges visited2 vpreds outs dag queue).bind fun p =>
        bfsLoop g preds fuel p.1 visited2 p.2

/-- compute_acyclic from graph.rs: copy the vertex indices, then BFS from
start over outgoing edges, dropping edges into visited transitive
predecessors. -/
def compute_acyclic (g : Graph V E) (start fuel : Nat) :
    RRes (Graph NullVertex NullEdge) :=
  (insertNullVertices Graph.new g.vertices).bind fun dag0 =>
  (g.compute_predecessors fuel).bind fun preds =>
  bfsLoop g preds fuel dag0 [] [start]

/-- The scan over a popped vertex's transitive predecessors in
compute_dominators: enqueue, once each, the predecessors that have no
dominator entry yet; the flag records whether all entries were present. -/
def scanPreds (doms : List (Nat × List Nat)) :
    List Nat → List Nat → List Nat × Bool
  | [], queue => (queue, true)
  | p :: rest, queue =>
    if mcontains doms p then scanPreds doms rest queue
    else
      let queue2 := if p ∈ queue then queue else queue ++ [p]
      ((scanPreds doms rest queue2).1, false)

/-- The refinement pass of compute_dominators: intersect with the
dominator set of every incoming-edge head lying in the transitive
predecessor set. -/
def intersectDoms (doms : List (Nat × List Nat)) (vpreds : List Nat) :
    List E → List Nat → RRes (List Nat)
  | [], acc => .ok acc
  | e :: rest, acc =>
    if IsEdge.head e ∈ vpreds then
      match mget doms (IsEdge.head e) with
      | none => .panicked
      | some ds => intersectDoms doms vpreds rest (nsInter acc ds)
    else intersectDoms doms vpreds rest acc

/-- Push each element not already enqueued. -/
def enqueueTails (queue : List Nat) : List Nat → List Nat
  | [] => queue
  | t :: rest => enqueueTails (if t ∈ queue then queue else queue ++ [t]) rest

/-- The main work-queue loop of compute_dominators. -/
def domLoop (g : Graph V E) (dag : Graph NullVertex NullEdge)
    (preds : List (Nat × List Nat)) :
    Nat → List (Nat × List Nat) → List Nat → RRes (List (Nat × List Nat))
  | 0, _, _ => .fuelout
  | _ + 1, doms, [] => .ok doms
  | fuel + 1, doms, v :: queue =>
    match mget preds v with
    | none => .panicked
    | some vpreds =>
      let scan := scanPreds doms vpreds queue
      if scan.2 = false then
        domLoop g dag preds fuel doms (scan.1 ++ [v])
      else
        (dag.edges_in_res v).bind fun dagIns =>
        (match dagIns.head? with
         | some e =>
           match mget doms (IsEdge.head e) with
           | none => RRes.panicked
           | some s => RRes.ok s
         | none => RRes.ok []).bind fun seed =>
        (match mget g.edges_in v with
         | none => RRes.panicked
         | some ins => RRes.ok ins).bind fun ins =>
        (intersectDoms doms vpreds ins seed).bind fun dInter =>
        let doms2 := minsert doms v (nsInsert v dInter)
        (match mget dag.edges_out v with
         | none => RRes.panicked
         | some outs => RRes.ok outs).bind fun outs =>
        domLoop g dag preds fuel doms2 (enqueueTails queue (outs.map IsEdge.tail))

/-- compute_dominators from graph.rs. -/
def compute_dominators (g : Graph V E) (start fuel : Nat) :
    RRes (List (Nat × List Nat)) :=
  if ¬ g.has_vertex start then .err "vertex not in graph"
  else
    (match mget g.edges_out start with
     | none => RRes.panicked
     | some outs => RRes.ok outs).bind fun outs =>
    (g.compute_acyclic start fuel).bind fun dag =>
    (dag.compute_predecessors fuel).bind fun preds =>
    domLoop g dag preds fuel [(start, [start])] (outs.map IsEdge.tail)

/-- The inner check of compute_immediate_dominators: a strict dominator
is the immediate dominator when it is contained in no other strict
dominator's dominator set. -/
def idomCheck (doms : List (Nat × List Nat)) (sdom : Nat) :
    List Nat → RRes Bool
  | [] => .ok true
  | s2 :: rest =>
    if s2 = sdom then idomCheck doms sdom rest
    else
      match mget doms s2 with
      | none => .panicked
      | some d2 =>
        if sdom ∈ d2 then .ok false
        else idomCheck doms sdom rest

/-- Select the first strict dominator passing idomCheck, in sorted set
iteration order. -/
def findIdom (doms : List (Nat × List Nat)) (sdoms : List Nat) :
    List Nat → RRes (Option Nat)
  | [] => .ok none
  | sdom :: rest =>
    (idomCheck doms sdom sdoms).bind fun isIdom =>
    if isIdom then .ok (some sdom)
    else findIdom doms sdoms rest

/-- The per-vertex loop of compute_immediate_dominators. -/
def idomsFold (doms : List (Nat × List Nat)) :
    List (Nat × V) → List (Nat × Nat) → RRes (List (Nat × Nat))
  | [], idoms => .ok idoms
  | (i, _) :: rest, idoms =>
    match mget doms i with
    | none => .panicked
    | some dv =>
      let sdoms := nsErase i dv
      (findIdom doms sdoms sdoms).bind fun found =>
      match found with
      | some d => idomsFold doms rest (minsert idoms i d)
      | none => idomsFold doms rest idoms

/-- compute_immediate_dominators from graph.rs. -/
def compute_immediate_dominators (g : Graph V E) (start fuel : Nat) :
    RRes (List (Nat × Nat)) :=
  (g.compute_dominators start fuel).bind fun doms =>
  idomsFold doms g.vertices []

/-- The runner walk of compute_dominance_frontiers for one incoming edge
of a join point. -/
def dfWhile (idoms : List (Nat × Nat)) (vIdx eHead : Nat) :
    Nat → List (Nat × List Nat) → Nat → RRes (List (Nat × List Nat))
  | 0, _, _ => .fuelout
  | fuel + 1, df, runner =>
    match mget idoms eHead with
    | none => .ok df
    | some ihd =>
      if runner = ihd then .ok df
      else
        match mget df runner with
        | none => .panicked
        | some s =>
          let df2 := minsert df runner (nsInsert vIdx s)
          match mget idoms runner with
          | none => .ok df2
          | some r2 => dfWhile idoms vIdx eHead fuel df2 r2

/-- The walk over the incoming edges of one join point. -/
def dfEdges (idoms : List (Nat × Nat)) (vIdx : Nat) (fuel : Nat) :
    List E → List (Nat × List Nat) → RRes (List (Nat × List Nat))
  | [], df => .ok df
  | e :: rest, df =>
    (dfWhile idoms vIdx (IsEdge.head e) fuel df (IsEdge.head e)).bind fun df2 =>
    dfEdges idoms vIdx fuel rest df2

/-- The per-vertex loop of compute_dominance_frontiers: only join points
with at least two incoming edges contribute. -/
def dfFold (g : Graph V E) (idoms : List (Nat × Nat)) (fuel : Nat) :
    List (Nat × V) → List (Nat × List Nat) → RRes (List (Nat × List Nat))
  | [], df => .ok df
  | (i, _) :: rest, df =>
    match mget g.edges_in i with
    | none => .panicked
    | some ins =>
      if ins.length ≥ 2 then
        (dfEdges idoms i fuel ins df).bind fun df2 => dfFold g idoms fuel rest df2
      else dfFold g idoms fuel rest df

/-- compute_dominance_frontiers from graph.rs. -/
def compute_dominance_frontiers (g : Graph V E) (start fuel : Nat) :
    RRes (List (Nat × List Nat)) :=
  (g.compute_immediate_dominators start fuel).bind fun idoms =>
  dfFold g idoms fuel g.vertices (g.vertices.map (fun p => (p.1, ([] : List Nat))))

end Graph

namespace Graph

variable {V E : Type} [IsVertex V] [IsEdge E]

/-- The edge relation of a graph on vertex indices: the key (u, w) is in
the edges map. -/
def erel (g : Graph V E) (u w : Nat) : Prop :=
  (mget g.edges (u, w)).isSome

theorem WF.erel_endpoints {g : Graph V E} (hwf : g.WF) {u w : Nat}
    (h : g.erel u w) : u ∈ mkeys g.vertices ∧ w ∈ mkeys g.vertices := by
  obtain ⟨e, he⟩ := Option.isSome_iff_exists.mp h
  have hmem := mem_of_mget_eq_some he
  have hkey := hwf.ekey _ hmem
  have hend := hwf.endpoints _ hmem
  obtain ⟨h1, h2⟩ := Prod.mk.injEq .. ▸ hkey
  rw [h1, h2]
  exact hend

theorem WF.erel_mem_out {g : Graph V E} (hwf : g.WF) {v w : Nat}
    (h : g.erel v w) {outs : List E} (houts : mget g.edges_out v = some outs) :
    ∃ e ∈ outs, IsEdge.tail e = w := by
  obtain ⟨e, he⟩ := Option.isSome_iff_exists.mp h
  have hmem := mem_of_mget_eq_some he
  have hkey := hwf.ekey _ hmem
  obtain ⟨h1, h2⟩ := Prod.mk.injEq .. ▸ hkey
  have hcomp := hwf.out_complete _ hmem
  rw [← h1, houts] at hcomp
  exact ⟨e, hcomp, h2.symm⟩

theorem WF.erel_mem_in {g : Graph V E} (hwf : g.WF) {u w : Nat}
    (h : g.erel u w) {ins : List E} (hins : mget g.edges_in w = some ins) :
    ∃ e ∈ ins, IsEdge.head e = u := by
  obtain ⟨e, he⟩ := Option.isSome_iff_exists.mp h
  have hmem := mem_of_mget_eq_some he
  have hkey := hwf.ekey _ hmem
  obtain ⟨h1, h2⟩ := Prod.mk.injEq .. ▸ hkey
  have hcomp := hwf.in_complete _ hmem
  rw [← h2, hins] at hcomp
  exact ⟨e, hcomp, h1.symm⟩

theorem WF.in_mem_erel {g : Graph V E} (hwf : g.WF) {w : Nat} {ins : List E}
    (hins : mget g.edges_in w = some ins) {e : E} (he : e ∈ ins) :
    g.erel (IsEdge.head e) w := by
  have := (hwf.in_sound _ (mem_of_mget_eq_some hins) e he).2
  simp [erel, this]

theorem WF.out_mem_erel {g : Graph V E} (hwf : g.WF) {v : Nat} {outs : List E}
    (houts : mget g.edges_out v = some outs) {e : E} (he : e ∈ outs) :
    g.erel v (IsEdge.tail e) := by
  have h2 : mget g.edges (v, IsEdge.tail e) = some e :=
    (hwf.out_sound (v, outs) (mem_of_mget_eq_some houts) e he).2
  simp [erel, h2]

theorem minsert_append_of_absent {κ α : Type} [DecidableEq κ]
    (m : List (κ × α)) (k : κ) (v : α) (h : mget m k = none) :
    minsert m k v = m ++ [(k, v)] := by
  induction m with
  | nil => rfl
  | cons p rest ih =>
    obtain ⟨k2, v2⟩ := p
    by_cases hk : k2 = k
    · simp [mget, hk] at h
    · simp only [mget_cons, if_neg hk] at h
      simp [minsert, hk, ih h]

/-- Inversion of a successful insert_edge. -/
theorem insert_edge_inv (g : Graph V E) (e : E) (g2 : Graph V E)
    (h : g.insert_edge e = .ok g2) :
    mget g.edges (IsEdge.head e, IsEdge.tail e) = none ∧
    g2 = { g with
      edges := minsert g.edges (IsEdge.head e, IsEdge.tail e) e,
      edges_out := mupdate g.edges_out (IsEdge.head e) (fun l => l ++ [e]),
      edges_in := mupdate g.edges_in (IsEdge.tail e) (fun l => l ++ [e]) } := by
  simp only [insert_edge] at h
  by_cases hc : mcontains g.edges (IsEdge.head e, IsEdge.tail e)
  · rw [if_pos hc] at h
    cases h
  · rw [if_neg hc] at h
    cases h
    refine ⟨?_, rfl⟩
    simpa [mcontains, Option.isSome_iff_ne_none] using hc

/-- insert_edge of a fresh edge between existing vertices preserves the
graph invariants. -/
theorem insert_edge_WF (g : Graph V E) (e : E) (hwf : g.WF)
    (hh : IsEdge.head e ∈ mkeys g.vertices) (ht : IsEdge.tail e ∈ mkeys g.vertices)
    (g2 : Graph V E) (h : g.insert_edge e = .ok g2) : g2.WF := by
  obtain ⟨habs, hg2⟩ := insert_edge_inv g e g2 h
  subst hg2
  have hndout : (mkeys g.edges_out).Nodup := by
    rw [hwf.keys_out]
    exact hwf.nd_v
  have hndin : (mkeys g.edges_in).Nodup := by
    rw [hwf.keys_in]
    exact hwf.nd_v
  have hkeyfresh : (IsEdge.head e, IsEdge.tail e) ∉ mkeys g.edges := by
    intro hmem
    have := mget_isSome_of_mem_keys hmem
    rw [habs] at this
    cases this
  have hedges2 : minsert g.edges (IsEdge.head e, IsEdge.tail e) e =
      g.edges ++ [((IsEdge.head e, IsEdge.tail e), e)] :=
    minsert_append_of_absent _ _ _ habs
  have hout_mem : IsEdge.head e ∈ mkeys g.edges_out := by
    rw [hwf.keys_out]
    exact hh
  have hin_mem : IsEdge.tail e ∈ mkeys g.edges_in := by
    rw [hwf.keys_in]
    exact ht
  obtain ⟨lOut, hlOut⟩ := Option.isSome_iff_exists.mp (mget_isSome_of_mem_keys hout_mem)
  obtain ⟨lIn, hlIn⟩ := Option.isSome_iff_exists.mp (mget_isSome_of_mem_keys hin_mem)
  have hndout2 : (mkeys (mupdate g.edges_out (IsEdge.head e) (fun l => l ++ [e]))).Nodup := by
    rw [mkeys_mupdate]
    exact hndout
  have hndin2 : (mkeys (mupdate g.edges_in (IsEdge.tail e) (fun l => l ++ [e]))).Nodup := by
    rw [mkeys_mupdate]
    exact hndin
  have houtget : ∀ i, mget (mupdate g.edges_out (IsEdge.head e) (fun l => l ++ [e])) i =
      if i = IsEdge.head e then some (lOut ++ [e]) else mget g.edges_out i := by
    intro i
    by_cases hi : i = IsEdge.head e
    · rw [if_pos hi, hi, mget_mupdate_self, hlOut]
      rfl
    · rw [if_neg hi, mget_mupdate_ne _ _ _ _ (fun he2 => hi he2.symm)]
  have hinget : ∀ i, mget (mupdate g.edges_in (IsEdge.tail e) (fun l => l ++ [e])) i =
      if i = IsEdge.tail e then some (lIn ++ [e]) else mget g.edges_in i := by
    intro i
    by_cases hi : i = IsEdge.tail e
    · rw [if_pos hi, hi, mget_mupdate_self, hlIn]
      rfl
    · rw [if_neg hi, mget_mupdate_ne _ _ _ _ (fun he2 => hi he2.symm)]
  have hnewedges : ∀ k, mget (minsert g.edges (IsEdge.head e, IsEdge.tail e) e) k =
      if k = (IsEdge.head e, IsEdge.tail e) then some e else mget g.edges k := by
    intro k
    by_cases hk : k = (IsEdge.head e, IsEdge.tail e)
    · rw [if_pos hk, hk, mget_minsert_self]
    · rw [if_neg hk, mget_minsert_ne _ _ _ _ (fun he2 => hk he2.symm)]
  have hTailNotInOut : ∀ x ∈ lOut, IsEdge.tail x ≠ IsEdge.tail e := by
    intro x hx hcon
    have hs := (hwf.out_sound _ (mem_of_mget_eq_some hlOut) x hx).2
    rw [hcon] at hs
    rw [hs] at habs
    cases habs
  have hHeadNotInIn : ∀ x ∈ lIn, IsEdge.head x ≠ IsEdge.head e := by
    intro x hx hcon
    have hs := (hwf.in_sound _ (mem_of_mget_eq_some hlIn) x hx).2
    rw [hcon] at hs
    rw [hs] at habs
    cases habs
  constructor
  · exact hwf.nd_v
  · rw [hedges2]
    simp only [mkeys, List.map_append, List.map_cons, List.map_nil]
    rw [List.nodup_append]
    exact ⟨hwf.nd_e, List.nodup_singleton _, by
      intro a ha hb
      simp only [List.mem_singleton] at hb
      subst hb
      exact hkeyfresh ha⟩
  · exact hwf.vkey
  · simp only [mkeys_mupdate]
    exact hwf.keys_out
  · simp only [mkeys_mupdate]
    exact hwf.keys_in
  · intro p hp
    rw [hedges2] at hp
    rcases List.mem_append.mp hp with hp | hp
    · exact hwf.ekey p hp
    · simp only [List.mem_singleton] at hp
      subst hp
      rfl
  · intro p hp
    rw [hedges2] at hp
    rcases List.mem_append.mp hp with hp | hp
    · exact hwf.endpoints p hp
    · simp only [List.mem_singleton] at hp
      subst hp
      exact ⟨hh, ht⟩
  · intro q hq x hx
    have hqget : mget (mupdate g.edges_out (IsEdge.head e) (fun l => l ++ [e])) q.1 =
        some q.2 := mget_eq_some_of_mem_nodup hndout2 (by
          obtain ⟨q1, q2⟩ := q
          exact hq)
    rw [houtget q.1] at hqget
    by_cases hq1 : q.1 = IsEdge.head e
    · rw [if_pos hq1] at hqget
      injection hqget with hqget
      rw [← hqget] at hx
      rcases List.mem_append.mp hx with hx | hx
      · have hold := hwf.out_sound _ (mem_of_mget_eq_some hlOut) x hx
        refine ⟨hold.1.trans hq1.symm, ?_⟩
        rw [hnewedges, if_neg, hq1]
        · exact hold.2
        · intro hcon
          rw [hq1] at hcon
          have := (Prod.mk.injEq .. ▸ hcon).2
          exact hTailNotInOut x hx this
      · simp only [List.mem_singleton] at hx
        subst hx
        refine ⟨hq1.symm, ?_⟩
        rw [hq1, hnewedges, if_pos rfl]
    · rw [if_neg hq1] at hqget
      have hold := hwf.out_sound _ (mem_of_mget_eq_some hqget) x hx
      refine ⟨hold.1, ?_⟩
      rw [hnewedges, if_neg]
      · exact hold.2
      · intro hcon
        have := (Prod.mk.injEq .. ▸ hcon).1
        exact hq1 this
  · intro q hq
    have hqget : mget (mupdate g.edges_out (IsEdge.head e) (fun l => l ++ [e])) q.1 =
        some q.2 := mget_eq_some_of_mem_nodup hndout2 (by
          obtain ⟨q1, q2⟩ := q
          exact hq)
    rw [houtget q.1] at hqget
    by_cases hq1 : q.1 = IsEdge.head e
    · rw [if_pos hq1] at hqget
      injection hqget with hqget
      rw [← hqget]
      simp only [List.map_append, List.map_cons, List.map_nil]
      rw [List.nodup_append]
      refine ⟨hwf.out_nodup _ (mem_of_mget_eq_some hlOut), List.nodup_singleton _, ?_⟩
      intro a ha hb
      simp only [List.mem_singleton] at hb
      subst hb
      obtain ⟨x, hx, hxt⟩ := List.mem_map.mp ha
      exact hTailNotInOut x hx hxt
    · rw [if_neg hq1] at hqget
      exact hwf.out_nodup _ (mem_of_mget_eq_some hqget)
  · intro p hp
    rw [hedges2] at hp
    rcases List.mem_append.mp hp with hp | hp
    · have hold := hwf.out_complete p hp
      rw [houtget]
      by_cases hq1 : IsEdge.head p.2 = IsEdge.head e
      · rw [if_pos hq1]
        rw [hq1, hlOut] at hold
        simp only [Option.getD_some] at hold ⊢
        exact List.mem_append.mpr (Or.inl hold)
      · rw [if_neg hq1]
        exact hold
    · simp only [List.mem_singleton] at hp
      subst hp
      rw [houtget]
      simp only [if_pos rfl, Option.getD_some]
      exact List.mem_append.mpr (Or.inr (List.mem_singleton.mpr rfl))
  · intro q hq x hx
    have hqget : mget (mupdate g.edges_in (IsEdge.tail e) (fun l => l ++ [e])) q.1 =
        some q.2 := mget_eq_some_of_mem_nodup hndin2 (by
          obtain ⟨q1, q2⟩ := q
          exact hq)
    rw [hinget q.1] at hqget
    by_cases hq1 : q.1 = IsEdge.tail e
    · rw [if_pos hq1] at hqget
      injection hqget with hqget
      rw [← hqget] at hx
      rcases List.mem_append.mp hx with hx | hx
      · have hold := hwf.in_sound _ (mem_of_mget_eq_some hlIn) x hx
        refine ⟨hold.1.trans hq1.symm, ?_⟩
        rw [hnewedges, if_neg, hq1]
        · exact hold.2
        · intro hcon
          rw [hq1] at hcon
          have := (Prod.mk.injEq .. ▸ hcon).1
          exact hHeadNotInIn x hx this
      · simp only [List.mem_singleton] at hx
        subst hx
        refine ⟨hq1.symm, ?_⟩
        rw [hq1, hnewedges, if_pos rfl]
    · rw [if_neg hq1] at hqget
      have hold := hwf.in_sound _ (mem_of_mget_eq_some hqget) x hx
      refine ⟨hold.1, ?_⟩
      rw [hnewedges, if_neg]
      · exact hold.2
      · intro hcon
        have := (Prod.mk.injEq .. ▸ hcon).2
        exact hq1 this
  · intro q hq
    have hqget : mget (mupdate g.edges_in (IsEdge.tail e) (fun l => l ++ [e])) q.1 =
        some q.2 := mget_eq_some_of_mem_nodup hndin2 (by
          obtain ⟨q1, q2⟩ := q
          exact hq)
    rw [hinget q.1] at hqget
    by_cases hq1 : q.1 = IsEdge.tail e
    · rw [if_pos hq1] at hqget
      injection hqget with hqget
      rw [← hqget]
      simp only [List.map_append, List.map_cons, List.map_nil]
      rw [List.nodup_append]
      refine ⟨hwf.in_nodup _ (mem_of_mget_eq_some hlIn), List.nodup_singleton _, ?_⟩
      intro a ha hb
      simp only [List.mem_singleton] at hb
      subst hb
      obtain ⟨x, hx, hxt⟩ := List.mem_map.mp ha
      exact hHeadNotInIn x hx hxt
    · rw [if_neg hq1] at hqget
      exact hwf.in_nodup _ (mem_of_mget_eq_some hqget)
  · intro p hp
    rw [hedges2] at hp
    rcases List.mem_append.mp hp with hp | hp
    · have hold := hwf.in_complete p hp
      rw [hinget]
      by_cases hq1 : IsEdge.tail p.2 = IsEdge.tail e
      · rw [if_pos hq1]
        rw [hq1, hlIn] at hold
        simp only [Option.getD_some] at hold ⊢
        exact List.mem_append.mpr (Or.inl hold)
      · rw [if_neg hq1]
        exact hold
    · simp only [List.mem_singleton] at hp
      subst hp
      rw [hinget]
      simp only [if_pos rfl, Option.getD_some]
      exact List.mem_append.mpr (Or.inr (List.mem_singleton.mpr rfl))

/-- Characterization of the initialization of compute_predecessors. -/
theorem initPreds_spec (g : Graph V E) :
    ∀ (list : List (Nat × V)) (P0 : List (Nat × List Nat)),
      initPreds g list = .ok P0 →
      mkeys P0 = mkeys list ∧
      ∀ v s, mget P0 v = some s → ∃ l, mget g.edges_in v = some l ∧
        ∀ x, x ∈ s ↔ ∃ e ∈ l, IsEdge.head e = x := by
  intro list
  induction list with
  | nil =>
    intro P0 h
    simp only [initPreds] at h
    cases h
    exact ⟨rfl, fun v s hg => by simp at hg⟩
  | cons p rest ih =>
    obtain ⟨i, vv⟩ := p
    intro P0 h
    simp only [initPreds, edges_in_res] at h
    cases hins : mget g.edges_in i with
    | none =>
      rw [hins] at h
      cases h
    | some l =>
      rw [hins] at h
      simp only [RRes.bind_ok] at h
      cases htl : initPreds g rest with
      | ok tailm =>
        rw [htl] at h
        simp only [RRes.bind_ok] at h
        cases h
        obtain ⟨hk, hv⟩ := ih tailm htl
        constructor
        · simp [mkeys, List.map_cons] at hk ⊢
          exact hk
        · intro v s hg
          by_cases hvi : i = v
          · subst hvi
            simp at hg
            subst hg
            refine ⟨l, hins, ?_⟩
            intro x
            simp [List.mem_map]
          · simp only [mget_cons, if_neg hvi] at hg
            exact hv v s hg
      | err m =>
        rw [htl] at h
        cases h
      | panicked =>
        rw [htl] at h
        cases h
      | fuelout =>
        rw [htl] at h
        cases h

/-- Characterization of collectNewPreds: the collected additions are the
predecessors of the iterated elements that are not already present. -/
theorem collectNewPreds_spec (P : List (Nat × List Nat)) (pv : List Nat) :
    ∀ (iter : List Nat) (toAdd : List Nat),
      collectNewPreds P pv iter = .ok toAdd →
      (∀ x ∈ toAdd, ∃ p ∈ iter, ∃ sp, mget P p = some sp ∧ x ∈ sp ∧ x ∉ pv) ∧
      (∀ p ∈ iter, ∀ sp, mget P p = some sp → ∀ x ∈ sp, x ∉ pv → x ∈ toAdd) := by
  intro iter
  induction iter with
  | nil =>
    intro toAdd h
    simp only [collectNewPreds] at h
    cases h
    exact ⟨fun x hx => by simp at hx, fun p hp => by simp at hp⟩
  | cons q rest ih =>
    intro toAdd h
    simp only [collectNewPreds] at h
    cases hq : mget P q with
    | none =>
      rw [hq] at h
      cases h
    | some sq =>
      rw [hq] at h
      cases hrest : collectNewPreds P pv rest with
      | ok acc =>
        rw [hrest] at h
        simp only [RRes.bind_ok] at h
        cases h
        obtain ⟨hs, hc⟩ := ih acc hrest
        constructor
        · intro x hx
          rw [mem_nsUnion] at hx
          rcases hx with hx | hx
          · obtain ⟨p, hp, sp, hsp, hxp, hnx⟩ := hs x hx
            exact ⟨p, List.mem_cons_of_mem _ hp, sp, hsp, hxp, hnx⟩
          · rw [mem_nsDiff] at hx
            exact ⟨q, List.mem_cons_self .., sq, hq, hx.1, hx.2⟩
        · intro p hp sp hsp x hxs hxn
          rw [mem_nsUnion]
          rcases List.mem_cons.mp hp with hp | hp
          · subst hp
            rw [hq] at hsp
            cases hsp
            exact Or.inr (by rw [mem_nsDiff]; exact ⟨hxs, hxn⟩)
          · exact Or.inl (hc p hp sp hsp x hxs hxn)
      | err m =>
        rw [hrest] at h
        cases h
      | panicked =>
        rw [hrest] at h
        cases h
      | fuelout =>
        rw [hrest] at h
        cases h

/-- The work-queue loop of compute_predecessors maintains soundness
(every recorded predecessor reaches its vertex), the immediate-edge
base, and the queue-guarded closure invariant, and at a drained queue
the stored sets are closed under the edge relation. -/
theorem predLoop_spec (g : Graph V E) (hwf : g.WF) :
    ∀ (fuel : Nat) (P : List (Nat × List Nat)) (queue : List Nat)
      (Pfin : List (Nat × List Nat)),
      predLoop g fuel P queue = .ok Pfin →
      mkeys P = mkeys g.vertices →
      (∀ v s, mget P v = some s → ∀ x ∈ s, Relation.TransGen g.erel x v) →
      (∀ u w, g.erel u w → ∀ s, mget P w = some s → u ∈ s) →
      (∀ u w, g.erel u w →
        (∀ su sw, mget P u = some su → mget P w = some sw → su ⊆ sw) ∨ w ∈ queue) →
      mkeys Pfin = mkeys g.vertices ∧
      (∀ v s, mget Pfin v = some s → ∀ x ∈ s, Relation.TransGen g.erel x v) ∧
      (∀ u w, g.erel u w → ∀ s, mget Pfin w = some s → u ∈ s) ∧
      (∀ u w, g.erel u w →
        ∀ su sw, mget Pfin u = some su → mget Pfin w = some sw → su ⊆ sw) := by
  intro fuel
  induction fuel with
  | zero =>
    intro P queue Pfin h
    cases h
  | succ n ih =>
    intro P queue Pfin h hkeys hsound himm hI1
    cases queue with
    | nil =>
      simp only [predLoop] at h
      cases h
      refine ⟨hkeys, hsound, himm, ?_⟩
      intro u w he su sw hsu hsw
      rcases hI1 u w he with hsub | hq
      · exact hsub su sw hsu hsw
      · simp at hq
    | cons v rest =>
      simp only [predLoop] at h
      cases hpv : mget P v with
      | none =>
        rw [hpv] at h
        cases h
      | some pv =>
        rw [hpv] at h
        simp only [RRes.bind_ok] at h
        cases hca : collectNewPreds P pv pv with
        | ok toAdd =>
          rw [hca] at h
          simp only [RRes.bind_ok] at h
          obtain ⟨hcs, hcc⟩ := collectNewPreds_spec P pv pv toAdd hca
          have hsubset_v : ∀ u, g.erel u v → ∀ su, mget P u = some su →
              ∀ x ∈ su, x ∈ pv ∨ x ∈ toAdd := by
            intro u he su hsu x hx
            have hu : u ∈ pv := himm u v he pv hpv
            by_cases hxp : x ∈ pv
            · exact Or.inl hxp
            · exact Or.inr (hcc u hu su hsu x hx hxp)
          by_cases hta : toAdd = []
          · subst hta
            rw [if_pos rfl] at h
            have hP2 : minsert P v (nsUnion pv []) = P := by
              have : nsUnion pv ([] : List Nat) = pv := rfl
              rw [this, minsert_of_mget_eq P v pv hpv]
            rw [hP2] at h
            refine ih P rest Pfin h hkeys hsound himm ?_
            intro u w he
            rcases hI1 u w he with hsub | hq
            · exact Or.inl hsub
            · rcases List.mem_cons.mp hq with hq | hq
              · subst hq
                refine Or.inl ?_
                intro su sw hsu hsw
                rw [hpv] at hsw
                cases hsw
                intro x hx
                rcases hsubset_v u he su hsu x hx with hxp | hxp
                · exact hxp
                · simp at hxp
              · exact Or.inr hq
          · rw [if_neg hta] at h
            cases houts0 : g.edges_out_res v with
            | ok outs =>
              rw [houts0] at h
              simp only [RRes.bind_ok] at h
              have houts : mget g.edges_out v = some outs := by
                simp only [edges_out_res] at houts0
                cases hmo : mget g.edges_out v with
                | none => rw [hmo] at houts0; cases houts0
                | some l => rw [hmo] at houts0; cases houts0; rfl
              set P2 := minsert P v (nsUnion pv toAdd) with hP2def
              have hgetP2v : mget P2 v = some (nsUnion pv toAdd) := mget_minsert_self ..
              have hgetP2ne : ∀ x, x ≠ v → mget P2 x = mget P x := by
                intro x hx
                exact mget_minsert_ne _ _ _ _ (fun he => hx he.symm)
              refine ih P2 (rest ++ outs.map IsEdge.tail) Pfin h ?_ ?_ ?_ ?_
              · rw [hP2def, mkeys_minsert]
                simp [hpv, hkeys]
              · intro v2 s hg x hx
                by_cases hv2 : v2 = v
                · rw [hv2] at hg ⊢
                  rw [hgetP2v] at hg
                  cases hg
                  rw [mem_nsUnion] at hx
                  rcases hx with hx | hx
                  · exact hsound v pv hpv x hx
                  · obtain ⟨p, hp, sp, hsp, hxp, _⟩ := hcs x hx
                    exact Relation.TransGen.trans (hsound p sp hsp x hxp)
                      (hsound v pv hpv p hp)
                · rw [hgetP2ne v2 hv2] at hg
                  exact hsound v2 s hg x hx
              · intro u w he s hg
                by_cases hw : w = v
                · rw [hw] at hg he
                  rw [hgetP2v] at hg
                  cases hg
                  rw [mem_nsUnion]
                  exact Or.inl (himm u v he pv hpv)
                · rw [hgetP2ne w hw] at hg
                  exact himm u w he s hg
              · intro u w he
                by_cases hw : w = v
                · refine Or.inl ?_
                  intro su sw hsu hsw
                  rw [hw] at hsw he
                  rw [hgetP2v] at hsw
                  cases hsw
                  intro x hx
                  rw [mem_nsUnion]
                  by_cases hu : u = v
                  · rw [hu] at hsu
                    rw [hgetP2v] at hsu
                    cases hsu
                    rwa [← mem_nsUnion]
                  · rw [hgetP2ne u hu] at hsu
                    exact hsubset_v u he su hsu x hx
                · by_cases hu : u = v
                  · refine Or.inr ?_
                    rw [hu] at he
                    obtain ⟨e, hemem, hetail⟩ := hwf.erel_mem_out he houts
                    refine List.mem_append.mpr (Or.inr ?_)
                    exact List.mem_map.mpr ⟨e, hemem, hetail⟩
                  · rcases hI1 u w he with hsub | hq
                    · refine Or.inl ?_
                      intro su sw hsu hsw
                      rw [hgetP2ne u hu] at hsu
                      rw [hgetP2ne w hw] at hsw
                      exact hsub su sw hsu hsw
                    · rcases List.mem_cons.mp hq with hq | hq
                      · exact absurd hq hw
                      · exact Or.inr (List.mem_append.mpr (Or.inl hq))
            | err m =>
              rw [houts0] at h
              cases h
            | panicked =>
              rw [houts0] at h
              cases h
            | fuelout =>
              rw [houts0] at h
              cases h
        | err m =>
          rw [hca] at h
          cases h
        | panicked =>
          rw [hca] at h
          cases h
        | fuelout =>
          rw [hca] at h
          cases h

/-- The full specification of compute_predecessors: on an ok result, the
map is keyed by the vertices and holds exactly the transitive
predecessor sets. -/
theorem compute_predecessors_spec (g : Graph V E) (hwf : g.WF)
    (fuel : Nat) (P : List (Nat × List Nat))
    (h : g.compute_predecessors fuel = .ok P) :
    mkeys P = mkeys g.vertices ∧
    (∀ v s, mget P v = some s → ∀ x ∈ s, Relation.TransGen g.erel x v) ∧
    (∀ u w, Relation.TransGen g.erel u w → ∀ s, mget P w = some s → u ∈ s) := by
  simp only [compute_predecessors] at h
  cases hinit : initPreds g g.vertices with
  | ok P0 =>
    rw [hinit] at h
    simp only [RRes.bind_ok] at h
    obtain ⟨hk0, hv0⟩ := initPreds_spec g g.vertices P0 hinit
    have hkeys0 : mkeys P0 = mkeys g.vertices := hk0
    have hsound0 : ∀ v s, mget P0 v = some s → ∀ x ∈ s, Relation.TransGen g.erel x v := by
      intro v s hg x hx
      obtain ⟨l, hl, hchar⟩ := hv0 v s hg
      obtain ⟨e, he, hhead⟩ := (hchar x).mp hx
      have := hwf.in_mem_erel hl he
      rw [hhead] at this
      exact Relation.TransGen.single this
    have himm0 : ∀ u w, g.erel u w → ∀ s, mget P0 w = some s → u ∈ s := by
      intro u w he s hg
      obtain ⟨l, hl, hchar⟩ := hv0 w s hg
      obtain ⟨e, he2, hhead⟩ := hwf.erel_mem_in he hl
      exact (hchar u).mpr ⟨e, he2, hhead⟩
    have hI10 : ∀ u w, g.erel u w →
        (∀ su sw, mget P0 u = some su → mget P0 w = some sw → su ⊆ sw) ∨
        w ∈ mkeys g.vertices := by
      intro u w he
      exact Or.inr (hwf.erel_endpoints he).2
    obtain ⟨hk, hsound, himm, hclosed⟩ :=
      predLoop_spec g hwf fuel P0 (mkeys g.vertices) P h hkeys0 hsound0 himm0 hI10
    refine ⟨hk, hsound, ?_⟩
    intro u w htg
    induction htg with
    | single he =>
      intro s hg
      exact himm _ _ he s hg
    | tail htg2 he ihtg =>
      rename_i b c
      intro s hg
      have hb : b ∈ mkeys g.vertices := (hwf.erel_endpoints he).1
      rw [← hk] at hb
      obtain ⟨sb, hsb⟩ := Option.isSome_iff_exists.mp (mget_isSome_of_mem_keys hb)
      exact hclosed b c he sb s hsb hg (ihtg sb hsb)
  | err m =>
    rw [hinit] at h
    cases h
  | panicked =>
    rw [hinit] at h
    cases h
  | fuelout =>
    rw [hinit] at h
    cases h

@[simp] theorem nullVertex_index (i : Nat) : IsVertex.index (NullVertex.mk i) = i := rfl

@[simp] theorem nullEdge_head (h t : Nat) : IsEdge.head (NullEdge.mk h t) = h := rfl

@[simp] theorem nullEdge_tail (h t : Nat) : IsEdge.tail (NullEdge.mk h t) = t := rfl

/-- The shape of a graph holding vertices but no edges, as produced by the
vertex-copying pass of compute_acyclic. -/
def EdgeFree (d : Graph NullVertex NullEdge) : Prop :=
  d.edges = [] ∧
  d.edges_out = (mkeys d.vertices).map (fun k => (k, ([] : List NullEdge))) ∧
  d.edges_in = (mkeys d.vertices).map (fun k => (k, ([] : List NullEdge))) ∧
  (mkeys d.vertices).Nodup ∧
  ∀ p ∈ d.vertices, IsVertex.index p.2 = p.1

theorem EdgeFree.wf {d : Graph NullVertex NullEdge} (h : EdgeFree d) : d.WF := by
  obtain ⟨he, hout, hin, hnd, hvk⟩ := h
  constructor
  · exact hnd
  · rw [he]
    exact List.nodup_nil
  · exact hvk
  · rw [hout]
    simp [mkeys, List.map_map]
  · rw [hin]
    simp [mkeys, List.map_map]
  · intro p hp
    rw [he] at hp
    cases hp
  · intro p hp
    rw [he] at hp
    cases hp
  · intro q hq x hx
    rw [hout] at hq
    obtain ⟨k, _, hk⟩ := List.mem_map.mp hq
    rw [← hk] at hx
    cases hx
  · intro q hq
    rw [hout] at hq
    obtain ⟨k, _, hk⟩ := List.mem_map.mp hq
    rw [← hk]
    exact List.nodup_nil
  · intro p hp
    rw [he] at hp
    cases hp
  · intro q hq x hx
    rw [hin] at hq
    obtain ⟨k, _, hk⟩ := List.mem_map.mp hq
    rw [← hk] at hx
    cases hx
  · intro q hq
    rw [hin] at hq
    obtain ⟨k, _, hk⟩ := List.mem_map.mp hq
    rw [← hk]
    exact List.nodup_nil
  · intro p hp
    rw [he] at hp
    cases hp

theorem new_edgeFree : EdgeFree (Graph.new) :=
  ⟨rfl, rfl, rfl, List.nodup_nil, fun p hp => by cases hp⟩

theorem mget_map_const_nil (K : List Nat) (i : Nat) :
    mget (K.map (fun k => (k, ([] : List NullEdge)))) i =
      if i ∈ K then some [] else none := by
  induction K with
  | nil => simp
  | cons y rest ih =>
    simp only [List.map_cons, mget_cons, ih]
    by_cases hy : y = i
    · subst hy
      simp
    · simp only [if_neg hy, List.mem_cons]
      by_cases hi : i ∈ rest
      · rw [if_pos hi, if_pos (Or.inr hi)]
      · rw [if_neg hi, if_neg (by
          intro hcon
          rcases hcon with hcon | hcon
          · exact hy hcon.symm
          · exact hi hcon)]

theorem insertNullVertices_spec :
    ∀ (list : List (Nat × V)) (acc dagR : Graph NullVertex NullEdge),
      EdgeFree acc → insertNullVertices acc list = .ok dagR →
      EdgeFree dagR ∧ mkeys dagR.vertices = mkeys acc.vertices ++ list.map Prod.fst := by
  intro list
  induction list with
  | nil =>
    intro acc dagR hacc h
    simp only [insertNullVertices] at h
    cases h
    exact ⟨hacc, by simp⟩
  | cons p rest ih =>
    obtain ⟨i, vv⟩ := p
    intro acc dagR hacc h
    simp only [insertNullVertices, insert_vertex, nullVertex_index] at h
    by_cases hc : mcontains acc.vertices i
    · rw [if_pos (by simpa using hc)] at h
      cases h
    · rw [if_neg (by simpa using hc)] at h
      simp only [RRes.bind_ok] at h
      obtain ⟨he, hout, hin, hnd, hvk⟩ := hacc
      have hvget : mget acc.vertices i = none := by
        simp only [mcontains] at hc
        exact Option.not_isSome_iff_eq_none.mp hc
      have hnotmem : i ∉ mkeys acc.vertices := by
        intro hmem
        have := mget_isSome_of_mem_keys hmem
        rw [hvget] at this
        cases this
      have hvapp : minsert acc.vertices i (NullVertex.mk i) =
          acc.vertices ++ [(i, NullVertex.mk i)] :=
        minsert_append_of_absent _ _ _ hvget
      have houtget : mget acc.edges_out i = none := by
        rw [hout, mget_map_const_nil, if_neg hnotmem]
      have hinget : mget acc.edges_in i = none := by
        rw [hin, mget_map_const_nil, if_neg hnotmem]
      have hacc2 : EdgeFree { acc with
          vertices := minsert acc.vertices i (NullVertex.mk i),
          edges_out := minsert acc.edges_out i [],
          edges_in := minsert acc.edges_in i [] } := by
        refine ⟨he, ?_, ?_, ?_, ?_⟩
        · show minsert acc.edges_out i [] = _
          rw [minsert_append_of_absent _ _ _ houtget, hout, hvapp]
          simp [mkeys]
        · show minsert acc.edges_in i [] = _
          rw [minsert_append_of_absent _ _ _ hinget, hin, hvapp]
          simp [mkeys]
        · show (mkeys (minsert acc.vertices i (NullVertex.mk i))).Nodup
          rw [hvapp]
          simp only [mkeys, List.map_append, List.map_cons, List.map_nil]
          rw [List.nodup_append]
          refine ⟨hnd, List.nodup_singleton _, ?_⟩
          intro a ha hb
          simp only [List.mem_singleton] at hb
          subst hb
          exact hnotmem ha
        · intro q hq
          show IsVertex.index q.2 = q.1
          rw [hvapp] at hq
          rcases List.mem_append.mp hq with hq | hq
          · exact hvk q hq
          · simp only [List.mem_singleton] at hq
            subst hq
            rfl
      obtain ⟨hfree, hkeysR⟩ := ih _ dagR hacc2 h
      refine ⟨hfree, ?_⟩
      rw [hkeysR]
      show mkeys (minsert acc.vertices i (NullVertex.mk i)) ++ _ = _
      rw [hvapp]
      simp [mkeys]

/-- erel is monotone along a successful insert_edge. -/
theorem erel_insert_edge_mono {d d2 : Graph V E} {e : E}
    (h : d.insert_edge e = .ok d2) {u w : Nat} (hr : d.erel u w) : d2.erel u w := by
  obtain ⟨habs, hd2⟩ := insert_edge_inv d e d2 h
  subst hd2
  simp only [erel] at hr ⊢
  by_cases hk : (u, w) = (IsEdge.head e, IsEdge.tail e)
  · show (mget (minsert d.edges _ e) (u, w)).isSome
    rw [hk, mget_minsert_self]
    rfl
  · show (mget (minsert d.edges _ e) (u, w)).isSome
    rw [mget_minsert_ne _ _ _ _ (Ne.symm hk)]
    exact hr

/-- The edge relation after a successful insert_edge. -/
theorem erel_insert_edge_iff {d d2 : Graph V E} {e : E}
    (h : d.insert_edge e = .ok d2) (u w : Nat) :
    d2.erel u w ↔ d.erel u w ∨ (u = IsEdge.head e ∧ w = IsEdge.tail e) := by
  obtain ⟨habs, hd2⟩ := insert_edge_inv d e d2 h
  subst hd2
  simp only [erel]
  by_cases hk : (u, w) = (IsEdge.head e, IsEdge.tail e)
  · obtain ⟨h1, h2⟩ := Prod.mk.injEq .. ▸ hk
    show (mget (minsert d.edges _ e) (u, w)).isSome ↔ _
    rw [hk, mget_minsert_self]
    simp only [Option.isSome_some, true_iff]
    exact Or.inr ⟨h1, h2⟩
  · show (mget (minsert d.edges _ e) (u, w)).isSome ↔ _
    rw [mget_minsert_ne _ _ _ _ (Ne.symm hk)]
    constructor
    · exact Or.inl
    · intro hcase
      rcases hcase with hcase | ⟨h1, h2⟩
      · exact hcase
      · exact absurd (by rw [h1, h2]) hk

/-- The vertex map is untouched by insert_edge. -/
theorem insert_edge_vertices {d d2 : Graph V E} {e : E}
    (h : d.insert_edge e = .ok d2) : d2.vertices = d.vertices := by
  obtain ⟨_, hd2⟩ := insert_edge_inv d e d2 h
  rw [hd2]

/-- The index of the first occurrence of an element, length if absent. -/
def lrank (x : Nat) : List Nat → Nat
  | [] => 0
  | y :: rest => if y = x then 0 else lrank x rest + 1

theorem lrank_lt_of_mem_left (V2 r : List Nat) (u : Nat) (h : u ∈ V2) :
    lrank u (V2 ++ r) < V2.length := by
  induction V2 with
  | nil => cases h
  | cons y rest ih =>
    simp only [List.cons_append, lrank]
    by_cases hy : y = u
    · rw [if_pos hy]
      simp
    · rw [if_neg hy]
      have hu : u ∈ rest := by
        rcases List.mem_cons.mp h with h | h
        · exact absurd h.symm hy
        · exact h
      simpa [Nat.succ_lt_succ_iff] using ih hu

theorem lrank_ge_of_not_mem_left (V2 r : List Nat) (w : Nat) (h : w ∉ V2) :
    V2.length ≤ lrank w (V2 ++ r) := by
  induction V2 with
  | nil => simp
  | cons y rest ih =>
    simp only [List.cons_append, lrank]
    have hy : y ≠ w := fun hcon => h (List.mem_cons.mpr (Or.inl hcon.symm))
    rw [if_neg hy]
    have hw : w ∉ rest := fun hcon => h (List.mem_cons.mpr (Or.inr hcon))
    simpa [Nat.succ_le_succ_iff] using ih hw

/-- Characterization of the edge pass of one BFS iteration of
compute_acyclic: edges into visited transitive predecessors are skipped,
every other edge of the popped vertex is inserted, and the queue is only
appended to. -/
theorem acyclicEdges_spec (g : Graph V E) (hwf : g.WF) (v : Nat)
    (visited2 vpreds : List Nat) :
    ∀ (es : List E) (dag : Graph NullVertex NullEdge) (queue : List Nat)
      (dag2 : Graph NullVertex NullEdge) (queue2 : List Nat),
      acyclicEdges visited2 vpreds es dag queue = .ok (dag2, queue2) →
      (∀ e ∈ es, IsEdge.head e = v ∧ mget g.edges (v, IsEdge.tail e) = some e) →
      mkeys dag.vertices = mkeys g.vertices →
      dag.WF →
      dag2.WF ∧ dag2.vertices = dag.vertices ∧
      (∀ u w, dag.erel u w → dag2.erel u w) ∧
      (∀ u w, dag2.erel u w → dag.erel u w ∨
        (u = v ∧ ∃ e ∈ es, IsEdge.tail e = w ∧
          ¬(w ∈ visited2 ∧ w ∈ vpreds))) ∧
      (∃ extra, queue2 = queue ++ extra ∧ ∀ t ∈ extra, dag2.erel v t) ∧
      (∀ e ∈ es, IsEdge.tail e ∈ visited2 ∨ IsEdge.tail e ∈ queue2) ∧
      (∀ e ∈ es, (IsEdge.tail e ∈ visited2 ∧ IsEdge.tail e ∈ vpreds) ∨
        dag2.erel v (IsEdge.tail e)) := by
  intro es
  induction es with
  | nil =>
    intro dag queue dag2 queue2 h hes hvk hwfd
    simp only [acyclicEdges] at h
    simp only [RRes.ok.injEq, Prod.mk.injEq] at h
    obtain ⟨ha, hb⟩ := h
    subst ha
    subst hb
    exact ⟨hwfd, rfl, fun u w h2 => h2, fun u w h2 => Or.inl h2,
      ⟨[], by simp, by simp⟩, fun e he => by simp at he, fun e he => by simp at he⟩
  | cons e rest ih =>
    intro dag queue dag2 queue2 h hes hvk hwfd
    have heHead : IsEdge.head e = v := (hes e (List.mem_cons_self e rest)).1
    have heGet : mget g.edges (v, IsEdge.tail e) = some e :=
      (hes e (List.mem_cons_self e rest)).2
    have hesRest : ∀ e2 ∈ rest, IsEdge.head e2 = v ∧
        mget g.edges (v, IsEdge.tail e2) = some e2 :=
      fun e2 he2 => hes e2 (List.mem_cons_of_mem e he2)
    simp only [acyclicEdges] at h
    by_cases hskip : IsEdge.tail e ∈ visited2 ∧ IsEdge.tail e ∈ vpreds
    · rw [if_pos hskip] at h
      obtain ⟨hwf2, hv2, hmono, hnew, hq, hcomp, hse⟩ :=
        ih dag queue dag2 queue2 h hesRest hvk hwfd
      refine ⟨hwf2, hv2, hmono, ?_, hq, ?_, ?_⟩
      · intro u w h2
        rcases hnew u w h2 with h2 | ⟨hu, e2, he2, ht, hns⟩
        · exact Or.inl h2
        · exact Or.inr ⟨hu, e2, List.mem_cons_of_mem e he2, ht, hns⟩
      · intro e2 he2
        rcases List.mem_cons.mp he2 with he2 | he2
        · subst he2
          exact Or.inl hskip.1
        · exact hcomp e2 he2
      · intro e2 he2
        rcases List.mem_cons.mp he2 with he2 | he2
        · subst he2
          exact Or.inl hskip
        · exact hse e2 he2
    · rw [if_neg hskip] at h
      have hmemG : ((v, IsEdge.tail e), e) ∈ g.edges := mem_of_mget_eq_some heGet
      have hends := hwf.endpoints _ hmemG
      have hhmem : IsEdge.head e ∈ mkeys g.vertices := hends.1
      have htmem : IsEdge.tail e ∈ mkeys g.vertices := hends.2
      cases hins : dag.insert_edge (NullEdge.mk (IsEdge.head e) (IsEdge.tail e)) with
      | ok dagMid =>
        rw [hins] at h
        simp only [RRes.bind_ok] at h
        have hwfMid : dagMid.WF := by
          refine insert_edge_WF dag _ hwfd ?_ ?_ dagMid hins
          · rw [nullEdge_head, hvk]
            exact hhmem
          · rw [nullEdge_tail, hvk]
            exact htmem
        have hvMid : dagMid.vertices = dag.vertices := insert_edge_vertices hins
        have hvkMid : mkeys dagMid.vertices = mkeys g.vertices := by
          rw [hvMid]
          exact hvk
        have hErelMid : dagMid.erel v (IsEdge.tail e) := by
          rw [erel_insert_edge_iff hins]
          exact Or.inr ⟨by rw [nullEdge_head, heHead], by rw [nullEdge_tail]⟩
        obtain ⟨hwf2, hv2, hmono, hnew, ⟨extra, hqeq, hqmem⟩, hcomp, hse⟩ :=
          ih dagMid _ dag2 queue2 h hesRest hvkMid hwfMid
        have hmonoAll : ∀ u w, dag.erel u w → dag2.erel u w :=
          fun u w h2 => hmono u w (erel_insert_edge_mono hins h2)
        have hErel2 : dag2.erel v (IsEdge.tail e) := hmono _ _ hErelMid
        refine ⟨hwf2, hv2.trans hvMid, hmonoAll, ?_, ?_, ?_, ?_⟩
        · intro u w h2
          rcases hnew u w h2 with h2 | ⟨hu, e2, he2, ht, hns⟩
          · rw [erel_insert_edge_iff hins] at h2
            rcases h2 with h2 | ⟨hu, hw⟩
            · exact Or.inl h2
            · rw [nullEdge_head, heHead] at hu
              rw [nullEdge_tail] at hw
              exact Or.inr ⟨hu, e, List.mem_cons_self e rest, hw.symm, by
                rw [hw]
                exact hskip⟩
          · exact Or.inr ⟨hu, e2, List.mem_cons_of_mem e he2, ht, hns⟩
        · by_cases henq : IsEdge.tail e ∉ visited2 ∧ IsEdge.tail e ∉ queue
          · rw [if_pos henq] at hqeq
            refine ⟨IsEdge.tail e :: extra, by rw [hqeq]; simp, ?_⟩
            intro t ht
            rcases List.mem_cons.mp ht with ht | ht
            · subst ht
              exact hErel2
            · exact hqmem t ht
          · rw [if_neg henq] at hqeq
            exact ⟨extra, hqeq, hqmem⟩
        · intro e2 he2
          rcases List.mem_cons.mp he2 with he2 | he2
          · subst he2
            by_cases hvis : IsEdge.tail e2 ∈ visited2
            · exact Or.inl hvis
            · refine Or.inr ?_
              by_cases henq : IsEdge.tail e2 ∉ visited2 ∧ IsEdge.tail e2 ∉ queue
              · rw [if_pos henq] at hqeq
                rw [hqeq]
                simp
              · rw [if_neg henq] at hqeq
                have hq : IsEdge.tail e2 ∈ queue := by
                  rcases Decidable.not_and_iff_or_not.mp henq with hc | hc
                  · exact absurd hvis (fun h2 => hc (fun h3 => h2 h3))
                  · exact Decidable.not_not.mp hc
                rw [hqeq]
                exact List.mem_append.mpr (Or.inl hq)
          · exact hcomp e2 he2
        · intro e2 he2
          rcases List.mem_cons.mp he2 with he2 | he2
          · subst he2
            exact Or.inr hErel2
          · exact hse e2 he2
      | err m =>
        rw [hins] at h
        simp only [RRes.bind_err] at h
        cases h
      | panicked =>
        rw [hins] at h
        simp only [RRes.bind_panicked] at h
        cases h
      | fuelout =>
        rw [hins] at h
        simp only [RRes.bind_fuelout] at h
        cases h

/-- Master invariant of the BFS loop of compute_acyclic: the vertex map is
preserved, the produced graph is well-formed, every produced edge is an
edge of the source graph carrying a visited-prefix certificate, no edge
enters the start vertex, every visited vertex is reachable from start in
the produced graph, the visited list is closed under source edges once the
queue drains, and every source edge leaving start is either a self-loop or
kept. -/
theorem bfsLoop_spec (g : Graph V E) (hwf : g.WF) (preds : List (Nat × List Nat))
    (start : Nat)
    (hpreds : ∀ u w, Relation.TransGen g.erel u w → ∀ s, mget preds w = some s → u ∈ s) :
    ∀ (fuel : Nat) (dag : Graph NullVertex NullEdge) (visited queue : List Nat)
      (dagF : Graph NullVertex NullEdge),
      bfsLoop g preds fuel dag visited queue = .ok dagF →
      mkeys dag.vertices = mkeys g.vertices →
      dag.WF →
      (∀ u w, dag.erel u w → g.erel u w ∧ ∃ V2 r, visited = V2 ++ r ∧ u ∈ V2 ∧
        ∀ pu, mget preds u = some pu → w ∈ pu → w ∉ V2) →
      (∀ u, ¬ dag.erel u start) →
      (∀ x, x ∈ visited ∨ x ∈ queue → Relation.ReflTransGen dag.erel start x) →
      (∀ u, u ∈ visited → ∀ w, g.erel u w → w ∈ visited ∨ w ∈ queue) →
      ((start ∈ visited ∧ ∀ w, g.erel start w → w = start ∨ dag.erel start w) ∨
        (visited = [] ∧ queue = [start])) →
      ∃ visitedF : List Nat,
        (∃ rv, visitedF = visited ++ rv) ∧
        mkeys dagF.vertices = mkeys g.vertices ∧
        dagF.WF ∧
        (∀ u w, dagF.erel u w → g.erel u w ∧ ∃ V2 r, visitedF = V2 ++ r ∧ u ∈ V2 ∧
          ∀ pu, mget preds u = some pu → w ∈ pu → w ∉ V2) ∧
        (∀ u, ¬ dagF.erel u start) ∧
        (∀ x ∈ visitedF, Relation.ReflTransGen dagF.erel start x) ∧
        (∀ u ∈ visitedF, ∀ w, g.erel u w → w ∈ visitedF) ∧
        start ∈ visitedF ∧
        (∀ w, g.erel start w → w = start ∨ dagF.erel start w) := by
  intro fuel
  induction fuel with
  | zero =>
    intro dag visited queue dagF h
    cases h
  | succ n ih =>
    intro dag visited queue dagF h hvk hwfd hH3 hH4 hH5 hH6 hH7
    cases queue with
    | nil =>
      simp only [bfsLoop] at h
      simp only [RRes.ok.injEq] at h
      subst h
      refine ⟨visited, ⟨[], by simp⟩, hvk, hwfd, hH3, hH4,
        fun x hx => hH5 x (Or.inl hx), ?_, ?_, ?_⟩
      · intro u hu w hgw
        rcases hH6 u hu w hgw with h2 | h2
        · exact h2
        · cases h2
      · rcases hH7 with ⟨hsv, _⟩ | ⟨_, hq⟩
        · exact hsv
        · cases hq
      · rcases hH7 with ⟨_, hse⟩ | ⟨_, hq⟩
        · exact hse
        · cases hq
    | cons v queueRest =>
      have key : ∀ (vis2 : List Nat),
          (∃ rv2, vis2 = visited ++ rv2) → v ∈ vis2 →
          (∀ x ∈ vis2, x ∈ visited ∨ x = v) →
          (match mget preds v with
           | none => RRes.panicked
           | some vpreds =>
             match mget g.edges_out v with
             | none => RRes.panicked
             | some outs =>
               (acyclicEdges vis2 vpreds outs dag queueRest).bind fun p =>
               bfsLoop g preds n p.1 vis2 p.2) = .ok dagF →
          ∃ visitedF : List Nat,
            (∃ rv, visitedF = visited ++ rv) ∧
            mkeys dagF.vertices = mkeys g.vertices ∧
            dagF.WF ∧
            (∀ u w, dagF.erel u w → g.erel u w ∧ ∃ V2 r, visitedF = V2 ++ r ∧ u ∈ V2 ∧
              ∀ pu, mget preds u = some pu → w ∈ pu → w ∉ V2) ∧
            (∀ u, ¬ dagF.erel u start) ∧
            (∀ x ∈ visitedF, Relation.ReflTransGen dagF.erel start x) ∧
            (∀ u ∈ visitedF, ∀ w, g.erel u w → w ∈ visitedF) ∧
            start ∈ visitedF ∧
            (∀ w, g.erel start w → w = start ∨ dagF.erel start w) := by
        intro vis2 hsub2 hvmem hmem2 h
        cases hpv : mget preds v with
        | none =>
          rw [hpv] at h
          cases h
        | some vpreds =>
          rw [hpv] at h
          cases hout : mget g.edges_out v with
          | none =>
            rw [hout] at h
            cases h
          | some outs =>
            rw [hout] at h
            simp only [RRes.bind_ok] at h
            cases hae : acyclicEdges vis2 vpreds outs dag queueRest with
            | ok p =>
              obtain ⟨dagMid, queueMid⟩ := p
              rw [hae] at h
              simp only [RRes.bind_ok] at h
              have hesOut : ∀ e ∈ outs, IsEdge.head e = v ∧
                  mget g.edges (v, IsEdge.tail e) = some e := by
                intro e he
                exact hwf.out_sound (v, outs) (mem_of_mget_eq_some hout) e he
              obtain ⟨hwfMid, hvMid, hmono, hnewe, ⟨extra, hqeq, hqerel⟩, hcomp, hsoe⟩ :=
                acyclicEdges_spec g hwf v vis2 vpreds outs dag queueRest dagMid
                  queueMid hae hesOut hvk hwfd
              have hvreach : Relation.ReflTransGen dag.erel start v :=
                hH5 v (Or.inr (List.mem_cons_self v queueRest))
              have hdagsubg : ∀ a b, dag.erel a b → g.erel a b :=
                fun a b hab => (hH3 a b hab).1
              have hstartvis : start ∈ vis2 := by
                rcases hH7 with ⟨hsv, _⟩ | ⟨_, hq⟩
                · obtain ⟨rv2, hrv2⟩ := hsub2
                  rw [hrv2]
                  exact List.mem_append.mpr (Or.inl hsv)
                · have hv : v = start := by
                    have := List.cons.injEq v queueRest start [] ▸ hq
                    exact this.1
                  rw [← hv]
                  exact hvmem
              have hvk2 : mkeys dagMid.vertices = mkeys g.vertices := by
                rw [hvMid]
                exact hvk
              have hcert2 : ∀ u w, dagMid.erel u w → g.erel u w ∧
                  ∃ V2 r, vis2 = V2 ++ r ∧ u ∈ V2 ∧
                    ∀ pu, mget preds u = some pu → w ∈ pu → w ∉ V2 := by
                intro u w h2
                rcases hnewe u w h2 with h2 | ⟨hu, e, he, ht, hns⟩
                · obtain ⟨hg, V2, r, hpre, humem, hcert⟩ := hH3 u w h2
                  obtain ⟨rv2, hrv2⟩ := hsub2
                  exact ⟨hg, V2, r ++ rv2, by rw [hrv2, hpre, List.append_assoc],
                    humem, hcert⟩
                · subst hu
                  refine ⟨?_, vis2, [], by simp, hvmem, ?_⟩
                  · have := (hesOut e he).2
                    rw [ht] at this
                    simp [erel, this]
                  · intro pu hpu hwpu
                    rw [hpv] at hpu
                    injection hpu with hpu
                    subst hpu
                    intro hwvis
                    exact hns ⟨hwvis, hwpu⟩
              have hH4b : ∀ u, ¬ dagMid.erel u start := by
                intro u h2
                rcases hnewe u start h2 with h2 | ⟨hu, e, he, ht, hns⟩
                · exact hH4 u h2
                · have hgvs : g.erel v start := by
                    have := (hesOut e he).2
                    rw [ht] at this
                    simp [erel, this]
                  have hreachg : Relation.ReflTransGen g.erel start v :=
                    Relation.ReflTransGen.mono hdagsubg hvreach
                  have htg : Relation.TransGen g.erel start v := by
                    rcases Relation.ReflTransGen.cases_head hreachg with heq | ⟨c, hac, hcb⟩
                    · rw [← heq] at hgvs
                      rw [← heq]
                      exact Relation.TransGen.single hgvs
                    · exact Relation.TransGen.head' hac hcb
                  have hspred : start ∈ vpreds := hpreds start v htg vpreds hpv
                  exact hns ⟨hstartvis, hspred⟩
              have hpathMono : ∀ y, Relation.ReflTransGen dag.erel start y →
                  Relation.ReflTransGen dagMid.erel start y :=
                fun y hy => Relation.ReflTransGen.mono hmono hy
              have hH5b : ∀ x, x ∈ vis2 ∨ x ∈ queueMid →
                  Relation.ReflTransGen dagMid.erel start x := by
                intro x hx
                rcases hx with hx | hx
                · rcases hmem2 x hx with hx2 | hx2
                  · exact hpathMono x (hH5 x (Or.inl hx2))
                  · rw [hx2]
                    exact hpathMono v hvreach
                · rw [hqeq] at hx
                  rcases List.mem_append.mp hx with hx | hx
                  · exact hpathMono x (hH5 x (Or.inr (List.mem_cons_of_mem v hx)))
                  · exact Relation.ReflTransGen.tail (hpathMono v hvreach) (hqerel x hx)
              have hH6b : ∀ u, u ∈ vis2 → ∀ w, g.erel u w → w ∈ vis2 ∨ w ∈ queueMid := by
                intro u hu w hgw
                rcases hmem2 u hu with hu2 | hu2
                · rcases hH6 u hu2 w hgw with h2 | h2
                  · obtain ⟨rv2, hrv2⟩ := hsub2
                    rw [hrv2]
                    exact Or.inl (List.mem_append.mpr (Or.inl h2))
                  · rcases List.mem_cons.mp h2 with h2 | h2
                    · rw [h2]
                      exact Or.inl hvmem
                    · rw [hqeq]
                      exact Or.inr (List.mem_append.mpr (Or.inl h2))
                · rw [hu2] at hgw
                  obtain ⟨e, he, ht⟩ := hwf.erel_mem_out hgw hout
                  rcases hcomp e he with h2 | h2
                  · rw [← ht]
                    exact Or.inl h2
                  · rw [← ht]
                    exact Or.inr h2
              have hH7b : (start ∈ vis2 ∧
                  ∀ w, g.erel start w → w = start ∨ dagMid.erel start w) ∨
                  (vis2 = [] ∧ queueMid = [start]) := by
                left
                refine ⟨hstartvis, ?_⟩
                intro w hgw
                rcases hH7 with ⟨_, hse⟩ | ⟨hvisnil, hq⟩
                · rcases hse w hgw with h2 | h2
                  · exact Or.inl h2
                  · exact Or.inr (hmono start w h2)
                · have hv : v = start := by
                    have := List.cons.injEq v queueRest start [] ▸ hq
                    exact this.1
                  rw [← hv] at hgw
                  obtain ⟨e, he, ht⟩ := hwf.erel_mem_out hgw hout
                  rcases hsoe e he with h2 | h2
                  · have hmem := hmem2 (IsEdge.tail e) h2.1
                    rw [hvisnil] at hmem
                    rcases hmem with hmem | hmem
                    · cases hmem
                    · rw [← ht, hmem, hv]
                      exact Or.inl rfl
                  · rw [← ht, ← hv]
                    exact Or.inr h2
              obtain ⟨visitedF, ⟨rv, hrv⟩, hconc⟩ :=
                ih dagMid vis2 queueMid dagF h hvk2 hwfMid hcert2 hH4b hH5b hH6b hH7b
              refine ⟨visitedF, ?_, hconc⟩
              obtain ⟨rv2, hrv2⟩ := hsub2
              exact ⟨rv2 ++ rv, by rw [hrv, hrv2, List.append_assoc]⟩
            | err m =>
              rw [hae] at h
              simp only [RRes.bind_err] at h
              cases h
            | panicked =>
              rw [hae] at h
              simp only [RRes.bind_panicked] at h
              cases h
            | fuelout =>
              rw [hae] at h
              simp only [RRes.bind_fuelout] at h
              cases h
      simp only [bfsLoop] at h
      by_cases hvv : v ∈ visited
      · rw [if_pos hvv] at h
        exact key visited ⟨[], by simp⟩ hvv (fun x hx => Or.inl hx) h
      · rw [if_neg hvv] at h
        refine key (visited ++ [v]) ⟨[v], rfl⟩ (by simp) ?_ h
        intro x hx
        rcases List.mem_append.mp hx with hx | hx
        · exact Or.inl hx
        · simp only [List.mem_singleton] at hx
          exact Or.inr hx

theorem erel_of_edgeFree {d : Graph NullVertex NullEdge} (h : EdgeFree d)
    (u w : Nat) : ¬ d.erel u w := by
  intro h2
  simp only [erel] at h2
  rw [h.1] at h2
  simp at h2

/-- Full characterization of compute_acyclic on a well-formed graph: same
vertex indices, a well-formed result, a subgraph of the source, no cycle,
no edge into start, edge sources reachable from start, reachability from
start preserved, and out-edges of start kept unless self-loops. -/
theorem compute_acyclic_spec (g : Graph V E) (hwf : g.WF) (start fuel : Nat)
    (dag : Graph NullVertex NullEdge)
    (h : g.compute_acyclic start fuel = .ok dag) :
    mkeys dag.vertices = mkeys g.vertices ∧
    dag.WF ∧
    (∀ u w, dag.erel u w → g.erel u w) ∧
    (¬ ∃ c, Relation.TransGen dag.erel c c) ∧
    (∀ u, ¬ dag.erel u start) ∧
    (∀ u w, dag.erel u w → Relation.ReflTransGen dag.erel start u) ∧
    (∀ v, Relation.ReflTransGen g.erel start v →
      Relation.ReflTransGen dag.erel start v) ∧
    (∀ w, g.erel start w → w = start ∨ dag.erel start w) := by
  simp only [compute_acyclic] at h
  cases hinv : insertNullVertices (Graph.new) g.vertices with
  | ok dag0 =>
    rw [hinv] at h
    simp only [RRes.bind_ok] at h
    cases hcp : g.compute_predecessors fuel with
    | ok preds =>
      rw [hcp] at h
      simp only [RRes.bind_ok] at h
      obtain ⟨hfree0, hkeys0⟩ :=
        insertNullVertices_spec g.vertices Graph.new dag0 new_edgeFree hinv
      have hvk0 : mkeys dag0.vertices = mkeys g.vertices := by
        rw [hkeys0]
        rfl
      have hwf0 : dag0.WF := hfree0.wf
      obtain ⟨hpkeys, _, hpredsC⟩ := compute_predecessors_spec g hwf fuel preds hcp
      obtain ⟨visitedF, _, hvkF, hwfF, hcertF, hnostart, hreachF, hclosedF,
          hstartF, hstartE⟩ :=
        bfsLoop_spec g hwf preds start hpredsC fuel dag0 [] [start] dag h hvk0 hwf0
          (fun u w h2 => absurd h2 (erel_of_edgeFree hfree0 u w))
          (fun u h2 => absurd h2 (erel_of_edgeFree hfree0 u start))
          (by
            intro x hx
            rcases hx with hx | hx
            · cases hx
            · simp only [List.mem_singleton] at hx
              rw [hx])
          (fun u hu => by cases hu)
          (Or.inr ⟨rfl, rfl⟩)
      have hsub : ∀ u w, dag.erel u w → g.erel u w := fun u w h2 => (hcertF u w h2).1
      have hedgeRank : ∀ u w, dag.erel u w → Relation.ReflTransGen dag.erel w u →
          lrank u visitedF < lrank w visitedF := by
        intro u w h2 hwu
        obtain ⟨hg, V2, r, hpre, humem, hcert⟩ := hcertF u w h2
        have humemK : u ∈ mkeys g.vertices := (hwf.erel_endpoints hg).1
        have hpu : (mget preds u).isSome := by
          refine mget_isSome_of_mem_keys ?_
          rw [hpkeys]
          exact humemK
        obtain ⟨pu, hpu2⟩ := Option.isSome_iff_exists.mp hpu
        have hgwu : Relation.ReflTransGen g.erel w u := Relation.ReflTransGen.mono hsub hwu
        have htg : Relation.TransGen g.erel w u := by
          rcases Relation.ReflTransGen.cases_head hgwu with heq | ⟨c, hac, hcb⟩
          · rw [heq] at hg ⊢
            exact Relation.TransGen.single hg
          · exact Relation.TransGen.head' hac hcb
        have hwpu : w ∈ pu := hpredsC w u htg pu hpu2
        have hwnot : w ∉ V2 := hcert pu hpu2 hwpu
        rw [hpre]
        exact Nat.lt_of_lt_of_le (lrank_lt_of_mem_left V2 r u humem)
          (lrank_ge_of_not_mem_left V2 r w hwnot)
      have hnocycle : ¬ ∃ c, Relation.TransGen dag.erel c c := by
        rintro ⟨c, hc⟩
        have key : ∀ a b, Relation.TransGen dag.erel a b →
            Relation.ReflTransGen dag.erel b a →
            lrank a visitedF < lrank b visitedF := by
          intro a b htg
          induction htg with
          | single hab =>
            intro hba
            exact hedgeRank _ _ hab hba
          | tail htg2 hbc ih =>
            intro hca
            have hba := Relation.ReflTransGen.trans (Relation.ReflTransGen.single hbc) hca
            have h1 := ih hba
            have h2 := hedgeRank _ _ hbc
              (Relation.ReflTransGen.trans hca htg2.to_reflTransGen)
            exact Nat.lt_trans h1 h2
        exact absurd (key c c hc Relation.ReflTransGen.refl) (Nat.lt_irrefl _)
      have hsrcreach : ∀ u w, dag.erel u w → Relation.ReflTransGen dag.erel start u := by
        intro u w h2
        obtain ⟨_, V2, r, hpre, humem, _⟩ := hcertF u w h2
        refine hreachF u ?_
        rw [hpre]
        exact List.mem_append.mpr (Or.inl humem)
      have hgreach : ∀ v, Relation.ReflTransGen g.erel start v →
          Relation.ReflTransGen dag.erel start v := by
        intro v hv
        refine hreachF v ?_
        induction hv with
        | refl => exact hstartF
        | tail h2 hedge ih => exact hclosedF _ ih _ hedge
      exact ⟨hvkF, hwfF, hsub, hnocycle, hnostart, hsrcreach, hgreach, hstartE⟩
    | err m =>
      rw [hcp] at h
      simp only [RRes.bind_err] at h
      cases h
    | panicked =>
      rw [hcp] at h
      simp only [RRes.bind_panicked] at h
      cases h
    | fuelout =>
      rw [hcp] at h
      simp only [RRes.bind_fuelout] at h
      cases h
  | err m =>
    rw [hinv] at h
    simp only [RRes.bind_err] at h
    cases h
  | panicked =>
    rw [hinv] at h
    simp only [RRes.bind_panicked] at h
    cases h
  | fuelout =>
    rw [hinv] at h
    simp only [RRes.bind_fuelout] at h
    cases h

theorem scanPreds_queue_sub (doms : List (Nat × List Nat)) :
    ∀ (iter queue : List Nat), ∃ extra,
      (scanPreds doms iter queue).1 = queue ++ extra ∧ ∀ p ∈ extra, p ∈ iter := by
  intro iter
  induction iter with
  | nil =>
    intro queue
    exact ⟨[], by simp [scanPreds], fun p hp => by cases hp⟩
  | cons q rest ih =>
    intro queue
    simp only [scanPreds]
    by_cases hc : mcontains doms q
    · rw [if_pos hc]
      obtain ⟨extra, heq, hmem⟩ := ih queue
      exact ⟨extra, heq, fun p hp => List.mem_cons_of_mem q (hmem p hp)⟩
    · rw [if_neg hc]
      by_cases hq : q ∈ queue
      · rw [if_pos hq]
        obtain ⟨extra, heq, hmem⟩ := ih queue
        exact ⟨extra, heq, fun p hp => List.mem_cons_of_mem q (hmem p hp)⟩
      · rw [if_neg hq]
        obtain ⟨extra, heq, hmem⟩ := ih (queue ++ [q])
        refine ⟨q :: extra, ?_, ?_⟩
        · rw [heq]
          simp
        · intro p hp
          rcases List.mem_cons.mp hp with hp | hp
          · rw [hp]
            exact List.mem_cons_self q rest
          · exact List.mem_cons_of_mem q (hmem p hp)

theorem scanPreds_flag_all (doms : List (Nat × List Nat)) :
    ∀ (iter queue : List Nat), (scanPreds doms iter queue).2 = true →
      ∀ p ∈ iter, mcontains doms p := by
  intro iter
  induction iter with
  | nil =>
    intro queue _ p hp
    cases hp
  | cons q rest ih =>
    intro queue hflag p hp
    simp only [scanPreds] at hflag
    by_cases hc : mcontains doms q
    · rw [if_pos hc] at hflag
      rcases List.mem_cons.mp hp with hp | hp
      · rw [hp]
        exact hc
      · exact ih queue hflag p hp
    · rw [if_neg hc] at hflag
      cases hflag

theorem enqueueTails_sub :
    ∀ (ts queue : List Nat), ∃ extra,
      enqueueTails queue ts = queue ++ extra ∧ ∀ t ∈ extra, t ∈ ts := by
  intro ts
  induction ts with
  | nil =>
    intro queue
    exact ⟨[], by simp [enqueueTails], fun t ht => by cases ht⟩
  | cons s rest ih =>
    intro queue
    simp only [enqueueTails]
    by_cases hs : s ∈ queue
    · rw [if_pos hs]
      obtain ⟨extra, heq, hmem⟩ := ih queue
      exact ⟨extra, heq, fun t ht => List.mem_cons_of_mem s (hmem t ht)⟩
    · rw [if_neg hs]
      obtain ⟨extra, heq, hmem⟩ := ih (queue ++ [s])
      refine ⟨s :: extra, ?_, ?_⟩
      · rw [heq]
        simp
      · intro t ht
        rcases List.mem_cons.mp ht with ht | ht
        · rw [ht]
          exact List.mem_cons_self s rest
        · exact List.mem_cons_of_mem s (hmem t ht)

theorem mem_enqueueTails :
    ∀ (ts queue : List Nat) (t : Nat), t ∈ ts ∨ t ∈ queue →
      t ∈ enqueueTails queue ts := by
  intro ts
  induction ts with
  | nil =>
    intro queue t ht
    rcases ht with ht | ht
    · cases ht
    · exact ht
  | cons s rest ih =>
    intro queue t ht
    simp only [enqueueTails]
    have hmemq2 : ∀ x, x ∈ queue → x ∈ (if s ∈ queue then queue else queue ++ [s]) := by
      intro x hx
      split
      · exact hx
      · exact List.mem_append.mpr (Or.inl hx)
    have hsq2 : s ∈ (if s ∈ queue then queue else queue ++ [s]) := by
      split
      · assumption
      · simp
    rcases ht with ht | ht
    · rcases List.mem_cons.mp ht with ht | ht
      · rw [ht]
        exact ih _ s (Or.inr hsq2)
      · exact ih _ t (Or.inl ht)
    · exact ih _ t (Or.inr (hmemq2 t ht))

theorem intersectDoms_start_mem (doms : List (Nat × List Nat)) (vpreds : List Nat)
    (start : Nat) (hD2 : ∀ p s, mget doms p = some s → start ∈ s) :
    ∀ (ins : List E) (acc r : List Nat),
      intersectDoms doms vpreds ins acc = .ok r → start ∈ acc → start ∈ r := by
  intro ins
  induction ins with
  | nil =>
    intro acc r h hacc
    simp only [intersectDoms] at h
    simp only [RRes.ok.injEq] at h
    rw [← h]
    exact hacc
  | cons e rest ih =>
    intro acc r h hacc
    simp only [intersectDoms] at h
    by_cases hc : IsEdge.head e ∈ vpreds
    · rw [if_pos hc] at h
      cases hde : mget doms (IsEdge.head e) with
      | none =>
        rw [hde] at h
        cases h
      | some ds =>
        rw [hde] at h
        refine ih _ r h ?_
        rw [mem_nsInter]
        exact ⟨hacc, hD2 _ _ hde⟩
    · rw [if_neg hc] at h
      exact ih acc r h hacc

theorem intersectDoms_nil_acc (doms : List (Nat × List Nat)) (vpreds : List Nat) :
    ∀ (ins : List E) (r : List Nat),
      intersectDoms doms vpreds ins [] = .ok r → r = [] := by
  intro ins
  induction ins with
  | nil =>
    intro r h
    simp only [intersectDoms] at h
    simp only [RRes.ok.injEq] at h
    exact h.symm
  | cons e rest ih =>
    intro r h
    simp only [intersectDoms] at h
    by_cases hc : IsEdge.head e ∈ vpreds
    · rw [if_pos hc] at h
      cases hde : mget doms (IsEdge.head e) with
      | none =>
        rw [hde] at h
        cases h
      | some ds =>
        rw [hde] at h
        have h2 : intersectDoms doms vpreds rest ([] : List Nat) = .ok r := h
        exact ih r h2
    · rw [if_neg hc] at h
      exact ih r h

theorem transGen_first_step {r : Nat → Nat → Prop} {p v : Nat}
    (h : Relation.TransGen r p v) : ∃ c, r p c := by
  induction h with
  | single h2 => exact ⟨_, h2⟩
  | tail _ _ ih => exact ih

/-- In a graph where every edge source is reachable from start, the source
of every edge is start itself or has an incoming edge. -/
theorem dag_source_disj {dag : Graph NullVertex NullEdge} {start : Nat}
    (hsrcreach : ∀ u w, dag.erel u w → Relation.ReflTransGen dag.erel start u)
    {p c : Nat} (hpc : dag.erel p c) : p = start ∨ ∃ u, dag.erel u p := by
  have hr := hsrcreach p c hpc
  rcases Relation.ReflTransGen.cases_tail hr with heq | ⟨u, _, hup⟩
  · exact Or.inl heq
  · exact Or.inr ⟨u, hup⟩

/-- Master invariant of the work-queue loop of compute_dominators: the
start entry stays exactly the singleton of start, every stored dominator
set contains start, and once the queue drains the keyed vertices are
closed under the acyclic graph's successors. -/
theorem domLoop_spec (g : Graph V E) (dag : Graph NullVertex NullEdge)
    (dagP : List (Nat × List Nat)) (start : Nat)
    (hdwf : dag.WF)
    (hPsound : ∀ v s, mget dagP v = some s → ∀ x ∈ s, Relation.TransGen dag.erel x v)
    (hnostart : ∀ u, ¬ dag.erel u start)
    (hsrcreach : ∀ u w, dag.erel u w → Relation.ReflTransGen dag.erel start u)
    (hstartins : mget dag.edges_in start = some []) :
    ∀ (fuel : Nat) (doms : List (Nat × List Nat)) (queue : List Nat)
      (domsF : List (Nat × List Nat)),
      domLoop g dag dagP fuel doms queue = .ok domsF →
      mget doms start = some [start] →
      (∀ v s, mget doms v = some s → start ∈ s) →
      (∀ u w, dag.erel u w → (mget doms u).isSome → (mget doms w).isSome ∨ w ∈ queue) →
      (∀ x ∈ queue, x = start ∨ ∃ u, dag.erel u x) →
      mget domsF start = some [start] ∧
      (∀ v s, mget domsF v = some s → start ∈ s) ∧
      (∀ u w, dag.erel u w → (mget domsF u).isSome → (mget domsF w).isSome) := by
  intro fuel
  induction fuel with
  | zero =>
    intro doms queue domsF h
    cases h
  | succ n ih =>
    intro doms queue domsF h hD1 hD2 hD4 hD5
    cases queue with
    | nil =>
      simp only [domLoop] at h
      simp only [RRes.ok.injEq] at h
      subst h
      refine ⟨hD1, hD2, ?_⟩
      intro u w hew hu
      rcases hD4 u w hew hu with h2 | h2
      · exact h2
      · cases h2
    | cons v queueRest =>
      simp only [domLoop] at h
      cases hpv : mget dagP v with
      | none =>
        rw [hpv] at h
        cases h
      | some vpreds =>
        rw [hpv] at h
        simp only [RRes.bind_ok] at h
        by_cases hflag : (scanPreds doms vpreds queueRest).2 = false
        · rw [if_pos hflag] at h
          obtain ⟨extra, hqeq, hqmem⟩ := scanPreds_queue_sub doms vpreds queueRest
          refine ih doms _ domsF h hD1 hD2 ?_ ?_
          · intro u w hew hu
            rcases hD4 u w hew hu with h2 | h2
            · exact Or.inl h2
            · rcases List.mem_cons.mp h2 with h2 | h2
              · refine Or.inr ?_
                rw [h2]
                simp
              · refine Or.inr ?_
                rw [hqeq]
                simp only [List.mem_append]
                exact Or.inl (Or.inl h2)
          · intro x hx
            rcases List.mem_append.mp hx with hx | hx
            · rw [hqeq] at hx
              rcases List.mem_append.mp hx with hx | hx
              · exact hD5 x (List.mem_cons_of_mem v hx)
              · have hxp : x ∈ vpreds := hqmem x hx
                have htg : Relation.TransGen dag.erel x v := hPsound v vpreds hpv x hxp
                obtain ⟨c, hc⟩ := transGen_first_step htg
                exact dag_source_disj hsrcreach hc
            · simp only [List.mem_singleton] at hx
              rw [hx]
              exact hD5 v (List.mem_cons_self v queueRest)
        · rw [if_neg hflag] at h
          have hflag2 : (scanPreds doms vpreds queueRest).2 = true := by
            cases hb : (scanPreds doms vpreds queueRest).2
            · exact absurd hb hflag
            · rfl
          have hall : ∀ p ∈ vpreds, mcontains doms p :=
            scanPreds_flag_all doms vpreds queueRest hflag2
          cases hdins : dag.edges_in_res v with
          | ok dagIns =>
            rw [hdins] at h
            simp only [RRes.bind_ok] at h
            have hseed : ∀ (seed : List Nat),
                (match dagIns.head? with
                 | some e =>
                   match mget doms (IsEdge.head e) with
                   | none => RRes.panicked
                   | some s => RRes.ok s
                 | none => RRes.ok ([] : List Nat)) = .ok seed →
                start ∈ seed ∨ (v = start ∧ seed = []) := by
              intro seed hs
              cases hh : dagIns.head? with
              | none =>
                rw [hh] at hs
                simp only [RRes.ok.injEq] at hs
                by_cases hvs : v = start
                · exact Or.inr ⟨hvs, hs.symm⟩
                · exfalso
                  rcases hD5 v (List.mem_cons_self v queueRest) with h2 | ⟨u, huv⟩
                  · exact hvs h2
                  · obtain ⟨e, he⟩ := Option.isSome_iff_exists.mp huv
                    have hmm := hdwf.in_complete ((u, v), e) (mem_of_mget_eq_some he)
                    have hkey := hdwf.ekey ((u, v), e) (mem_of_mget_eq_some he)
                    obtain ⟨h1, h2⟩ := Prod.mk.injEq .. ▸ hkey
                    rw [← h2] at hmm
                    simp only [edges_in_res] at hdins
                    cases hgi : mget dag.edges_in v with
                    | none =>
                      rw [hgi] at hdins hmm
                      cases hmm
                    | some l =>
                      rw [hgi] at hdins hmm
                      simp only [RRes.ok.injEq] at hdins
                      rw [hdins] at hmm
                      simp only [Option.getD_some] at hmm
                      rw [List.head?_eq_none_iff] at hh
                      rw [hh] at hmm
                      cases hmm
              | some e =>
                rw [hh] at hs
                have hs2 : (match mget doms (IsEdge.head e) with
                    | none => RRes.panicked
                    | some s => RRes.ok s) = RRes.ok seed := hs
                cases hde : mget doms (IsEdge.head e) with
                | none =>
                  rw [hde] at hs2
                  cases hs2
                | some ds =>
                  rw [hde] at hs2
                  simp only [RRes.ok.injEq] at hs2
                  rw [← hs2]
                  exact Or.inl (hD2 _ _ hde)
            cases hsm : (match dagIns.head? with
                 | some e =>
                   match mget doms (IsEdge.head e) with
                   | none => RRes.panicked
                   | some s => RRes.ok s
                 | none => RRes.ok ([] : List Nat)) with
            | ok seed =>
              rw [hsm] at h
              simp only [RRes.bind_ok] at h
              cases hins : mget g.edges_in v with
              | none =>
                rw [hins] at h
                cases h
              | some ins =>
                rw [hins] at h
                simp only [RRes.bind_ok] at h
                cases hint : intersectDoms doms vpreds ins seed with
                | ok dInter =>
                  rw [hint] at h
                  simp only [RRes.bind_ok] at h
                  cases houts : mget dag.edges_out v with
                  | none =>
                    rw [houts] at h
                    cases h
                  | some outs =>
                    rw [houts] at h
                    simp only [RRes.bind_ok] at h
                    have hstartNew : start ∈ nsInsert v dInter := by
                      rcases hseed seed hsm with hsd | ⟨hvs, hsd⟩
                      · rw [mem_nsInsert]
                        exact Or.inr
                          (intersectDoms_start_mem doms vpreds start hD2 ins seed
                            dInter hint hsd)
                      · rw [hsd] at hint
                        have := intersectDoms_nil_acc doms vpreds ins dInter hint
                        rw [this, hvs]
                        simp [nsInsert]
                    have hD1b : mget (minsert doms v (nsInsert v dInter)) start =
                        some [start] := by
                      by_cases hvs : v = start
                      · rcases hseed seed hsm with hsd | ⟨_, hsd⟩
                        · exfalso
                          subst hvs
                          have hdins2 : dagIns = [] := by
                            simp only [edges_in_res, hstartins] at hdins
                            simp only [RRes.ok.injEq] at hdins
                            exact hdins.symm
                          rw [hdins2] at hsm
                          simp only [List.head?_nil] at hsm
                          simp only [RRes.ok.injEq] at hsm
                          rw [← hsm] at hsd
                          cases hsd
                        · rw [hsd] at hint
                          have hd0 := intersectDoms_nil_acc doms vpreds ins dInter hint
                          rw [hvs, hd0]
                          have : nsInsert start ([] : List Nat) = [start] := rfl
                          rw [this, mget_minsert_self]
                      · rw [mget_minsert_ne _ _ _ _ hvs]
                        exact hD1
                    have hD2b : ∀ v2 s, mget (minsert doms v (nsInsert v dInter)) v2 =
                        some s → start ∈ s := by
                      intro v2 s hv2
                      by_cases hvv2 : v = v2
                      · rw [← hvv2, mget_minsert_self] at hv2
                        injection hv2 with hv2
                        rw [← hv2]
                        exact hstartNew
                      · rw [mget_minsert_ne _ _ _ _ hvv2] at hv2
                        exact hD2 v2 s hv2
                    obtain ⟨extraQ, hqeq, hqmem⟩ :=
                      enqueueTails_sub (outs.map IsEdge.tail) queueRest
                    have hD4b : ∀ u w, dag.erel u w →
                        (mget (minsert doms v (nsInsert v dInter)) u).isSome →
                        (mget (minsert doms v (nsInsert v dInter)) w).isSome ∨
                          w ∈ enqueueTails queueRest (outs.map IsEdge.tail) := by
                      intro u w hew hu
                      have hw_up : (mget doms w).isSome →
                          (mget (minsert doms v (nsInsert v dInter)) w).isSome := by
                        intro hws
                        by_cases hvw : v = w
                        · rw [← hvw, mget_minsert_self]
                          rfl
                        · rw [mget_minsert_ne _ _ _ _ hvw]
                          exact hws
                      by_cases huv : v = u
                      · obtain ⟨e2, he2, ht2⟩ := hdwf.erel_mem_out (huv ▸ hew) houts
                        refine Or.inr (mem_enqueueTails _ _ _ (Or.inl ?_))
                        rw [← ht2]
                        exact List.mem_map_of_mem IsEdge.tail he2
                      · rw [mget_minsert_ne _ _ _ _ huv] at hu
                        rcases hD4 u w hew hu with h2 | h2
                        · exact Or.inl (hw_up h2)
                        · rcases List.mem_cons.mp h2 with h2 | h2
                          · refine Or.inl ?_
                            rw [← h2, mget_minsert_self]
                            rfl
                          · exact Or.inr (mem_enqueueTails _ _ _ (Or.inr h2))
                    have hD5b : ∀ x ∈ enqueueTails queueRest (outs.map IsEdge.tail),
                        x = start ∨ ∃ u, dag.erel u x := by
                      intro x hx
                      rw [hqeq] at hx
                      rcases List.mem_append.mp hx with hx | hx
                      · exact hD5 x (List.mem_cons_of_mem v hx)
                      · have hxt := hqmem x hx
                        obtain ⟨e2, he2, ht2⟩ := List.mem_map.mp hxt
                        refine Or.inr ⟨v, ?_⟩
                        rw [← ht2]
                        exact hdwf.out_mem_erel houts he2
                    exact ih _ _ domsF h hD1b hD2b hD4b hD5b
                | err m =>
                  rw [hint] at h
                  simp only [RRes.bind_err] at h
                  cases h
                | panicked =>
                  rw [hint] at h
                  simp only [RRes.bind_panicked] at h
                  cases h
                | fuelout =>
                  rw [hint] at h
                  simp only [RRes.bind_fuelout] at h
                  cases h
            | err m =>
              rw [hsm] at h
              simp only [RRes.bind_err] at h
              cases h
            | panicked =>
              rw [hsm] at h
              simp only [RRes.bind_panicked] at h
              cases h
            | fuelout =>
              rw [hsm] at h
              simp only [RRes.bind_fuelout] at h
              cases h
          | err m =>
            rw [hdins] at h
            simp only [RRes.bind_err] at h
            cases h
          | panicked =>
            rw [hdins] at h
            simp only [RRes.bind_panicked] at h
            cases h
          | fuelout =>
            rw [hdins] at h
            simp only [RRes.bind_fuelout] at h
            cases h

/-- compute_dominators on a well-formed graph: the start entry is exactly
the singleton of start, and every vertex reachable from start has an
entry whose set contains start. -/
theorem compute_dominators_spec (g : Graph V E) (hwf : g.WF) (start fuel : Nat)
    (doms : List (Nat × List Nat))
    (h : g.compute_dominators start fuel = .ok doms) :
    mget doms start = some [start] ∧
    ∀ v, Relation.ReflTransGen g.erel start v →
      ∃ s, mget doms v = some s ∧ start ∈ s := by
  simp only [compute_dominators] at h
  by_cases hhv : ¬ (g.has_vertex start = true)
  · rw [if_pos hhv] at h
    cases h
  · rw [if_neg hhv] at h
    have hsv : g.has_vertex start = true := Decidable.not_not.mp hhv
    cases houts : mget g.edges_out start with
    | none =>
      rw [houts] at h
      cases h
    | some outs =>
      rw [houts] at h
      simp only [RRes.bind_ok] at h
      cases hac : g.compute_acyclic start fuel with
      | ok dag =>
        rw [hac] at h
        simp only [RRes.bind_ok] at h
        obtain ⟨hvkD, hdwf, hsub, _, hnostart, hsrcreach, hgreach, hstartE⟩ :=
          compute_acyclic_spec g hwf start fuel dag hac
        cases hcp : dag.compute_predecessors fuel with
        | ok dagP =>
          rw [hcp] at h
          simp only [RRes.bind_ok] at h
          obtain ⟨hPkeys, hPsound, hPcomp⟩ :=
            compute_predecessors_spec dag hdwf fuel dagP hcp
          have hstartmem : start ∈ mkeys dag.vertices := by
            rw [hvkD]
            exact mem_keys_of_mget_isSome (by simpa [has_vertex, mcontains] using hsv)
          have hstartins : mget dag.edges_in start = some [] := by
            have hsome : (mget dag.edges_in start).isSome := by
              refine mget_isSome_of_mem_keys ?_
              rw [hdwf.keys_in]
              exact hstartmem
            obtain ⟨l, hl⟩ := Option.isSome_iff_exists.mp hsome
            cases l with
            | nil => exact hl
            | cons e rest =>
              exfalso
              have := hdwf.in_mem_erel hl (List.mem_cons_self e rest)
              exact hnostart _ this
          have hD1z : mget [(start, [start])] start = some [start] := by
            simp [mget]
          have hD2z : ∀ v s, mget [(start, [start])] v = some s → start ∈ s := by
            intro v s hv
            simp only [mget_cons, mget_nil] at hv
            by_cases hv2 : start = v
            · rw [if_pos hv2] at hv
              injection hv with hv
              rw [← hv]
              simp
            · rw [if_neg hv2] at hv
              cases hv
          have hD4z : ∀ u w, dag.erel u w →
              (mget [(start, [start])] u).isSome →
              (mget [(start, [start])] w).isSome ∨ w ∈ outs.map IsEdge.tail := by
            intro u w hew hu
            have hu2 : u = start := by
              by_cases hsu : start = u
              · exact hsu.symm
              · simp only [mget_cons, mget_nil, if_neg hsu] at hu
                cases hu
            rw [hu2] at hew
            obtain ⟨e, he, ht⟩ := hwf.erel_mem_out (hsub _ _ hew) houts
            refine Or.inr ?_
            rw [← ht]
            exact List.mem_map_of_mem IsEdge.tail he
          have hD5z : ∀ x ∈ outs.map IsEdge.tail, x = start ∨ ∃ u, dag.erel u x := by
            intro x hx
            obtain ⟨e, he, ht⟩ := List.mem_map.mp hx
            have hgx : g.erel start x := by
              rw [← ht]
              exact hwf.out_mem_erel houts he
            rcases hstartE x hgx with h2 | h2
            · exact Or.inl h2
            · exact Or.inr ⟨start, h2⟩
          obtain ⟨hF1, hF2, hF4⟩ :=
            domLoop_spec g dag dagP start hdwf hPsound hnostart hsrcreach hstartins
              fuel [(start, [start])] (outs.map IsEdge.tail) doms h hD1z hD2z hD4z hD5z
          refine ⟨hF1, ?_⟩
          intro v hv
          have hkey : ∀ v2, Relation.ReflTransGen dag.erel start v2 →
              (mget doms v2).isSome := by
            intro v2 hv2
            induction hv2 with
            | refl =>
              rw [hF1]
              rfl
            | tail h2 hedge ih => exact hF4 _ _ hedge ih
          obtain ⟨s, hs⟩ := Option.isSome_iff_exists.mp (hkey v (hgreach v hv))
          exact ⟨s, hs, hF2 v s hs⟩
        | err m =>
          rw [hcp] at h
          simp only [RRes.bind_err] at h
          cases h
        | panicked =>
          rw [hcp] at h
          simp only [RRes.bind_panicked] at h
          cases h
        | fuelout =>
          rw [hcp] at h
          simp only [RRes.bind_fuelout] at h
          cases h
      | err m =>
        rw [hac] at h
        simp only [RRes.bind_err] at h
        cases h
      | panicked =>
        rw [hac] at h
        simp only [RRes.bind_panicked] at h
        cases h
      | fuelout =>
        rw [hac] at h
        simp only [RRes.bind_fuelout] at h
        cases h

end Graph

/-- A graph holding a single vertex 0 with a self-loop edge 0 to 0,
exactly as produced by insert_vertex followed by insert_edge. -/
def selfLoopGraph : Graph NullVertex NullEdge :=
  { head := none,
    vertices := [(0, ⟨0⟩)],
    edges := [((0, 0), ⟨0, 0⟩)],
    edges_out := [(0, [⟨0, 0⟩])],
    edges_in := [(0, [⟨0, 0⟩])] }

/-- A graph holding vertices 0 and 1 and no edges. -/
def twoVertexGraph : Graph NullVertex NullEdge :=
  { head := none,
    vertices := [(0, ⟨0⟩), (1, ⟨1⟩)],
    edges := [],
    edges_out := [(0, []), (1, [])],
    edges_in := [(0, []), (1, [])] }

/-- The three-block diamond: vertices 0,1,2,3 and edges 0 to 1, 0 to 2,
1 to 3, 2 to 3, with maps in the insertion order produced by inserting
the vertices then the edges in that order. -/
def diamondGraph : Graph NullVertex NullEdge :=
  { head := none,
    vertices := [(0, ⟨0⟩), (1, ⟨1⟩), (2, ⟨2⟩), (3, ⟨3⟩)],
    edges := [((0, 1), ⟨0, 1⟩), ((0, 2), ⟨0, 2⟩), ((1, 3), ⟨1, 3⟩), ((2, 3), ⟨2, 3⟩)],
    edges_out := [(0, [⟨0, 1⟩, ⟨0, 2⟩]), (1, [⟨1, 3⟩]), (2, [⟨2, 3⟩]), (3, [])],
    edges_in := [(0, []), (1, [⟨0, 1⟩]), (2, [⟨0, 2⟩]), (3, [⟨1, 3⟩, ⟨2, 3⟩])] }

/-- The simple loop of the specification: vertices 0,1,2,3 and edges
0 to 1, 1 to 2, 2 to 1, 1 to 3, with maps in the insertion order produced
by inserting the vertices then the edges in that order. -/
def simpleLoopGraph : Graph NullVertex NullEdge :=
  { head := none,
    vertices := [(0, ⟨0⟩), (1, ⟨1⟩), (2, ⟨2⟩), (3, ⟨3⟩)],
    edges := [((0, 1), ⟨0, 1⟩), ((1, 2), ⟨1, 2⟩), ((2, 1), ⟨2, 1⟩), ((1, 3), ⟨1, 3⟩)],
    edges_out := [(0, [⟨0, 1⟩]), (1, [⟨1, 2⟩, ⟨1, 3⟩]), (2, [⟨2, 1⟩]), (3, [])],
    edges_in := [(0, []), (1, [⟨0, 1⟩, ⟨2, 1⟩]), (2, [⟨1, 2⟩]), (3, [⟨1, 3⟩])] }

/-- The graph computed by compute_acyclic(0) on the simple loop. -/
def simpleLoopDag : Graph NullVertex NullEdge :=
  match simpleLoopGraph.compute_acyclic 0 100 with
  | .ok d => d
  | _ => Graph.new

/-- C1: on the three-block diamond, compute_dominators(0) returns
0 to the set containing 0, 1 to the set containing 0 and 1, 2 to the set
containing 0 and 2, 3 to the set containing 0 and 3;
compute_immediate_dominators(0) returns 1 to 0, 2 to 0, 3 to 0 with no
entry for 0; and compute_dominance_frontiers(0) returns the empty set for
0 and 3 and the set containing 3 for 1 and 2. -/
theorem claim_C1_diamond_dominators :
    diamondGraph.compute_dominators 0 100 =
      .ok [(0, [0]), (1, [0, 1]), (2, [0, 2]), (3, [0, 3])] ∧
    diamondGraph.compute_immediate_dominators 0 100 =
      .ok [(1, 0), (2, 0), (3, 0)] ∧
    diamondGraph.compute_dominance_frontiers 0 100 =
      .ok [(0, []), (1, [3]), (2, [3]), (3, [])] := by
  refine ⟨by decide, by decide, by decide⟩

/-- C2: the claim states that remove_vertex(i) succeeds for every present
vertex i, including in the presence of a self-loop edge i to i. The code
collects the incident edge pairs from both edges_out and edges_in, so the
self-loop pair appears twice, the second remove_edge call fails, and
remove_vertex returns an error on a well-formed graph that contains its
argument. This theorem evaluates the code at the failing input: a graph
with the single vertex 0 and the self-loop edge 0 to 0. -/
theorem claim_C2_remove_vertex_selfloop_errors :
    selfLoopGraph.WF ∧
    selfLoopGraph.has_vertex 0 = true ∧
    selfLoopGraph.remove_vertex 0 = .err "edge does not exist" := by
  refine ⟨?_, by decide, by decide⟩
  constructor <;> decide

/-- C4: on every well-formed graph, when compute_acyclic(start) succeeds
the returned graph carries exactly the vertex indices of the source, all
its edges are source edges, and it contains no cycle; on the simple loop
0 to 1, 1 to 2, 2 to 1, 1 to 3 with start 0 the returned graph keeps the
edges 0 to 1, 1 to 2 and 1 to 3 and omits the back edge 2 to 1. -/
theorem claim_C4_compute_acyclic :
    (∀ (V E : Type) [IsVertex V] [IsEdge E] (g : Graph V E)
      (start fuel : Nat) (dag : Graph NullVertex NullEdge), g.WF →
      g.has_vertex start →
      g.compute_acyclic start fuel = .ok dag →
      mkeys dag.vertices = mkeys g.vertices ∧
      (∀ u w, dag.erel u w → g.erel u w) ∧
      ¬ ∃ c, Relation.TransGen dag.erel c c) ∧
    (simpleLoopGraph.compute_acyclic 0 100).bind
        (fun d => RRes.ok (mkeys d.vertices, mkeys d.edges)) =
      .ok ([0, 1, 2, 3], [(0, 1), (1, 2), (1, 3)]) := by
  constructor
  · intro V E iv ie g start fuel dag hwf _ h
    obtain ⟨h1, _, h3, h4, _⟩ := Graph.compute_acyclic_spec g hwf start fuel dag h
    exact ⟨h1, h3, h4⟩
  · rfl

/-- Witness for C4 at the simple loop: the hypotheses hold at the concrete
graph and the conclusions transfer to its computed acyclic graph. -/
theorem claim_C4_witness :
    mkeys simpleLoopDag.vertices = mkeys simpleLoopGraph.vertices ∧
    (∀ u w, simpleLoopDag.erel u w → simpleLoopGraph.erel u w) ∧
    ¬ ∃ c, Relation.TransGen simpleLoopDag.erel c c :=
  claim_C4_compute_acyclic.1 NullVertex NullEdge simpleLoopGraph 0 100 simpleLoopDag
    (by constructor <;> decide) (by decide) (by rfl)

/-- C3: on every well-formed graph with its start vertex present, when
compute_dominators(start) succeeds the returned map sends start to exactly
the singleton set of start, and every vertex reachable from start has an
entry whose dominator set contains start. -/
theorem claim_C3_dominators_start :
    ∀ (V E : Type) [IsVertex V] [IsEdge E] (g : Graph V E) (start fuel : Nat)
      (doms : List (Nat × List Nat)), g.WF → g.has_vertex start →
      g.compute_dominators start fuel = .ok doms →
      mget doms start = some [start] ∧
      ∀ v, Relation.ReflTransGen g.erel start v →
        ∃ s, mget doms v = some s ∧ start ∈ s := by
  intro V E iv ie g start fuel doms hwf _ h
  exact Graph.compute_dominators_spec g hwf start fuel doms h

/-- Witness for C3 at the three-block diamond with start 0 and fuel 100:
the hypotheses hold concretely and the conclusions transfer to the
computed dominator map. -/
theorem claim_C3_witness :
    mget [(0, [0]), (1, [0, 1]), (2, [0, 2]), (3, [0, 3])] 0 = some [0] ∧
    ∀ v, Relation.ReflTransGen diamondGraph.erel 0 v →
      ∃ s, mget [(0, [0]), (1, [0, 1]), (2, [0, 2]), (3, [0, 3])] v = some s ∧
        0 ∈ s :=
  claim_C3_dominators_start NullVertex NullEdge diamondGraph 0 100
    [(0, [0]), (1, [0, 1]), (2, [0, 2]), (3, [0, 3])]
    (by constructor <;> decide) (by decide) (by decide)

/-- C8: on a well-formed graph, inserting a fresh edge between existing
vertices and then removing the edge with the same endpoints succeeds and
restores the graph bit for bit (vertices, edges, edges_out, edges_in and
head all unchanged). -/
theorem claim_C8_insert_remove_edge_roundtrip (g : Graph NullVertex NullEdge)
    (e : NullEdge) (hwf : g.WF)
    (hh : IsEdge.head e ∈ mkeys g.vertices) (ht : IsEdge.tail e ∈ mkeys g.vertices)
    (habs : mget g.edges (IsEdge.head e, IsEdge.tail e) = none) :
    ∃ g1, g.insert_edge e = .ok g1 ∧
      g1.remove_edge (IsEdge.head e) (IsEdge.tail e) = .ok g :=
  Graph.insert_remove_roundtrip g e hwf hh ht habs

/-- Witness for C8 at a concrete input: the two-vertex edgeless graph and
the edge 0 to 1. -/
theorem claim_C8_witness :
    ∃ g1, twoVertexGraph.insert_edge (NullEdge.mk 0 1) = .ok g1 ∧
      g1.remove_edge 0 1 = .ok twoVertexGraph :=
  claim_C8_insert_remove_edge_roundtrip twoVertexGraph (NullEdge.mk 0 1)
    (by constructor <;> decide) (by decide) (by decide) (by decide)

/-- C9: insert_edge does not validate that the endpoints exist: on a
well-formed graph, inserting a fresh edge whose head (or tail) is not a
vertex returns Ok, records the edge in the edges map, and leaves the
edges_out (respectively edges_in) map without any entry for that
endpoint, so the edges/adjacency correspondence invariant no longer
holds. -/
theorem claim_C9_insert_edge_missing_vertex (g : Graph NullVertex NullEdge)
    (e : NullEdge) (hwf : g.WF)
    (habs : mget g.edges (IsEdge.head e, IsEdge.tail e) = none) :
    ∃ g1, g.insert_edge e = .ok g1 ∧
      mget g1.edges (IsEdge.head e, IsEdge.tail e) = some e ∧
      (IsEdge.head e ∉ mkeys g.vertices → mget g1.edges_out (IsEdge.head e) = none) ∧
      (IsEdge.tail e ∉ mkeys g.vertices → mget g1.edges_in (IsEdge.tail e) = none) :=
  Graph.insert_edge_missing_vertex g e hwf habs

/-- Witness for C9 at a concrete input: the empty graph and the edge
0 to 1, both of whose endpoints are absent. -/
theorem claim_C9_witness :
    ∃ g1, (Graph.new : Graph NullVertex NullEdge).insert_edge (NullEdge.mk 0 1) = .ok g1 ∧
      mget g1.edges (0, 1) = some (NullEdge.mk 0 1) ∧
      ((0 : Nat) ∉ mkeys (Graph.new : Graph NullVertex NullEdge).vertices →
        mget g1.edges_out 0 = none) ∧
      ((1 : Nat) ∉ mkeys (Graph.new : Graph NullVertex NullEdge).vertices →
        mget g1.edges_in 1 = none) :=
  claim_C9_insert_edge_missing_vertex Graph.new (NullEdge.mk 0 1)
    (by constructor <;> decide) (by decide)

namespace IL

/-- Modelled from the spec: the IL Expression type is not under src and
is opaque to the core; the only affordance consumed is collect_scalars,
so an Expression is modelled by the list of scalar variables appearing in
it, variables being opaque identifiers modelled as Nat. -/
structure Expression where
  scalars : List Nat
deriving Repr, DecidableEq

/-- The IL Edge from control_flow_graph.rs: endpoints, an optional
condition and an optional comment. -/
structure Edge where
  head : Nat
  tail : Nat
  condition : Option Expression
  comment : Option String
deriving Repr, DecidableEq

def Edge.new (head tail : Nat) (condition : Option Expression) : Edge :=
  ⟨head, tail, condition, none⟩

instance : IsEdge Edge := ⟨Edge.head, Edge.tail⟩

/-- Modelled from the spec: Block is not under src; it is a straight-line
sequence of instructions with a unique index within its CFG. The
instruction type is a parameter, since the core treats instructions
opaquely except for the def-use surface. -/
structure Block (ι : Type) where
  index : Nat
  instructions : List ι
deriving Repr, DecidableEq

/-- Modelled from the spec: append concatenates another block's
instructions onto this one. -/
def Block.append {ι : Type} (b other : Block ι) : Block ι :=
  { b with instructions := b.instructions ++ other.instructions }

instance {ι : Type} : IsVertex (Block ι) := ⟨Block.index⟩

/-- The ControlFlowGraph from control_flow_graph.rs, fields as in the
source; the interior-mutable temp counter is a plain field since all
mutation is explicit state passing here. -/
structure ControlFlowGraph (ι : Type) where
  graph : Graph (Block ι) Edge
  next_index : Nat
  next_temp_index : Nat
  entry : Option Nat
  exit : Option Nat
  ssa_form : Bool
deriving Repr, DecidableEq

variable {ι : Type}

/-- The scan at the top of ControlFlowGraph::merge: find the first block,
in block map iteration order, having exactly one outgoing edge, which is
unconditional and whose tail has exactly one incoming edge. -/
def findMergePair (g : Graph (Block ι) Edge) :
    List (Nat × Block ι) → RRes (Option (Nat × Nat))
  | [] => .ok none
  | (i, _) :: rest =>
    match mget g.edges_out i with
    | none => .panicked
    | some succs =>
      if succs.length ≠ 1 then findMergePair g rest
      else
        match succs.head? with
        | none => .err "successor not found"
        | some first =>
          if first.condition.isSome then findMergePair g rest
          else
            match mget g.edges_in first.tail with
            | none => .panicked
            | some predecessors =>
              if predecessors.length ≠ 1 then findMergePair g rest
              else .ok (some (i, first.tail))

/-- Sequential edge insertion with error propagation. -/
def insertEdgesList (g : Graph (Block ι) Edge) :
    List Edge → RRes (Graph (Block ι) Edge)
  | [] => .ok g
  | e :: rest => (g.insert_edge e).bind fun g2 => insertEdgesList g2 rest

/-- The contraction loop of ControlFlowGraph::merge: append the unique
successor's instructions onto the block, rewire the successor's outgoing
edges to originate at the block, delete the successor, repeat. -/
def mergeLoop : Nat → ControlFlowGraph ι → RRes (ControlFlowGraph ι)
  | 0, _ => .fuelout
  | fuel + 1, cfg =>
    (findMergePair cfg.graph cfg.graph.vertices).bind fun pair =>
    match pair with
    | none => .ok cfg
    | some (mergeIndex, successorIndex) =>
      (match mget cfg.graph.vertices successorIndex with
       | some b => RRes.ok b
       | none => RRes.err "Could not find block").bind fun successorBlock =>
      (match mget cfg.graph.vertices mergeIndex with
       | some _ => RRes.ok ()
       | none => RRes.err "Could not find block").bind fun _ =>
      let g1 := { cfg.graph with
        vertices := mupdate cfg.graph.vertices mergeIndex
          (fun b => b.append successorBlock) }
      (match mget g1.edges_out successorIndex with
       | some outs => RRes.ok outs
       | none => RRes.panicked).bind fun outs =>
      (insertEdgesList g1
        (outs.map (fun (e : Edge) => Edge.new mergeIndex e.tail e.condition))).bind fun g2 =>
      (g2.remove_vertex successorIndex).bind fun g3 =>
      mergeLoop fuel { cfg with graph := g3 }

/-- ControlFlowGraph::merge, with fuel for the outer loop. -/
def ControlFlowGraph.merge (cfg : ControlFlowGraph ι) (fuel : Nat) :
    RRes (ControlFlowGraph ι) :=
  mergeLoop fuel cfg

/-- A ControlFlowGraph holding exactly the blocks 0, 1, 2 with the given
instruction sequences and exactly the unconditional edges 0 to 1 and
1 to 2, the maps being in insertion order. -/
def threeChainCFG (l0 l1 l2 : List ι) (hd : Option Nat) (ni nti : Nat)
    (en ex : Option Nat) (ssa : Bool) : ControlFlowGraph ι :=
  { graph :=
    { head := hd,
      vertices := [(0, ⟨0, l0⟩), (1, ⟨1, l1⟩), (2, ⟨2, l2⟩)],
      edges := [((0, 1), Edge.new 0 1 none), ((1, 2), Edge.new 1 2 none)],
      edges_out := [(0, [Edge.new 0 1 none]), (1, [Edge.new 1 2 none]), (2, [])],
      edges_in := [(0, []), (1, [Edge.new 0 1 none]), (2, [Edge.new 1 2 none])] },
    next_index := ni,
    next_temp_index := nti,
    entry := en,
    exit := ex,
    ssa_form := ssa }

end IL

namespace Analysis

/-- Modelled from the spec: the IL affordances def_use consumes from an
instruction are the variables it reads and the optional variable it
writes; the index identifies the instruction within its block for
location resolution. Variables are opaque identifiers modelled as Nat
(MultiVar and Scalar both collapse to the identifier). -/
structure Instruction where
  index : Nat
  variables_read : List Nat
  variable_written : Option Nat
deriving Repr, DecidableEq

/-- AnalysisLocation: a tagged locator with exactly three shapes,
modelled from the spec (analysis_location.rs is not under src). The
optional function index of the Instruction variant is omitted: it plays
no role in resolution against a single CFG. -/
inductive AnalysisLocation where
  | instruction (block instruction : Nat)
  | edge (head tail : Nat)
  | emptyBlock (block : Nat)
deriving Repr, DecidableEq

/-- Modelled from the spec: resolving an Instruction location against
the CFG recovers the instruction with the given index inside the given
block; it fails when the block or the instruction is gone. -/
def instructionFind (cfg : IL.ControlFlowGraph Instruction)
    (blockIndex instrIndex : Nat) : RRes Instruction :=
  match mget cfg.graph.vertices blockIndex with
  | none => .err "block not found"
  | some b =>
    match b.instructions.find? (fun i => i.index == instrIndex) with
    | none => .err "instruction not found"
    | some i => .ok i

/-- Modelled from the spec: resolving an Edge location recovers the CFG
edge with the given endpoints; it fails when the edge is gone. -/
def edgeFind (cfg : IL.ControlFlowGraph Instruction) (h t : Nat) :
    RRes IL.Edge :=
  match mget cfg.graph.edges (h, t) with
  | none => .err "edge not found"
  | some e => .ok e

/-- Modelled from the spec: the reaching-definitions record; only the
in_ set of incoming definitions is consumed by the chain builder. -/
structure Reaches where
  in_ : List AnalysisLocation
deriving Repr, DecidableEq

/-- The use haystack of a location, as built identically at the top of
def_use and use_def: an Edge location resolves with unwrap (an Err from
the find PANICS), an Instruction location propagates its failure with
the question mark operator, an EmptyBlock has an empty haystack. -/
def haystackOf (cfg : IL.ControlFlowGraph Instruction) :
    AnalysisLocation → RRes (Finset Nat)
  | .edge h t =>
    match edgeFind cfg h t with
    | .ok e =>
      match e.condition with
      | some c => .ok c.scalars.toFinset
      | none => .ok ∅
    | _ => .panicked
  | .instruction b i =>
    (instructionFind cfg b i).bind fun instr => .ok instr.variables_read.toFinset
  | .emptyBlock _ => .ok ∅

/-- The inner loop of def_use over the definitions reaching one
location: for each Instruction definition that writes a variable in the
haystack, insert this location into the def entry of the accumulator,
panicking when that entry is missing. -/
def duInner (cfg : IL.ControlFlowGraph Instruction)
    (thisLocation : AnalysisLocation) (hs : Finset Nat) :
    List AnalysisLocation → List (AnalysisLocation × Finset AnalysisLocation) →
    RRes (List (AnalysisLocation × Finset AnalysisLocation))
  | [], du => .ok du
  | defLoc :: rest, du =>
    match defLoc with
    | .instruction db di =>
      (instructionFind cfg db di).bind fun instr =>
      (match instr.variable_written with
       | some w =>
         if w ∈ hs then
           match mget du (.instruction db di) with
           | none => RRes.panicked
           | some s =>
             RRes.ok (minsert du (.instruction db di) (insert thisLocation s))
         else RRes.ok du
       | none => RRes.ok du).bind fun du2 =>
      duInner cfg thisLocation hs rest du2
    | _ => duInner cfg thisLocation hs rest du

/-- The outer loop of def_use over the reaching-definitions map. -/
def duOuter (cfg : IL.ControlFlowGraph Instruction) :
    List (AnalysisLocation × Reaches) →
    List (AnalysisLocation × Finset AnalysisLocation) →
    RRes (List (AnalysisLocation × Finset AnalysisLocation))
  | [], du => .ok du
  | (loc, reaches) :: rest, du =>
    (haystackOf cfg loc).bind fun hs =>
    (duInner cfg loc hs reaches.in_ du).bind fun du2 =>
    duOuter cfg rest du2

/-- def_use from def_use.rs: definition location to the set of locations
that may observe it. The result map is initialized with an empty set for
every key of the reaching-definitions map. -/
def def_use (rd : List (AnalysisLocation × Reaches))
    (cfg : IL.ControlFlowGraph Instruction) :
    RRes (List (AnalysisLocation × Finset AnalysisLocation)) :=
  duOuter cfg rd
    (rd.foldl (fun m p => minsert m p.1 (∅ : Finset AnalysisLocation)) [])

/-- The inner loop of use_def: the mirror of duInner, inserting the
definition location into the entry of the use location. -/
def udInner (cfg : IL.ControlFlowGraph Instruction)
    (thisLocation : AnalysisLocation) (hs : Finset Nat) :
    List AnalysisLocation → List (AnalysisLocation × Finset AnalysisLocation) →
    RRes (List (AnalysisLocation × Finset AnalysisLocation))
  | [], ud => .ok ud
  | defLoc :: rest, ud =>
    match defLoc with
    | .instruction db di =>
      (instructionFind cfg db di).bind fun instr =>
      (match instr.variable_written with
       | some w =>
         if w ∈ hs then
           match mget ud thisLocation with
           | none => RRes.panicked
           | some s =>
             RRes.ok (minsert ud thisLocation (insert (AnalysisLocation.instruction db di) s))
         else RRes.ok ud
       | none => RRes.ok ud).bind fun ud2 =>
      udInner cfg thisLocation hs rest ud2
    | _ => udInner cfg thisLocation hs rest ud

/-- The outer loop of use_def over the reaching-definitions map. -/
def udOuter (cfg : IL.ControlFlowGraph Instruction) :
    List (AnalysisLocation × Reaches) →
    List (AnalysisLocation × Finset AnalysisLocation) →
    RRes (List (AnalysisLocation × Finset AnalysisLocation))
  | [], ud => .ok ud
  | (loc, reaches) :: rest, ud =>
    (haystackOf cfg loc).bind fun hs =>
    (udInner cfg loc hs reaches.in_ ud).bind fun ud2 =>
    udOuter cfg rest ud2

/-- use_def from def_use.rs: use location to the set of definition
locations it may observe. -/
def use_def (rd : List (AnalysisLocation × Reaches))
    (cfg : IL.ControlFlowGraph Instruction) :
    RRes (List (AnalysisLocation × Finset AnalysisLocation)) :=
  udOuter cfg rd
    (rd.foldl (fun m p => minsert m p.1 (∅ : Finset AnalysisLocation)) [])

/-- The empty control flow graph over the def-use instruction surface. -/
def emptyCFG : IL.ControlFlowGraph Instruction :=
  { graph := { head := none, vertices := [], edges := [], edges_out := [], edges_in := [] },
    next_index := 0, next_temp_index := 0, entry := none, exit := none, ssa_form := false }

/-- A reaching-definitions map whose only key is an Edge location that
does not resolve against the empty CFG. -/
def unresolvableEdgeRD : List (AnalysisLocation × Reaches) :=
  [(.edge 0 1, ⟨[]⟩)]

/-- Definition D is of Instruction shape, resolves, and writes a
variable lying in the haystack hs: exactly the condition under which the
chain builders record a pair. -/
def hits (cfg : IL.ControlFlowGraph Instruction) (hs : Finset Nat)
    (D : AnalysisLocation) : Prop :=
  ∃ db di, D = .instruction db di ∧
  ∃ instr, instructionFind cfg db di = .ok instr ∧
  ∃ w, instr.variable_written = some w ∧ w ∈ hs

/-- The pair relation both chain builders record: the definition D
reaches the location L and writes a variable used at L. -/
def UsePair (rd : List (AnalysisLocation × Reaches))
    (cfg : IL.ControlFlowGraph Instruction) (L D : AnalysisLocation) : Prop :=
  ∃ r, mget rd L = some r ∧ D ∈ r.in_ ∧
  ∃ hs, haystackOf cfg L = .ok hs ∧ hits cfg hs D

/-- The initialization fold gives every key of the map the empty set. -/
theorem mget_initMap (rd : List (AnalysisLocation × Reaches)) (X : AnalysisLocation) :
    mget (rd.foldl (fun m p => minsert m p.1 (∅ : Finset AnalysisLocation)) []) X =
      if X ∈ mkeys rd then some ∅ else none := by
  have key : ∀ (l : List (AnalysisLocation × Reaches))
      (m0 : List (AnalysisLocation × Finset AnalysisLocation)),
      mget (l.foldl (fun m p => minsert m p.1 ∅) m0) X =
        if X ∈ mkeys l then some ∅ else mget m0 X := by
    intro l
    induction l with
    | nil => intro m0; simp [mkeys]
    | cons p rest ih =>
      intro m0
      obtain ⟨k, r⟩ := p
      simp only [List.foldl_cons, ih, mkeys, List.map_cons, List.mem_cons]
      by_cases hx : X ∈ mkeys rest
      · simp [mkeys] at hx
        simp [hx]
      · simp [mkeys] at hx
        by_cases hk : X = k
        · subst hk
          simp [hx, mget_minsert_self]
        · simp [hx, hk, mget_minsert_ne _ _ _ _ (Ne.symm hk)]
  simp [key]

/-- Characterization of one inner pass of def_use: keys are unchanged,
and the entry of a definition D gains exactly this location, when some
element of the processed list is D and D hits the haystack. -/
theorem duInner_ok_char (cfg : IL.ControlFlowGraph Instruction)
    (L : AnalysisLocation) (hs : Finset Nat) :
    ∀ (list : List AnalysisLocation)
      (du du2 : List (AnalysisLocation × Finset AnalysisLocation)),
      duInner cfg L hs list du = .ok du2 →
      mkeys du2 = mkeys du ∧
      ∀ D S2, mget du2 D = some S2 → ∃ S, mget du D = some S ∧
        ∀ X, X ∈ S2 ↔ X ∈ S ∨ (X = L ∧ D ∈ list ∧ hits cfg hs D) := by
  intro list
  induction list with
  | nil =>
    intro du du2 h
    simp only [duInner] at h
    cases h
    exact ⟨rfl, fun D S2 hg => ⟨S2, hg, fun X => by simp⟩⟩
  | cons defLoc rest ih =>
    intro du du2 h
    cases defLoc with
    | edge a b =>
      simp only [duInner] at h
      obtain ⟨hk, hv⟩ := ih du du2 h
      refine ⟨hk, fun D S2 hg => ?_⟩
      obtain ⟨S, hS, hiff⟩ := hv D S2 hg
      refine ⟨S, hS, fun X => ?_⟩
      rw [hiff X]
      apply or_congr_right
      constructor
      · rintro ⟨hx, hD, hh⟩
        exact ⟨hx, List.mem_cons_of_mem _ hD, hh⟩
      · rintro ⟨hx, hD, hh⟩
        rcases List.mem_cons.mp hD with hD | hD
        · obtain ⟨db, di, hDe, _⟩ := hh
          rw [hD] at hDe
          exact absurd hDe (by simp)
        · exact ⟨hx, hD, hh⟩
    | emptyBlock a =>
      simp only [duInner] at h
      obtain ⟨hk, hv⟩ := ih du du2 h
      refine ⟨hk, fun D S2 hg => ?_⟩
      obtain ⟨S, hS, hiff⟩ := hv D S2 hg
      refine ⟨S, hS, fun X => ?_⟩
      rw [hiff X]
      apply or_congr_right
      constructor
      · rintro ⟨hx, hD, hh⟩
        exact ⟨hx, List.mem_cons_of_mem _ hD, hh⟩
      · rintro ⟨hx, hD, hh⟩
        rcases List.mem_cons.mp hD with hD | hD
        · obtain ⟨db, di, hDe, _⟩ := hh
          rw [hD] at hDe
          exact absurd hDe (by simp)
        · exact ⟨hx, hD, hh⟩
    | instruction db di =>
      simp only [duInner] at h
      cases hfind : instructionFind cfg db di with
      | ok instr =>
        rw [hfind] at h
        simp only [RRes.bind_ok] at h
        cases hw : instr.variable_written with
        | none =>
          rw [hw] at h
          simp only [RRes.bind_ok] at h
          obtain ⟨hk, hv⟩ := ih du du2 h
          refine ⟨hk, fun D S2 hg => ?_⟩
          obtain ⟨S, hS, hiff⟩ := hv D S2 hg
          refine ⟨S, hS, fun X => ?_⟩
          rw [hiff X]
          apply or_congr_right
          constructor
          · rintro ⟨hx, hD, hh⟩
            exact ⟨hx, List.mem_cons_of_mem _ hD, hh⟩
          · rintro ⟨hx, hD, hh⟩
            rcases List.mem_cons.mp hD with hD | hD
            · obtain ⟨db2, di2, hDe, instr2, hfind2, w2, hw2, _⟩ := hh
              rw [hD] at hDe
              obtain ⟨he1, he2⟩ := AnalysisLocation.instruction.injEq .. ▸ hDe
              subst he1; subst he2
              rw [hfind] at hfind2
              cases hfind2
              rw [hw] at hw2
              cases hw2
            · exact ⟨hx, hD, hh⟩
        | some w =>
          rw [hw] at h
          simp only [RRes.bind_ok] at h
          by_cases hmem : w ∈ hs
          · rw [if_pos hmem] at h
            cases hget : mget du (AnalysisLocation.instruction db di) with
            | none =>
              rw [hget] at h
              simp at h
            | some s =>
              rw [hget] at h
              simp only [RRes.bind_ok] at h
              obtain ⟨hk, hv⟩ := ih _ du2 h
              have hkeys : mkeys du2 = mkeys du := by
                rw [hk, mkeys_minsert]
                simp [hget]
              refine ⟨hkeys, fun D S2 hg => ?_⟩
              obtain ⟨S1, hS1, hiff1⟩ := hv D S2 hg
              have hhits : hits cfg hs (AnalysisLocation.instruction db di) :=
                ⟨db, di, rfl, instr, hfind, w, hw, hmem⟩
              by_cases hD : D = AnalysisLocation.instruction db di
              · subst hD
                rw [mget_minsert_self] at hS1
                cases hS1
                refine ⟨s, hget, fun X => ?_⟩
                rw [hiff1 X]
                simp only [Finset.mem_insert]
                constructor
                · rintro ((rfl | hX) | ⟨rfl, _, _⟩)
                  · exact Or.inr ⟨rfl, List.mem_cons_self .., hhits⟩
                  · exact Or.inl hX
                  · exact Or.inr ⟨rfl, List.mem_cons_self .., hhits⟩
                · rintro (hX | ⟨rfl, _, _⟩)
                  · exact Or.inl (Or.inr hX)
                  · exact Or.inl (Or.inl rfl)
              · rw [mget_minsert_ne _ _ _ _ (fun he => hD he.symm)] at hS1
                refine ⟨S1, hS1, fun X => ?_⟩
                rw [hiff1 X]
                apply or_congr_right
                constructor
                · rintro ⟨hx, hDm, hh⟩
                  exact ⟨hx, List.mem_cons_of_mem _ hDm, hh⟩
                · rintro ⟨hx, hDm, hh⟩
                  rcases List.mem_cons.mp hDm with hDm | hDm
                  · exact absurd hDm hD
                  · exact ⟨hx, hDm, hh⟩
          · rw [if_neg hmem] at h
            simp only [RRes.bind_ok] at h
            obtain ⟨hk, hv⟩ := ih du du2 h
            refine ⟨hk, fun D S2 hg => ?_⟩
            obtain ⟨S, hS, hiff⟩ := hv D S2 hg
            refine ⟨S, hS, fun X => ?_⟩
            rw [hiff X]
            apply or_congr_right
            constructor
            · rintro ⟨hx, hD, hh⟩
              exact ⟨hx, List.mem_cons_of_mem _ hD, hh⟩
            · rintro ⟨hx, hD, hh⟩
              rcases List.mem_cons.mp hD with hD | hD
              · obtain ⟨db2, di2, hDe, instr2, hfind2, w2, hw2, hmem2⟩ := hh
                rw [hD] at hDe
                obtain ⟨he1, he2⟩ := AnalysisLocation.instruction.injEq .. ▸ hDe
                subst he1; subst he2
                rw [hfind] at hfind2
                cases hfind2
                rw [hw] at hw2
                cases hw2
                exact absurd hmem2 hmem
              · exact ⟨hx, hD, hh⟩
      | err m =>
        rw [hfind] at h
        simp at h
      | panicked =>
        rw [hfind] at h
        simp at h
      | fuelout =>
        rw [hfind] at h
        simp at h

/-- Characterization of the outer loop of def_use: keys unchanged, and
the entry of D gains exactly the processed locations X whose reaching
definitions contain D with a haystack hit. -/
theorem duOuter_ok_char (cfg : IL.ControlFlowGraph Instruction) :
    ∀ (rest : List (AnalysisLocation × Reaches))
      (du du2 : List (AnalysisLocation × Finset AnalysisLocation)),
      duOuter cfg rest du = .ok du2 →
      mkeys du2 = mkeys du ∧
      ∀ D S2, mget du2 D = some S2 → ∃ S, mget du D = some S ∧
        ∀ X, X ∈ S2 ↔ X ∈ S ∨
          (∃ r, (X, r) ∈ rest ∧ D ∈ r.in_ ∧
            ∃ hs, haystackOf cfg X = .ok hs ∧ hits cfg hs D) := by
  intro rest
  induction rest with
  | nil =>
    intro du du2 h
    simp only [duOuter] at h
    cases h
    exact ⟨rfl, fun D S2 hg => ⟨S2, hg, fun X => by simp⟩⟩
  | cons p rest ih =>
    obtain ⟨loc, reaches⟩ := p
    intro du du2 h
    simp only [duOuter] at h
    cases hhay : haystackOf cfg loc with
    | ok hs0 =>
      rw [hhay] at h
      simp only [RRes.bind_ok] at h
      cases hmid : duInner cfg loc hs0 reaches.in_ du with
      | ok duMid =>
        rw [hmid] at h
        simp only [RRes.bind_ok] at h
        obtain ⟨hk1, hv1⟩ := duInner_ok_char cfg loc hs0 reaches.in_ du duMid hmid
        obtain ⟨hk2, hv2⟩ := ih duMid du2 h
        refine ⟨hk2.trans hk1, fun D S2 hg => ?_⟩
        obtain ⟨SM, hSM, hiff2⟩ := hv2 D S2 hg
        obtain ⟨S, hS, hiff1⟩ := hv1 D SM hSM
        refine ⟨S, hS, fun X => ?_⟩
        rw [hiff2 X, hiff1 X]
        constructor
        · rintro ((hX | ⟨rfl, hD, hh⟩) | ⟨r, hr, hD, hs2, hhay2, hh⟩)
          · exact Or.inl hX
          · exact Or.inr ⟨reaches, List.mem_cons_self .., hD, hs0, hhay, hh⟩
          · exact Or.inr ⟨r, List.mem_cons_of_mem _ hr, hD, hs2, hhay2, hh⟩
        · rintro (hX | ⟨r, hr, hD, hs2, hhay2, hh⟩)
          · exact Or.inl (Or.inl hX)
          · rcases List.mem_cons.mp hr with hr | hr
            · obtain ⟨he1, he2⟩ := Prod.mk.injEq .. ▸ hr
              subst he1
              subst he2
              rw [hhay] at hhay2
              cases hhay2
              exact Or.inl (Or.inr ⟨rfl, hD, hh⟩)
            · exact Or.inr ⟨r, hr, hD, hs2, hhay2, hh⟩
      | err m =>
        rw [hmid] at h
        simp at h
      | panicked =>
        rw [hmid] at h
        simp at h
      | fuelout =>
        rw [hmid] at h
        simp at h
    | err m =>
      rw [hhay] at h
      simp at h
    | panicked =>
      rw [hhay] at h
      simp at h
    | fuelout =>
      rw [hhay] at h
      simp at h

/-- Characterization of def_use on an ok result: the key set of the
returned map is the key set of the reaching-definitions map, and the
entry S of a definition D satisfies X in S iff (X, D) is a recorded
def-use pair. -/
theorem def_use_ok_char (rd : List (AnalysisLocation × Reaches))
    (cfg : IL.ControlFlowGraph Instruction)
    (du : List (AnalysisLocation × Finset AnalysisLocation))
    (h : def_use rd cfg = .ok du) (hnd : (mkeys rd).Nodup) :
    (∀ X, (mget du X).isSome ↔ X ∈ mkeys rd) ∧
    ∀ D S, mget du D = some S → ∀ X, X ∈ S ↔ UsePair rd cfg X D := by
  obtain ⟨hk, hv⟩ := duOuter_ok_char cfg rd _ du h
  constructor
  · intro X
    constructor
    · intro hx
      have := mem_keys_of_mget_isSome hx
      rw [hk] at this
      have h2 := mget_isSome_of_mem_keys this
      rw [mget_initMap] at h2
      by_cases hX : X ∈ mkeys rd
      · exact hX
      · rw [if_neg hX] at h2
        cases h2
    · intro hx
      apply mget_isSome_of_mem_keys
      rw [hk]
      apply mem_keys_of_mget_isSome
      rw [mget_initMap, if_pos hx]
      rfl
  · intro D S hg X
    obtain ⟨S0, hS0, hiff⟩ := hv D S hg
    rw [mget_initMap] at hS0
    by_cases hD : D ∈ mkeys rd
    · rw [if_pos hD] at hS0
      cases hS0
      rw [hiff X]
      simp only [Finset.not_mem_empty, false_or]
      constructor
      · rintro ⟨r, hr, hD2, hs, hhay, hh⟩
        exact ⟨r, mget_eq_some_of_mem_nodup hnd hr, hD2, hs, hhay, hh⟩
      · rintro ⟨r, hr, hD2, hs, hhay, hh⟩
        exact ⟨r, mem_of_mget_eq_some hr, hD2, hs, hhay, hh⟩
    · rw [if_neg hD] at hS0
      cases hS0

/-- Characterization of one inner pass of use_def: keys unchanged, and
the entry of this location gains exactly the definitions in the list
that hit the haystack. -/
theorem udInner_ok_char (cfg : IL.ControlFlowGraph Instruction)
    (L : AnalysisLocation) (hs : Finset Nat) :
    ∀ (list : List AnalysisLocation)
      (ud ud2 : List (AnalysisLocation × Finset AnalysisLocation)),
      udInner cfg L hs list ud = .ok ud2 →
      mkeys ud2 = mkeys ud ∧
      ∀ Y S2, mget ud2 Y = some S2 → ∃ S, mget ud Y = some S ∧
        ∀ D, D ∈ S2 ↔ D ∈ S ∨ (Y = L ∧ D ∈ list ∧ hits cfg hs D) := by
  intro list
  induction list with
  | nil =>
    intro ud ud2 h
    simp only [udInner] at h
    cases h
    exact ⟨rfl, fun Y S2 hg => ⟨S2, hg, fun D => by simp⟩⟩
  | cons defLoc rest ih =>
    intro ud ud2 h
    cases defLoc with
    | edge a b =>
      simp only [udInner] at h
      obtain ⟨hk, hv⟩ := ih ud ud2 h
      refine ⟨hk, fun Y S2 hg => ?_⟩
      obtain ⟨S, hS, hiff⟩ := hv Y S2 hg
      refine ⟨S, hS, fun D => ?_⟩
      rw [hiff D]
      apply or_congr_right
      constructor
      · rintro ⟨hy, hD, hh⟩
        exact ⟨hy, List.mem_cons_of_mem _ hD, hh⟩
      · rintro ⟨hy, hD, hh⟩
        rcases List.mem_cons.mp hD with hD | hD
        · obtain ⟨db, di, hDe, _⟩ := hh
          rw [hD] at hDe
          exact absurd hDe (by simp)
        · exact ⟨hy, hD, hh⟩
    | emptyBlock a =>
      simp only [udInner] at h
      obtain ⟨hk, hv⟩ := ih ud ud2 h
      refine ⟨hk, fun Y S2 hg => ?_⟩
      obtain ⟨S, hS, hiff⟩ := hv Y S2 hg
      refine ⟨S, hS, fun D => ?_⟩
      rw [hiff D]
      apply or_congr_right
      constructor
      · rintro ⟨hy, hD, hh⟩
        exact ⟨hy, List.mem_cons_of_mem _ hD, hh⟩
      · rintro ⟨hy, hD, hh⟩
        rcases List.mem_cons.mp hD with hD | hD
        · obtain ⟨db, di, hDe, _⟩ := hh
          rw [hD] at hDe
          exact absurd hDe (by simp)
        · exact ⟨hy, hD, hh⟩
    | instruction db di =>
      simp only [udInner] at h
      cases hfind : instructionFind cfg db di with
      | ok instr =>
        rw [hfind] at h
        simp only [RRes.bind_ok] at h
        cases hw : instr.variable_written with
        | none =>
          rw [hw] at h
          simp only [RRes.bind_ok] at h
          obtain ⟨hk, hv⟩ := ih ud ud2 h
          refine ⟨hk, fun Y S2 hg => ?_⟩
          obtain ⟨S, hS, hiff⟩ := hv Y S2 hg
          refine ⟨S, hS, fun D => ?_⟩
          rw [hiff D]
          apply or_congr_right
          constructor
          · rintro ⟨hy, hD, hh⟩
            exact ⟨hy, List.mem_cons_of_mem _ hD, hh⟩
          · rintro ⟨hy, hD, hh⟩
            rcases List.mem_cons.mp hD with hD | hD
            · obtain ⟨db2, di2, hDe, instr2, hfind2, w2, hw2, _⟩ := hh
              rw [hD] at hDe
              obtain ⟨he1, he2⟩ := AnalysisLocation.instruction.injEq .. ▸ hDe
              subst he1
              subst he2
              rw [hfind] at hfind2
              cases hfind2
              rw [hw] at hw2
              cases hw2
            · exact ⟨hy, hD, hh⟩
        | some w =>
          rw [hw] at h
          simp only [RRes.bind_ok] at h
          by_cases hmem : w ∈ hs
          · rw [if_pos hmem] at h
            cases hget : mget ud L with
            | none =>
              rw [hget] at h
              simp at h
            | some s =>
              rw [hget] at h
              simp only [RRes.bind_ok] at h
              obtain ⟨hk, hv⟩ := ih _ ud2 h
              have hkeys : mkeys ud2 = mkeys ud := by
                rw [hk, mkeys_minsert]
                simp [hget]
              refine ⟨hkeys, fun Y S2 hg => ?_⟩
              obtain ⟨S1, hS1, hiff1⟩ := hv Y S2 hg
              have hhits : hits cfg hs (AnalysisLocation.instruction db di) :=
                ⟨db, di, rfl, instr, hfind, w, hw, hmem⟩
              by_cases hY : Y = L
              · subst hY
                rw [mget_minsert_self] at hS1
                cases hS1
                refine ⟨s, hget, fun D => ?_⟩
                rw [hiff1 D]
                simp only [Finset.mem_insert]
                constructor
                · rintro ((rfl | hD) | ⟨-, hD, hh⟩)
                  · exact Or.inr ⟨by trivial, List.mem_cons_self .., hhits⟩
                  · exact Or.inl hD
                  · exact Or.inr ⟨by trivial, List.mem_cons_of_mem _ hD, hh⟩
                · rintro (hD | ⟨hy, hD, hh⟩)
                  · exact Or.inl (Or.inr hD)
                  · rcases List.mem_cons.mp hD with hD | hD
                    · exact Or.inl (Or.inl hD)
                    · exact Or.inr ⟨hy, hD, hh⟩
              · rw [mget_minsert_ne _ _ _ _ (fun he => hY he.symm)] at hS1
                refine ⟨S1, hS1, fun D => ?_⟩
                rw [hiff1 D]
                apply or_congr_right
                constructor
                · rintro ⟨hy, hD, hh⟩
                  exact absurd hy hY
                · rintro ⟨hy, hD, hh⟩
                  exact absurd hy hY
          · rw [if_neg hmem] at h
            simp only [RRes.bind_ok] at h
            obtain ⟨hk, hv⟩ := ih ud ud2 h
            refine ⟨hk, fun Y S2 hg => ?_⟩
            obtain ⟨S, hS, hiff⟩ := hv Y S2 hg
            refine ⟨S, hS, fun D => ?_⟩
            rw [hiff D]
            apply or_congr_right
            constructor
            · rintro ⟨hy, hD, hh⟩
              exact ⟨hy, List.mem_cons_of_mem _ hD, hh⟩
            · rintro ⟨hy, hD, hh⟩
              rcases List.mem_cons.mp hD with hD | hD
              · obtain ⟨db2, di2, hDe, instr2, hfind2, w2, hw2, hmem2⟩ := hh
                rw [hD] at hDe
                obtain ⟨he1, he2⟩ := AnalysisLocation.instruction.injEq .. ▸ hDe
                subst he1
                subst he2
                rw [hfind] at hfind2
                cases hfind2
                rw [hw] at hw2
                cases hw2
                exact absurd hmem2 hmem
              · exact ⟨hy, hD, hh⟩
      | err m =>
        rw [hfind] at h
        simp at h
      | panicked =>
        rw [hfind] at h
        simp at h
      | fuelout =>
        rw [hfind] at h
        simp at h

/-- Characterization of the outer loop of use_def. -/
theorem udOuter_ok_char (cfg : IL.ControlFlowGraph Instruction) :
    ∀ (rest : List (AnalysisLocation × Reaches))
      (ud ud2 : List (AnalysisLocation × Finset AnalysisLocation)),
      udOuter cfg rest ud = .ok ud2 →
      mkeys ud2 = mkeys ud ∧
      ∀ Y S2, mget ud2 Y = some S2 → ∃ S, mget ud Y = some S ∧
        ∀ D, D ∈ S2 ↔ D ∈ S ∨
          (∃ r, (Y, r) ∈ rest ∧ D ∈ r.in_ ∧
            ∃ hs, haystackOf cfg Y = .ok hs ∧ hits cfg hs D) := by
  intro rest
  induction rest with
  | nil =>
    intro ud ud2 h
    simp only [udOuter] at h
    cases h
    exact ⟨rfl, fun Y S2 hg => ⟨S2, hg, fun D => by simp⟩⟩
  | cons p rest ih =>
    obtain ⟨loc, reaches⟩ := p
    intro ud ud2 h
    simp only [udOuter] at h
    cases hhay : haystackOf cfg loc with
    | ok hs0 =>
      rw [hhay] at h
      simp only [RRes.bind_ok] at h
      cases hmid : udInner cfg loc hs0 reaches.in_ ud with
      | ok udMid =>
        rw [hmid] at h
        simp only [RRes.bind_ok] at h
        obtain ⟨hk1, hv1⟩ := udInner_ok_char cfg loc hs0 reaches.in_ ud udMid hmid
        obtain ⟨hk2, hv2⟩ := ih udMid ud2 h
        refine ⟨hk2.trans hk1, fun Y S2 hg => ?_⟩
        obtain ⟨SM, hSM, hiff2⟩ := hv2 Y S2 hg
        obtain ⟨S, hS, hiff1⟩ := hv1 Y SM hSM
        refine ⟨S, hS, fun D => ?_⟩
        rw [hiff2 D, hiff1 D]
        constructor
        · rintro ((hD | ⟨rfl, hD, hh⟩) | ⟨r, hr, hD, hs2, hhay2, hh⟩)
          · exact Or.inl hD
          · exact Or.inr ⟨reaches, List.mem_cons_self .., hD, hs0, hhay, hh⟩
          · exact Or.inr ⟨r, List.mem_cons_of_mem _ hr, hD, hs2, hhay2, hh⟩
        · rintro (hD | ⟨r, hr, hD, hs2, hhay2, hh⟩)
          · exact Or.inl (Or.inl hD)
          · rcases List.mem_cons.mp hr with hr | hr
            · obtain ⟨he1, he2⟩ := Prod.mk.injEq .. ▸ hr
              subst he1
              subst he2
              rw [hhay] at hhay2
              cases hhay2
              exact Or.inl (Or.inr ⟨rfl, hD, hh⟩)
            · exact Or.inr ⟨r, hr, hD, hs2, hhay2, hh⟩
      | err m =>
        rw [hmid] at h
        simp at h
      | panicked =>
        rw [hmid] at h
        simp at h
      | fuelout =>
        rw [hmid] at h
        simp at h
    | err m =>
      rw [hhay] at h
      simp at h
    | panicked =>
      rw [hhay] at h
      simp at h
    | fuelout =>
      rw [hhay] at h
      simp at h

/-- Characterization of use_def on an ok result: keys are the keys of
the reaching-definitions map, and the entry S of a use location Y
satisfies D in S iff (Y, D) is a recorded def-use pair. -/
theorem use_def_ok_char (rd : List (AnalysisLocation × Reaches))
    (cfg : IL.ControlFlowGraph Instruction)
    (ud : List (AnalysisLocation × Finset AnalysisLocation))
    (h : use_def rd cfg = .ok ud) (hnd : (mkeys rd).Nodup) :
    (∀ X, (mget ud X).isSome ↔ X ∈ mkeys rd) ∧
    ∀ Y S, mget ud Y = some S → ∀ D, D ∈ S ↔ UsePair rd cfg Y D := by
  obtain ⟨hk, hv⟩ := udOuter_ok_char cfg rd _ ud h
  constructor
  · intro X
    constructor
    · intro hx
      have := mem_keys_of_mget_isSome hx
      rw [hk] at this
      have h2 := mget_isSome_of_mem_keys this
      rw [mget_initMap] at h2
      by_cases hX : X ∈ mkeys rd
      · exact hX
      · rw [if_neg hX] at h2
        cases h2
    · intro hx
      apply mget_isSome_of_mem_keys
      rw [hk]
      apply mem_keys_of_mget_isSome
      rw [mget_initMap, if_pos hx]
      rfl
  · intro Y S hg D
    obtain ⟨S0, hS0, hiff⟩ := hv Y S hg
    rw [mget_initMap] at hS0
    by_cases hY : Y ∈ mkeys rd
    · rw [if_pos hY] at hS0
      cases hS0
      rw [hiff D]
      simp only [Finset.not_mem_empty, false_or]
      constructor
      · rintro ⟨r, hr, hD2, hs, hhay, hh⟩
        exact ⟨r, mget_eq_some_of_mem_nodup hnd hr, hD2, hs, hhay, hh⟩
      · rintro ⟨r, hr, hD2, hs, hhay, hh⟩
        exact ⟨r, mem_of_mget_eq_some hr, hD2, hs, hhay, hh⟩
    · rw [if_neg hY] at hS0
      cases hS0

/-- An Edge location resolves against the CFG; other variants pass. -/
def locEdgeResolves (cfg : IL.ControlFlowGraph Instruction) :
    AnalysisLocation → Bool
  | .edge a b => (edgeFind cfg a b).isOkB
  | _ => true

/-- An Instruction location resolves against the CFG; other variants
pass. -/
def locInstrResolves (cfg : IL.ControlFlowGraph Instruction) :
    AnalysisLocation → Bool
  | .instruction b i => (instructionFind cfg b i).isOkB
  | _ => true

/-- The definition D triggers an insertion for haystack hs: it is an
Instruction location that resolves and writes a variable in hs. -/
def triggers (cfg : IL.ControlFlowGraph Instruction) (hs : Finset Nat) :
    AnalysisLocation → Bool
  | .instruction db di =>
    match instructionFind cfg db di with
    | .ok instr =>
      match instr.variable_written with
      | some w => decide (w ∈ hs)
      | none => false
    | _ => false
  | _ => false

/-- The definition D triggers an insertion while processing location L:
the haystack of L resolves and D triggers for it. -/
def hayTriggers (cfg : IL.ControlFlowGraph Instruction)
    (L D : AnalysisLocation) : Bool :=
  match haystackOf cfg L with
  | .ok hs => triggers cfg hs D
  | _ => false

theorem instructionFind_ok_or_err (cfg : IL.ControlFlowGraph Instruction)
    (b i : Nat) :
    (∃ x, instructionFind cfg b i = .ok x) ∨
    (∃ m, instructionFind cfg b i = .err m) := by
  cases hv : mget cfg.graph.vertices b with
  | none => exact Or.inr ⟨"block not found", by simp [instructionFind, hv]⟩
  | some blk =>
    cases hf : blk.instructions.find? (fun j => j.index == i) with
    | none => exact Or.inr ⟨"instruction not found", by simp [instructionFind, hv, hf]⟩
    | some j => exact Or.inl ⟨j, by simp [instructionFind, hv, hf]⟩

theorem haystackOf_not_panic (cfg : IL.ControlFlowGraph Instruction)
    (loc : AnalysisLocation) (hE : locEdgeResolves cfg loc = true) :
    (∃ hs, haystackOf cfg loc = .ok hs) ∨ (∃ m, haystackOf cfg loc = .err m) := by
  cases loc with
  | edge a b =>
    simp only [locEdgeResolves] at hE
    obtain ⟨e, he⟩ := (RRes.isOkB_iff _).mp hE
    simp only [haystackOf, he]
    cases e.condition with
    | some c => exact Or.inl ⟨_, rfl⟩
    | none => exact Or.inl ⟨_, rfl⟩
  | instruction b i =>
    rcases instructionFind_ok_or_err cfg b i with ⟨x, hx⟩ | ⟨m, hm⟩
    · exact Or.inl ⟨x.variables_read.toFinset, by simp [haystackOf, hx]⟩
    · exact Or.inr ⟨m, by simp [haystackOf, hm]⟩
  | emptyBlock a => exact Or.inl ⟨∅, rfl⟩

theorem haystackOf_instruction_err (cfg : IL.ControlFlowGraph Instruction)
    (b i : Nat) (m : String) (h : instructionFind cfg b i = .err m) :
    haystackOf cfg (.instruction b i) = .err m := by
  simp [haystackOf, h]

theorem mget_isSome_minsert_existing {κ α : Type} [DecidableEq κ]
    (m : List (κ × α)) (k : κ) (v : α) (hk : (mget m k).isSome) (X : κ) :
    (mget (minsert m k v) X).isSome ↔ (mget m X).isSome := by
  by_cases hX : k = X
  · subst hX
    simp [mget_minsert_self, hk]
  · rw [mget_minsert_ne _ _ _ _ hX]

/-- Under present keys for all triggering definitions, one inner pass of
def_use never panics: it returns ok or an error. -/
theorem duInner_ok_or_err (cfg : IL.ControlFlowGraph Instruction)
    (L : AnalysisLocation) (hs : Finset Nat) :
    ∀ (list : List AnalysisLocation)
      (du : List (AnalysisLocation × Finset AnalysisLocation)),
      (∀ db di, AnalysisLocation.instruction db di ∈ list →
        triggers cfg hs (.instruction db di) = true →
        (mget du (AnalysisLocation.instruction db di)).isSome) →
      (∃ du2, duInner cfg L hs list du = .ok du2) ∨
      (∃ m, duInner cfg L hs list du = .err m) := by
  intro list
  induction list with
  | nil => intro du _; exact Or.inl ⟨du, rfl⟩
  | cons defLoc rest ih =>
    intro du hk
    cases defLoc with
    | edge a b =>
      simp only [duInner]
      exact ih du (fun db di hmem => hk db di (List.mem_cons_of_mem _ hmem))
    | emptyBlock a =>
      simp only [duInner]
      exact ih du (fun db di hmem => hk db di (List.mem_cons_of_mem _ hmem))
    | instruction db di =>
      simp only [duInner]
      rcases instructionFind_ok_or_err cfg db di with ⟨instr, hfind⟩ | ⟨m, hm⟩
      · rw [hfind]
        simp only [RRes.bind_ok]
        cases hw : instr.variable_written with
        | none =>
          simp only [RRes.bind_ok]
          exact ih du (fun db2 di2 hmem => hk db2 di2 (List.mem_cons_of_mem _ hmem))
        | some w =>
          simp only [RRes.bind_ok]
          by_cases hmem : w ∈ hs
          · rw [if_pos hmem]
            have htr : triggers cfg hs (AnalysisLocation.instruction db di) = true := by
              simp [triggers, hfind, hw, hmem]
            have hsome := hk db di (List.mem_cons_self ..) htr
            obtain ⟨s, hget⟩ := Option.isSome_iff_exists.mp hsome
            rw [hget]
            simp only [RRes.bind_ok]
            exact ih _ (fun db2 di2 hmem2 htr2 =>
              (mget_isSome_minsert_existing du _ _ (by simp [hget]) _).mpr
                (hk db2 di2 (List.mem_cons_of_mem _ hmem2) htr2))
          · rw [if_neg hmem]
            simp only [RRes.bind_ok]
            exact ih du (fun db2 di2 hmem2 => hk db2 di2 (List.mem_cons_of_mem _ hmem2))
      · rw [hm]
        exact Or.inr ⟨m, rfl⟩

/-- Under present keys for triggering definitions, a failing Instruction
resolution among the reaching definitions makes the inner pass of
def_use return an error. -/
theorem duInner_err_of_fail (cfg : IL.ControlFlowGraph Instruction)
    (L : AnalysisLocation) (hs : Finset Nat) :
    ∀ (list : List AnalysisLocation)
      (du : List (AnalysisLocation × Finset AnalysisLocation)),
      (∀ db di, AnalysisLocation.instruction db di ∈ list →
        triggers cfg hs (.instruction db di) = true →
        (mget du (AnalysisLocation.instruction db di)).isSome) →
      (∃ D ∈ list, locInstrResolves cfg D = false ∧
        ∃ db di, D = AnalysisLocation.instruction db di) →
      ∃ m, duInner cfg L hs list du = .err m := by
  intro list
  induction list with
  | nil =>
    intro du _ hfail
    obtain ⟨D, hD, _⟩ := hfail
    simp at hD
  | cons defLoc rest ih =>
    intro du hk hfail
    cases defLoc with
    | edge a b =>
      simp only [duInner]
      refine ih du (fun db di hmem => hk db di (List.mem_cons_of_mem _ hmem)) ?_
      obtain ⟨D, hD, hres, db, di, hDe⟩ := hfail
      rcases List.mem_cons.mp hD with hD | hD
      · rw [hD] at hDe
        exact absurd hDe (by simp)
      · exact ⟨D, hD, hres, db, di, hDe⟩
    | emptyBlock a =>
      simp only [duInner]
      refine ih du (fun db di hmem => hk db di (List.mem_cons_of_mem _ hmem)) ?_
      obtain ⟨D, hD, hres, db, di, hDe⟩ := hfail
      rcases List.mem_cons.mp hD with hD | hD
      · rw [hD] at hDe
        exact absurd hDe (by simp)
      · exact ⟨D, hD, hres, db, di, hDe⟩
    | instruction db di =>
      simp only [duInner]
      rcases instructionFind_ok_or_err cfg db di with ⟨instr, hfind⟩ | ⟨m, hm⟩
      · rw [hfind]
        simp only [RRes.bind_ok]
        have hrest : ∃ D ∈ rest, locInstrResolves cfg D = false ∧
            ∃ db2 di2, D = AnalysisLocation.instruction db2 di2 := by
          obtain ⟨D, hD, hres, db2, di2, hDe⟩ := hfail
          rcases List.mem_cons.mp hD with hD | hD
          · rw [hD] at hres
            simp [locInstrResolves, hfind, RRes.isOkB] at hres
          · exact ⟨D, hD, hres, db2, di2, hDe⟩
        cases hw : instr.variable_written with
        | none =>
          simp only [RRes.bind_ok]
          exact ih du (fun db2 di2 hmem => hk db2 di2 (List.mem_cons_of_mem _ hmem)) hrest
        | some w =>
          simp only [RRes.bind_ok]
          by_cases hmem : w ∈ hs
          · rw [if_pos hmem]
            have htr : triggers cfg hs (AnalysisLocation.instruction db di) = true := by
              simp [triggers, hfind, hw, hmem]
            obtain ⟨s, hget⟩ :=
              Option.isSome_iff_exists.mp (hk db di (List.mem_cons_self ..) htr)
            rw [hget]
            simp only [RRes.bind_ok]
            exact ih _ (fun db2 di2 hmem2 htr2 =>
              (mget_isSome_minsert_existing du _ _ (by simp [hget]) _).mpr
                (hk db2 di2 (List.mem_cons_of_mem _ hmem2) htr2)) hrest
          · rw [if_neg hmem]
            simp only [RRes.bind_ok]
            exact ih du (fun db2 di2 hmem2 => hk db2 di2 (List.mem_cons_of_mem _ hmem2)) hrest
      · rw [hm]
        exact ⟨m, rfl⟩

/-- When every reaching definition location resolves, the inner pass of
def_use never returns an error: it returns ok or panics. -/
theorem duInner_no_err (cfg : IL.ControlFlowGraph Instruction)
    (L : AnalysisLocation) (hs : Finset Nat) :
    ∀ (list : List AnalysisLocation)
      (du : List (AnalysisLocation × Finset AnalysisLocation)),
      (∀ D ∈ list, locInstrResolves cfg D = true) →
      (∃ du2, duInner cfg L hs list du = .ok du2) ∨
      duInner cfg L hs list du = .panicked := by
  intro list
  induction list with
  | nil => intro du _; exact Or.inl ⟨du, rfl⟩
  | cons defLoc rest ih =>
    intro du hf
    cases defLoc with
    | edge a b =>
      simp only [duInner]
      exact ih du (fun D hD => hf D (List.mem_cons_of_mem _ hD))
    | emptyBlock a =>
      simp only [duInner]
      exact ih du (fun D hD => hf D (List.mem_cons_of_mem _ hD))
    | instruction db di =>
      simp only [duInner]
      have hres := hf _ (List.mem_cons_self ..)
      simp only [locInstrResolves] at hres
      obtain ⟨instr, hfind⟩ := (RRes.isOkB_iff _).mp hres
      rw [hfind]
      simp only [RRes.bind_ok]
      cases hw : instr.variable_written with
      | none =>
        simp only [RRes.bind_ok]
        exact ih du (fun D hD => hf D (List.mem_cons_of_mem _ hD))
      | some w =>
        simp only [RRes.bind_ok]
        by_cases hmem : w ∈ hs
        · rw [if_pos hmem]
          cases hget : mget du (AnalysisLocation.instruction db di) with
          | none => exact Or.inr rfl
          | some s =>
            simp only [RRes.bind_ok]
            exact ih _ (fun D hD => hf D (List.mem_cons_of_mem _ hD))
        · rw [if_neg hmem]
          simp only [RRes.bind_ok]
          exact ih du (fun D hD => hf D (List.mem_cons_of_mem _ hD))

/-- When every reaching definition resolves but some triggering
definition has no entry in the accumulator, the inner pass of def_use
panics. -/
theorem duInner_panics (cfg : IL.ControlFlowGraph Instruction)
    (L : AnalysisLocation) (hs : Finset Nat) :
    ∀ (list : List AnalysisLocation)
      (du : List (AnalysisLocation × Finset AnalysisLocation)),
      (∀ D ∈ list, locInstrResolves cfg D = true) →
      (∃ D ∈ list, triggers cfg hs D = true ∧
        mget du D = none) →
      duInner cfg L hs list du = .panicked := by
  intro list
  induction list with
  | nil =>
    intro du _ hw
    obtain ⟨D, hD, _⟩ := hw
    simp at hD
  | cons defLoc rest ih =>
    intro du hf hw
    cases defLoc with
    | edge a b =>
      simp only [duInner]
      refine ih du (fun D hD => hf D (List.mem_cons_of_mem _ hD)) ?_
      obtain ⟨D, hD, htr, hnone⟩ := hw
      rcases List.mem_cons.mp hD with hD | hD
      · rw [hD] at htr
        simp [triggers] at htr
      · exact ⟨D, hD, htr, hnone⟩
    | emptyBlock a =>
      simp only [duInner]
      refine ih du (fun D hD => hf D (List.mem_cons_of_mem _ hD)) ?_
      obtain ⟨D, hD, htr, hnone⟩ := hw
      rcases List.mem_cons.mp hD with hD | hD
      · rw [hD] at htr
        simp [triggers] at htr
      · exact ⟨D, hD, htr, hnone⟩
    | instruction db di =>
      simp only [duInner]
      have hres := hf _ (List.mem_cons_self ..)
      simp only [locInstrResolves] at hres
      obtain ⟨instr, hfind⟩ := (RRes.isOkB_iff _).mp hres
      rw [hfind]
      simp only [RRes.bind_ok]
      cases hw2 : instr.variable_written with
      | none =>
        simp only [RRes.bind_ok]
        refine ih du (fun D hD => hf D (List.mem_cons_of_mem _ hD)) ?_
        obtain ⟨D, hD, htr, hnone⟩ := hw
        rcases List.mem_cons.mp hD with hD | hD
        · rw [hD] at htr
          simp [triggers, hfind, hw2] at htr
        · exact ⟨D, hD, htr, hnone⟩
      | some w =>
        simp only [RRes.bind_ok]
        by_cases hmem : w ∈ hs
        · rw [if_pos hmem]
          cases hget : mget du (AnalysisLocation.instruction db di) with
          | none => rfl
          | some s =>
            simp only [RRes.bind_ok]
            refine ih _ (fun D hD => hf D (List.mem_cons_of_mem _ hD)) ?_
            obtain ⟨D, hD, htr, hnone⟩ := hw
            rcases List.mem_cons.mp hD with hD | hD
            · rw [hD] at hnone
              rw [hnone] at hget
              cases hget
            · refine ⟨D, hD, htr, ?_⟩
              have hne : AnalysisLocation.instruction db di ≠ D := by
                intro he
                rw [← he] at hnone
                rw [hnone] at hget
                cases hget
              rw [mget_minsert_ne _ _ _ _ hne]
              exact hnone
        · rw [if_neg hmem]
          simp only [RRes.bind_ok]
          refine ih du (fun D hD => hf D (List.mem_cons_of_mem _ hD)) ?_
          obtain ⟨D, hD, htr, hnone⟩ := hw
          rcases List.mem_cons.mp hD with hD | hD
          · rw [hD] at htr
            simp [triggers, hfind, hw2, hmem] at htr
          · exact ⟨D, hD, htr, hnone⟩

/-- With an entry present for this location, one inner pass of use_def
never panics: it returns ok or an error. -/
theorem udInner_ok_or_err (cfg : IL.ControlFlowGraph Instruction)
    (L : AnalysisLocation) (hs : Finset Nat) :
    ∀ (list : List AnalysisLocation)
      (ud : List (AnalysisLocation × Finset AnalysisLocation)),
      (mget ud L).isSome →
      (∃ ud2, udInner cfg L hs list ud = .ok ud2) ∨
      (∃ m, udInner cfg L hs list ud = .err m) := by
  intro list
  induction list with
  | nil => intro ud _; exact Or.inl ⟨ud, rfl⟩
  | cons defLoc rest ih =>
    intro ud hl
    cases defLoc with
    | edge a b =>
      simp only [udInner]
      exact ih ud hl
    | emptyBlock a =>
      simp only [udInner]
      exact ih ud hl
    | instruction db di =>
      simp only [udInner]
      rcases instructionFind_ok_or_err cfg db di with ⟨instr, hfind⟩ | ⟨m, hm⟩
      · rw [hfind]
        simp only [RRes.bind_ok]
        cases hw : instr.variable_written with
        | none =>
          simp only [RRes.bind_ok]
          exact ih ud hl
        | some w =>
          simp only [RRes.bind_ok]
          by_cases hmem : w ∈ hs
          · rw [if_pos hmem]
            obtain ⟨s, hget⟩ := Option.isSome_iff_exists.mp hl
            rw [hget]
            simp only [RRes.bind_ok]
            exact ih _ (by simp [mget_minsert_self])
          · rw [if_neg hmem]
            simp only [RRes.bind_ok]
            exact ih ud hl
      · rw [hm]
        exact Or.inr ⟨m, rfl⟩

/-- With an entry present for this location, a failing Instruction
resolution among the reaching definitions makes the inner pass of
use_def return an error. -/
theorem udInner_err_of_fail (cfg : IL.ControlFlowGraph Instruction)
    (L : AnalysisLocation) (hs : Finset Nat) :
    ∀ (list : List AnalysisLocation)
      (ud : List (AnalysisLocation × Finset AnalysisLocation)),
      (mget ud L).isSome →
      (∃ D ∈ list, locInstrResolves cfg D = false ∧
        ∃ db di, D = AnalysisLocation.instruction db di) →
      ∃ m, udInner cfg L hs list ud = .err m := by
  intro list
  induction list with
  | nil =>
    intro ud _ hfail
    obtain ⟨D, hD, _⟩ := hfail
    simp at hD
  | cons defLoc rest ih =>
    intro ud hl hfail
    cases defLoc with
    | edge a b =>
      simp only [udInner]
      refine ih ud hl ?_
      obtain ⟨D, hD, hres, db, di, hDe⟩ := hfail
      rcases List.mem_cons.mp hD with hD | hD
      · rw [hD] at hDe
        exact absurd hDe (by simp)
      · exact ⟨D, hD, hres, db, di, hDe⟩
    | emptyBlock a =>
      simp only [udInner]
      refine ih ud hl ?_
      obtain ⟨D, hD, hres, db, di, hDe⟩ := hfail
      rcases List.mem_cons.mp hD with hD | hD
      · rw [hD] at hDe
        exact absurd hDe (by simp)
      · exact ⟨D, hD, hres, db, di, hDe⟩
    | instruction db di =>
      simp only [udInner]
      rcases instructionFind_ok_or_err cfg db di with ⟨instr, hfind⟩ | ⟨m, hm⟩
      · rw [hfind]
        simp only [RRes.bind_ok]
        have hrest : ∃ D ∈ rest, locInstrResolves cfg D = false ∧
            ∃ db2 di2, D = AnalysisLocation.instruction db2 di2 := by
          obtain ⟨D, hD, hres, db2, di2, hDe⟩ := hfail
          rcases List.mem_cons.mp hD with hD | hD
          · rw [hD] at hres
            simp [locInstrResolves, hfind, RRes.isOkB] at hres
          · exact ⟨D, hD, hres, db2, di2, hDe⟩
        cases hw : instr.variable_written with
        | none =>
          simp only [RRes.bind_ok]
          exact ih ud hl hrest
        | some w =>
          simp only [RRes.bind_ok]
          by_cases hmem : w ∈ hs
          · rw [if_pos hmem]
            obtain ⟨s, hget⟩ := Option.isSome_iff_exists.mp hl
            rw [hget]
            simp only [RRes.bind_ok]
            exact ih _ (by simp [mget_minsert_self]) hrest
          · rw [if_neg hmem]
            simp only [RRes.bind_ok]
            exact ih ud hl hrest
      · rw [hm]
        exact ⟨m, rfl⟩

/-- With an entry present for this location and every reaching
definition resolving, the inner pass of use_def returns ok. -/
theorem udInner_oks (cfg : IL.ControlFlowGraph Instruction)
    (L : AnalysisLocation) (hs : Finset Nat) :
    ∀ (list : List AnalysisLocation)
      (ud : List (AnalysisLocation × Finset AnalysisLocation)),
      (mget ud L).isSome →
      (∀ D ∈ list, locInstrResolves cfg D = true) →
      ∃ ud2, udInner cfg L hs list ud = .ok ud2 := by
  intro list
  induction list with
  | nil => intro ud _ _; exact ⟨ud, rfl⟩
  | cons defLoc rest ih =>
    intro ud hl hf
    cases defLoc with
    | edge a b =>
      simp only [udInner]
      exact ih ud hl (fun D hD => hf D (List.mem_cons_of_mem _ hD))
    | emptyBlock a =>
      simp only [udInner]
      exact ih ud hl (fun D hD => hf D (List.mem_cons_of_mem _ hD))
    | instruction db di =>
      simp only [udInner]
      have hres := hf _ (List.mem_cons_self ..)
      simp only [locInstrResolves] at hres
      obtain ⟨instr, hfind⟩ := (RRes.isOkB_iff _).mp hres
      rw [hfind]
      simp only [RRes.bind_ok]
      cases hw : instr.variable_written with
      | none =>
        simp only [RRes.bind_ok]
        exact ih ud hl (fun D hD => hf D (List.mem_cons_of_mem _ hD))
      | some w =>
        simp only [RRes.bind_ok]
        by_cases hmem : w ∈ hs
        · rw [if_pos hmem]
          obtain ⟨s, hget⟩ := Option.isSome_iff_exists.mp hl
          rw [hget]
          simp only [RRes.bind_ok]
          exact ih _ (by simp [mget_minsert_self]) (fun D hD => hf D (List.mem_cons_of_mem _ hD))
        · rw [if_neg hmem]
          simp only [RRes.bind_ok]
          exact ih ud hl (fun D hD => hf D (List.mem_cons_of_mem _ hD))

theorem isSome_iff_mem_mkeys {κ α : Type} [DecidableEq κ]
    (m : List (κ × α)) (k : κ) : (mget m k).isSome ↔ k ∈ mkeys m :=
  ⟨mem_keys_of_mget_isSome, mget_isSome_of_mem_keys⟩

theorem locInstrResolves_false_shape (cfg : IL.ControlFlowGraph Instruction)
    (D : AnalysisLocation) (h : locInstrResolves cfg D = false) :
    ∃ b i, D = .instruction b i ∧ ∃ m, instructionFind cfg b i = .err m := by
  cases D with
  | instruction b i =>
    simp only [locInstrResolves] at h
    rcases instructionFind_ok_or_err cfg b i with ⟨x, hx⟩ | ⟨m, hm⟩
    · rw [hx] at h
      simp [RRes.isOkB] at h
    · exact ⟨b, i, rfl, m, hm⟩
  | edge a b => simp [locInstrResolves] at h
  | emptyBlock a => simp [locInstrResolves] at h

/-- Error propagation through the outer loop of def_use: with resolving
Edge keys and present entries for all triggering definitions, a failing
Instruction resolution anywhere in the remaining map yields an error. -/
theorem duOuter_err (cfg : IL.ControlFlowGraph Instruction)
    (K : List AnalysisLocation) :
    ∀ (rest : List (AnalysisLocation × Reaches))
      (du : List (AnalysisLocation × Finset AnalysisLocation)),
      (∀ X, (mget du X).isSome ↔ X ∈ K) →
      (∀ p ∈ rest, locEdgeResolves cfg p.1 = true) →
      (∀ p ∈ rest, ∀ D ∈ p.2.in_, hayTriggers cfg p.1 D = true → D ∈ K) →
      (∃ p ∈ rest, locInstrResolves cfg p.1 = false ∨
        ∃ D ∈ p.2.in_, locInstrResolves cfg D = false) →
      ∃ m, duOuter cfg rest du = .err m := by
  intro rest
  induction rest with
  | nil =>
    intro du _ _ _ hFail
    obtain ⟨p, hp, _⟩ := hFail
    simp at hp
  | cons q rest ih =>
    obtain ⟨loc, r⟩ := q
    intro du hinv hE hK hFail
    simp only [duOuter]
    have hEh := hE _ (List.mem_cons_self ..)
    rcases haystackOf_not_panic cfg loc hEh with ⟨hs0, hhay⟩ | ⟨m, hhay⟩
    · rw [hhay]
      simp only [RRes.bind_ok]
      have hkin : ∀ db di, AnalysisLocation.instruction db di ∈ r.in_ →
          triggers cfg hs0 (.instruction db di) = true →
          (mget du (AnalysisLocation.instruction db di)).isSome := by
        intro db di hmem htr
        apply (hinv _).mpr
        apply hK _ (List.mem_cons_self ..) _ hmem
        simp [hayTriggers, hhay, htr]
      rcases duInner_ok_or_err cfg loc hs0 r.in_ du hkin with ⟨du2, hin⟩ | ⟨m, hin⟩
      · rw [hin]
        simp only [RRes.bind_ok]
        have hFail2 : ∃ p ∈ rest, locInstrResolves cfg p.1 = false ∨
            ∃ D ∈ p.2.in_, locInstrResolves cfg D = false := by
          obtain ⟨p, hp, hcase⟩ := hFail
          rcases List.mem_cons.mp hp with hp | hp
          · subst hp
            rcases hcase with hcase | ⟨D, hD, hres⟩
            · obtain ⟨b, i, hshape, m2, herr⟩ := locInstrResolves_false_shape cfg _ hcase
              have hshape2 : loc = AnalysisLocation.instruction b i := hshape
              rw [hshape2] at hhay
              rw [haystackOf_instruction_err cfg b i m2 herr] at hhay
              cases hhay
            · obtain ⟨b, i, hshape, m2, herr⟩ := locInstrResolves_false_shape cfg _ hres
              obtain ⟨m3, hin2⟩ := duInner_err_of_fail cfg loc hs0 r.in_ du hkin
                ⟨D, hD, hres, b, i, hshape⟩
              rw [hin] at hin2
              cases hin2
          · exact ⟨p, hp, hcase⟩
        have hk2 := (duInner_ok_char cfg loc hs0 r.in_ du du2 hin).1
        have hinv2 : ∀ X, (mget du2 X).isSome ↔ X ∈ K := by
          intro X
          have hmm : X ∈ mkeys du2 ↔ X ∈ mkeys du := by rw [hk2]
          exact (isSome_iff_mem_mkeys du2 X).trans
            (hmm.trans ((isSome_iff_mem_mkeys du X).symm.trans (hinv X)))
        exact ih du2 hinv2 (fun p hp => hE p (List.mem_cons_of_mem _ hp))
          (fun p hp => hK p (List.mem_cons_of_mem _ hp)) hFail2
      · rw [hin]
        exact ⟨m, rfl⟩
    · rw [hhay]
      exact ⟨m, rfl⟩

/-- The missing-key panic of def_use: with resolving haystacks and
reaching definitions, a triggering definition that is not a key of the
accumulator makes the outer loop panic. -/
theorem duOuter_panics (cfg : IL.ControlFlowGraph Instruction)
    (K : List AnalysisLocation) :
    ∀ (rest : List (AnalysisLocation × Reaches))
      (du : List (AnalysisLocation × Finset AnalysisLocation)),
      (∀ X, (mget du X).isSome ↔ X ∈ K) →
      (∀ p ∈ rest, (haystackOf cfg p.1).isOkB = true) →
      (∀ p ∈ rest, ∀ D ∈ p.2.in_, locInstrResolves cfg D = true) →
      (∃ p ∈ rest, ∃ D ∈ p.2.in_, hayTriggers cfg p.1 D = true ∧ D ∉ K) →
      duOuter cfg rest du = .panicked := by
  intro rest
  induction rest with
  | nil =>
    intro du _ _ _ hW
    obtain ⟨p, hp, _⟩ := hW
    simp at hp
  | cons q rest ih =>
    obtain ⟨loc, r⟩ := q
    intro du hinv hHay hF hW
    simp only [duOuter]
    obtain ⟨hs0, hhay⟩ := (RRes.isOkB_iff _).mp (hHay _ (List.mem_cons_self ..))
    rw [hhay]
    simp only [RRes.bind_ok]
    rcases duInner_no_err cfg loc hs0 r.in_ du (hF _ (List.mem_cons_self ..))
      with ⟨du2, hin⟩ | hpan
    · rw [hin]
      simp only [RRes.bind_ok]
      have hW2 : ∃ p ∈ rest, ∃ D ∈ p.2.in_, hayTriggers cfg p.1 D = true ∧ D ∉ K := by
        obtain ⟨p, hp, D, hD, htr, hnk⟩ := hW
        rcases List.mem_cons.mp hp with hp | hp
        · subst hp
          have htr2 : triggers cfg hs0 D = true := by
            simp only [hayTriggers, hhay] at htr
            exact htr
          have hnone : mget du D = none := by
            cases hm : mget du D with
            | none => rfl
            | some s => exact absurd ((hinv D).mp (by simp [hm])) hnk
          have := duInner_panics cfg loc hs0 r.in_ du
            (hF _ (List.mem_cons_self ..)) ⟨D, hD, htr2, hnone⟩
          rw [hin] at this
          cases this
        · exact ⟨p, hp, D, hD, htr, hnk⟩
      have hk2 := (duInner_ok_char cfg loc hs0 r.in_ du du2 hin).1
      have hinv2 : ∀ X, (mget du2 X).isSome ↔ X ∈ K := by
        intro X
        have hmm : X ∈ mkeys du2 ↔ X ∈ mkeys du := by rw [hk2]
        exact (isSome_iff_mem_mkeys du2 X).trans
          (hmm.trans ((isSome_iff_mem_mkeys du X).symm.trans (hinv X)))
      exact ih du2 hinv2 (fun p hp => hHay p (List.mem_cons_of_mem _ hp))
        (fun p hp => hF p (List.mem_cons_of_mem _ hp)) hW2
    · rw [hpan]
      rfl

/-- The outer loop of use_def returns ok when every haystack resolves,
every reaching definition resolves, and every processed key has an
entry. -/
theorem udOuter_oks (cfg : IL.ControlFlowGraph Instruction)
    (K : List AnalysisLocation) :
    ∀ (rest : List (AnalysisLocation × Reaches))
      (ud : List (AnalysisLocation × Finset AnalysisLocation)),
      (∀ X, (mget ud X).isSome ↔ X ∈ K) →
      (∀ p ∈ rest, p.1 ∈ K) →
      (∀ p ∈ rest, (haystackOf cfg p.1).isOkB = true) →
      (∀ p ∈ rest, ∀ D ∈ p.2.in_, locInstrResolves cfg D = true) →
      ∃ ud2, udOuter cfg rest ud = .ok ud2 := by
  intro rest
  induction rest with
  | nil => intro ud _ _ _ _; exact ⟨ud, rfl⟩
  | cons q rest ih =>
    obtain ⟨loc, r⟩ := q
    intro ud hinv hMem hHay hF
    simp only [udOuter]
    obtain ⟨hs0, hhay⟩ := (RRes.isOkB_iff _).mp (hHay _ (List.mem_cons_self ..))
    rw [hhay]
    simp only [RRes.bind_ok]
    obtain ⟨udMid, hin⟩ := udInner_oks cfg loc hs0 r.in_ ud
      ((hinv loc).mpr (hMem _ (List.mem_cons_self ..)))
      (hF _ (List.mem_cons_self ..))
    rw [hin]
    simp only [RRes.bind_ok]
    have hk2 := (udInner_ok_char cfg loc hs0 r.in_ ud udMid hin).1
    have hinv2 : ∀ X, (mget udMid X).isSome ↔ X ∈ K := by
      intro X
      have hmm : X ∈ mkeys udMid ↔ X ∈ mkeys ud := by rw [hk2]
      exact (isSome_iff_mem_mkeys udMid X).trans
        (hmm.trans ((isSome_iff_mem_mkeys ud X).symm.trans (hinv X)))
    exact ih udMid hinv2 (fun p hp => hMem p (List.mem_cons_of_mem _ hp))
      (fun p hp => hHay p (List.mem_cons_of_mem _ hp))
      (fun p hp => hF p (List.mem_cons_of_mem _ hp))

/-- Error propagation through the outer loop of use_def: with resolving
Edge keys and present key entries, a failing Instruction resolution
anywhere in the remaining map yields an error. -/
theorem udOuter_err (cfg : IL.ControlFlowGraph Instruction)
    (K : List AnalysisLocation) :
    ∀ (rest : List (AnalysisLocation × Reaches))
      (ud : List (AnalysisLocation × Finset AnalysisLocation)),
      (∀ X, (mget ud X).isSome ↔ X ∈ K) →
      (∀ p ∈ rest, p.1 ∈ K) →
      (∀ p ∈ rest, locEdgeResolves cfg p.1 = true) →
      (∃ p ∈ rest, locInstrResolves cfg p.1 = false ∨
        ∃ D ∈ p.2.in_, locInstrResolves cfg D = false) →
      ∃ m, udOuter cfg rest ud = .err m := by
  intro rest
  induction rest with
  | nil =>
    intro ud _ _ _ hFail
    obtain ⟨p, hp, _⟩ := hFail
    simp at hp
  | cons q rest ih =>
    obtain ⟨loc, r⟩ := q
    intro ud hinv hMem hE hFail
    simp only [udOuter]
    have hEh := hE _ (List.mem_cons_self ..)
    have hl : (mget ud loc).isSome := (hinv loc).mpr (hMem _ (List.mem_cons_self ..))
    rcases haystackOf_not_panic cfg loc hEh with ⟨hs0, hhay⟩ | ⟨m, hhay⟩
    · rw [hhay]
      simp only [RRes.bind_ok]
      rcases udInner_ok_or_err cfg loc hs0 r.in_ ud hl with ⟨ud2, hin⟩ | ⟨m, hin⟩
      · rw [hin]
        simp only [RRes.bind_ok]
        have hFail2 : ∃ p ∈ rest, locInstrResolves cfg p.1 = false ∨
            ∃ D ∈ p.2.in_, locInstrResolves cfg D = false := by
          obtain ⟨p, hp, hcase⟩ := hFail
          rcases List.mem_cons.mp hp with hp | hp
          · subst hp
            rcases hcase with hcase | ⟨D, hD, hres⟩
            · obtain ⟨b, i, hshape, m2, herr⟩ := locInstrResolves_false_shape cfg _ hcase
              have hshape2 : loc = AnalysisLocation.instruction b i := hshape
              rw [hshape2] at hhay
              rw [haystackOf_instruction_err cfg b i m2 herr] at hhay
              cases hhay
            · obtain ⟨b, i, hshape, m2, herr⟩ := locInstrResolves_false_shape cfg _ hres
              obtain ⟨m3, hin2⟩ := udInner_err_of_fail cfg loc hs0 r.in_ ud hl
                ⟨D, hD, hres, b, i, hshape⟩
              rw [hin] at hin2
              cases hin2
          · exact ⟨p, hp, hcase⟩
        have hk2 := (udInner_ok_char cfg loc hs0 r.in_ ud ud2 hin).1
        have hinv2 : ∀ X, (mget ud2 X).isSome ↔ X ∈ K := by
          intro X
          have hmm : X ∈ mkeys ud2 ↔ X ∈ mkeys ud := by rw [hk2]
          exact (isSome_iff_mem_mkeys ud2 X).trans
            (hmm.trans ((isSome_iff_mem_mkeys ud X).symm.trans (hinv X)))
        exact ih ud2 hinv2 (fun p hp => hMem p (List.mem_cons_of_mem _ hp))
          (fun p hp => hE p (List.mem_cons_of_mem _ hp)) hFail2
      · rw [hin]
        exact ⟨m, rfl⟩
    · rw [hhay]
      exact ⟨m, rfl⟩

/-- The initialization fold of both builders keys exactly the keys of
the reaching-definitions map. -/
theorem initMap_isSome_iff (rd : List (AnalysisLocation × Reaches))
    (X : AnalysisLocation) :
    (mget (rd.foldl (fun m p => minsert m p.1 (∅ : Finset AnalysisLocation)) []) X).isSome
      ↔ X ∈ mkeys rd := by
  rw [mget_initMap]
  by_cases hX : X ∈ mkeys rd
  · simp [hX]
  · simp [hX]

end Analysis

/-- C6: the claim states that a failure to resolve any AnalysisLocation
variant, the Edge variant included, is returned by def_use and use_def
as an error. For the Edge variant this is false: both builders unwrap
the Edge resolution, so a reaching-definitions map keyed by an Edge
location that no longer exists in the CFG makes def_use and use_def
panic instead of returning the error. -/
theorem claim_C6_counterexample :
    (Analysis.edgeFind Analysis.emptyCFG 0 1 = .err "edge not found") ∧
    Analysis.def_use Analysis.unresolvableEdgeRD Analysis.emptyCFG = .panicked ∧
    Analysis.use_def Analysis.unresolvableEdgeRD Analysis.emptyCFG = .panicked :=
  ⟨rfl, rfl, rfl⟩

/-- The one-block CFG of the def-use round-trip scenario: block 0 holds
instruction 0 writing variable 1 and instruction 1 reading variable 1. -/
def roundTripCFG : IL.ControlFlowGraph Analysis.Instruction :=
  { graph :=
    { head := none,
      vertices := [(0, ⟨0, [⟨0, [], some 1⟩, ⟨1, [1], none⟩]⟩)],
      edges := [], edges_out := [(0, [])], edges_in := [(0, [])] },
    next_index := 1, next_temp_index := 0,
    entry := none, exit := none, ssa_form := false }

/-- C6 amended: for every reaching-definitions map and CFG in which
every Edge-variant key resolves and every definition that would trigger
an insertion is a key of the map, whenever resolving some
Instruction-variant location in the map (a key or a reaching definition)
fails, def_use and use_def return that failure as an error result to the
caller; an Edge-variant resolution failure instead causes a panic, as
the counterexample shows. -/
theorem claim_C6_amended_error_propagation
    (rd : List (Analysis.AnalysisLocation × Analysis.Reaches))
    (cfg : IL.ControlFlowGraph Analysis.Instruction)
    (hE : ∀ p ∈ rd, Analysis.locEdgeResolves cfg p.1 = true)
    (hK : ∀ p ∈ rd, ∀ D ∈ p.2.in_,
      Analysis.hayTriggers cfg p.1 D = true → D ∈ mkeys rd)
    (hFail : ∃ p ∈ rd, Analysis.locInstrResolves cfg p.1 = false ∨
      ∃ D ∈ p.2.in_, Analysis.locInstrResolves cfg D = false) :
    (∃ m, Analysis.def_use rd cfg = .err m) ∧
    (∃ m, Analysis.use_def rd cfg = .err m) := by
  constructor
  · exact Analysis.duOuter_err cfg (mkeys rd) rd _
      (Analysis.initMap_isSome_iff rd) hE hK hFail
  · exact Analysis.udOuter_err cfg (mkeys rd) rd _
      (Analysis.initMap_isSome_iff rd) (fun p hp => List.mem_map.mpr ⟨p, hp, rfl⟩)
      hE hFail

/-- A reaching-definitions map keyed by an Instruction location that
does not resolve against the empty CFG. -/
def unresolvableInstrRD : List (Analysis.AnalysisLocation × Analysis.Reaches) :=
  [(.instruction 0 0, ⟨[]⟩)]

/-- Witness for the amended C6 at a concrete input: an Instruction key
that does not resolve is returned as an error by both builders. -/
theorem claim_C6_amended_witness :
    (∃ m, Analysis.def_use unresolvableInstrRD Analysis.emptyCFG = .err m) ∧
    (∃ m, Analysis.use_def unresolvableInstrRD Analysis.emptyCFG = .err m) :=
  claim_C6_amended_error_propagation unresolvableInstrRD Analysis.emptyCFG
    (by decide) (by decide) (by decide)

/-- C10: when every haystack resolves and every reaching definition
resolves, but some definition location that triggers an insertion is not
itself a key of the reaching-definitions map, def_use panics on the
unwrap of the missing entry, whereas use_def on the same input returns
normally, because it only inserts under the keys it iterates. -/
theorem claim_C10_def_use_panics_use_def_ok
    (rd : List (Analysis.AnalysisLocation × Analysis.Reaches))
    (cfg : IL.ControlFlowGraph Analysis.Instruction)
    (hHay : ∀ p ∈ rd, (Analysis.haystackOf cfg p.1).isOkB = true)
    (hF : ∀ p ∈ rd, ∀ D ∈ p.2.in_, Analysis.locInstrResolves cfg D = true)
    (hW : ∃ p ∈ rd, ∃ D ∈ p.2.in_,
      Analysis.hayTriggers cfg p.1 D = true ∧ D ∉ mkeys rd) :
    Analysis.def_use rd cfg = .panicked ∧
    ∃ ud, Analysis.use_def rd cfg = .ok ud := by
  constructor
  · exact Analysis.duOuter_panics cfg (mkeys rd) rd _
      (Analysis.initMap_isSome_iff rd) hHay hF hW
  · exact Analysis.udOuter_oks cfg (mkeys rd) rd _
      (Analysis.initMap_isSome_iff rd) (fun p hp => List.mem_map.mpr ⟨p, hp, rfl⟩)
      hHay hF

/-- A reaching-definitions map whose only key is the reading instruction
and whose reaching definition, the writing instruction, is not a key. -/
def missingDefKeyRD : List (Analysis.AnalysisLocation × Analysis.Reaches) :=
  [(.instruction 0 1, ⟨[.instruction 0 0]⟩)]

/-- Witness for C10 at a concrete input: on the round-trip CFG with the
writing definition absent from the keys, def_use panics and use_def
returns ok. -/
theorem claim_C10_witness :
    Analysis.def_use missingDefKeyRD roundTripCFG = .panicked ∧
    ∃ ud, Analysis.use_def missingDefKeyRD roundTripCFG = .ok ud :=
  claim_C10_def_use_panics_use_def_ok missingDefKeyRD roundTripCFG
    (by decide) (by decide) (by decide)

/-- C7: when both builders succeed on a reaching-definitions map with
duplicate-free keys, the maps du = def_use(..) and ud = use_def(..) are
mutual inverses: for all keys D and L of the reaching-definitions map,
both entries exist and L lies in du[D] exactly when D lies in ud[L]. -/
theorem claim_C7_def_use_use_def_inverses
    (rd : List (Analysis.AnalysisLocation × Analysis.Reaches))
    (cfg : IL.ControlFlowGraph Analysis.Instruction)
    (du ud : List (Analysis.AnalysisLocation × Finset Analysis.AnalysisLocation))
    (hnd : (mkeys rd).Nodup)
    (hdu : Analysis.def_use rd cfg = .ok du)
    (hud : Analysis.use_def rd cfg = .ok ud)
    (D L : Analysis.AnalysisLocation)
    (hD : D ∈ mkeys rd) (hL : L ∈ mkeys rd) :
    ∃ SD SL, mget du D = some SD ∧ mget ud L = some SL ∧
      (L ∈ SD ↔ D ∈ SL) := by
  obtain ⟨hduk, hduv⟩ := Analysis.def_use_ok_char rd cfg du hdu hnd
  obtain ⟨hudk, hudv⟩ := Analysis.use_def_ok_char rd cfg ud hud hnd
  obtain ⟨SD, hSD⟩ := Option.isSome_iff_exists.mp ((hduk D).mpr hD)
  obtain ⟨SL, hSL⟩ := Option.isSome_iff_exists.mp ((hudk L).mpr hL)
  refine ⟨SD, SL, hSD, hSL, ?_⟩
  rw [hduv D SD hSD L, hudv L SL hSL D]

/-- The reaching definitions for the round-trip scenario: the writing
instruction reaches the reading one. -/
def roundTripRD : List (Analysis.AnalysisLocation × Analysis.Reaches) :=
  [(.instruction 0 0, ⟨[]⟩), (.instruction 0 1, ⟨[.instruction 0 0]⟩)]

/-- Witness for C7 at the concrete def-use round-trip scenario. -/
theorem claim_C7_witness :
    ∃ SD SL,
      mget [((Analysis.AnalysisLocation.instruction 0 0 : Analysis.AnalysisLocation),
              ({Analysis.AnalysisLocation.instruction 0 1} : Finset Analysis.AnalysisLocation)),
            (Analysis.AnalysisLocation.instruction 0 1, ∅)]
        (Analysis.AnalysisLocation.instruction 0 0) = some SD ∧
      mget [((Analysis.AnalysisLocation.instruction 0 0 : Analysis.AnalysisLocation),
              (∅ : Finset Analysis.AnalysisLocation)),
            (Analysis.AnalysisLocation.instruction 0 1, {Analysis.AnalysisLocation.instruction 0 0})]
        (Analysis.AnalysisLocation.instruction 0 1) = some SL ∧
      ((Analysis.AnalysisLocation.instruction 0 1) ∈ SD ↔
        (Analysis.AnalysisLocation.instruction 0 0) ∈ SL) :=
  claim_C7_def_use_use_def_inverses roundTripRD roundTripCFG _ _
    (by decide) rfl rfl
    (Analysis.AnalysisLocation.instruction 0 0)
    (Analysis.AnalysisLocation.instruction 0 1)
    (by decide) (by decide)

/-- C5: on every ControlFlowGraph holding exactly three blocks 0, 1, 2
and exactly the unconditional edges 0 to 1 and 1 to 2, merge() succeeds
and afterwards exactly one block remains, whose instruction sequence is
block 0's instructions followed by block 1's followed by block 2's. -/
theorem claim_C5_merge_three_chain {ι : Type} (l0 l1 l2 : List ι)
    (hd : Option Nat) (ni nti : Nat) (en ex : Option Nat) (ssa : Bool) :
    (IL.threeChainCFG l0 l1 l2 hd ni nti en ex ssa).merge 10 =
      .ok { graph :=
              { head := hd,
                vertices := [(0, ⟨0, l0 ++ l1 ++ l2⟩)],
                edges := [],
                edges_out := [(0, [])],
                edges_in := [(0, [])] },
            next_index := ni,
            next_temp_index := nti,
            entry := en,
            exit := ex,
            ssa_form := ssa } ∧
    ∀ cfg2, (IL.threeChainCFG l0 l1 l2 hd ni nti en ex ssa).merge 10 = .ok cfg2 →
      cfg2.graph.num_vertices = 1 := by
  have key : (IL.threeChainCFG l0 l1 l2 hd ni nti en ex ssa).merge 10 =
      .ok { graph :=
              { head := hd,
                vertices := [(0, ⟨0, l0 ++ l1 ++ l2⟩)],
                edges := [],
                edges_out := [(0, [])],
                edges_in := [(0, [])] },
            next_index := ni,
            next_temp_index := nti,
            entry := en,
            exit := ex,
            ssa_form := ssa } := by
    set_option maxRecDepth 100000 in rfl
  refine ⟨key, ?_⟩
  intro cfg2 h
  rw [key] at h
  injection h with h2
  subst h2
  rfl

end Falcon
